import Mathlib

/-!
# Verification of the graph/coding algorithm engines

A shallow embedding of the algorithmic core of the repository
(`src/dijkstra.py`, `src/prim.py`, `src/kruskal.py`, `src/huffman.py`)
together with proofs of the specified properties.

Modelling conventions:
* Node identifiers (Python strings) are modelled as `Nat`.
* Edge weights (Python non-negative floats) are modelled as `Nat`.
* A `networkx` undirected graph is modelled as a node list plus an edge
  list, bundled with the data-model invariants the spec requires of a
  loaded graph (distinct nodes, registered endpoints, no self loops, at
  most one edge per unordered pair).
* Python's `heapq` is modelled observationally as a min-priority queue
  over a plain list: popping returns the least entry of the list (under
  the same tuple order Python uses), which is exactly the observable
  behaviour of a binary heap.
* Python `dict`s keyed by graph nodes are modelled as functions out of
  `Nat`; `dict`s built up by insertion are modelled as association lists.
* Unbounded `while` loops are modelled with an explicit fuel argument;
  each algorithm is invoked with a fuel value proved (or checkable) to be
  sufficient, so the fuel-exhaustion branch is never taken on the stated
  inputs.
* A Python function that can raise is modelled with `Except`/`Option`.
-/

/-! ## Graph model (`utils/graph_utils.py` loader output, §3 of the spec) -/

/-- Two (directed) edge triples name the same unordered node pair. -/
def sameEdgePair (e f : Nat × Nat × Nat) : Prop :=
  (e.1 = f.1 ∧ e.2.1 = f.2.1) ∨ (e.1 = f.2.1 ∧ e.2.1 = f.1)

instance (e f : Nat × Nat × Nat) : Decidable (sameEdgePair e f) := by
  unfold sameEdgePair; infer_instance

/-- A weighted undirected graph: the value delivered by the graph loader.
The propositional fields are the data-model invariants of spec §3
(distinct nodes; both endpoints registered; no self loop; at most one
edge between any unordered pair of nodes). -/
structure Graph where
  nodes : List Nat
  edges : List (Nat × Nat × Nat)
  nodesNodup : nodes.Nodup
  edgesMem : ∀ e ∈ edges, e.1 ∈ nodes ∧ e.2.1 ∈ nodes
  edgesIrrefl : ∀ e ∈ edges, e.1 ≠ e.2.1
  edgesPairNodup : edges.Pairwise (fun e f => ¬ sameEdgePair e f)

/-- `grafo.neighbors(x)`: all nodes sharing an edge with `x`. -/
def Graph.neighbors (g : Graph) (x : Nat) : List Nat :=
  g.edges.filterMap fun e =>
    if e.1 = x then some e.2.1 else if e.2.1 = x then some e.1 else none

/-- `grafo[u][v]['weight']`: the weight of the unique edge joining `u`
and `v` (junk value `0` when the pair is not an edge; the algorithms
only query adjacent pairs). -/
def Graph.weight (g : Graph) (u v : Nat) : Nat :=
  match g.edges.find? (fun e =>
      (e.1 == u && e.2.1 == v) || (e.1 == v && e.2.1 == u)) with
  | some e => e.2.2
  | none => 0

/-- Adjacency as a proposition: some edge joins `u` and `v`. -/
def Graph.Adj (g : Graph) (u v : Nat) : Prop :=
  ∃ w, (u, v, w) ∈ g.edges ∨ (v, u, w) ∈ g.edges

/-- Connectivity: the reflexive-transitive closure of adjacency. -/
def Graph.Conn (g : Graph) (u v : Nat) : Prop :=
  Relation.ReflTransGen g.Adj u v

/-! ## Min-priority queue over a list (model of `heapq`) -/

/-- Strict lexicographic order on `(distance, node)` heap entries:
the order `heapq` uses on Python tuples. -/
def pairLt (a b : Nat × Nat) : Prop :=
  a.1 < b.1 ∨ (a.1 = b.1 ∧ a.2 < b.2)

instance (a b : Nat × Nat) : Decidable (pairLt a b) := by
  unfold pairLt; infer_instance

/-- Leftmost minimal entry of `e :: l` under `pairLt`. -/
def findMinPair (e : Nat × Nat) : List (Nat × Nat) → Nat × Nat
  | [] => e
  | f :: rest => if pairLt f e then findMinPair f rest else findMinPair e rest

/-- `heapq.heappop` on a nonempty list-heap of `(distance, node)`
entries: returns the least entry and the remaining entries. -/
def heapPop (l : List (Nat × Nat)) : Option ((Nat × Nat) × List (Nat × Nat)) :=
  match l with
  | [] => none
  | e :: rest =>
    let m := findMinPair e rest
    some (m, (e :: rest).erase m)

/-! ## Dijkstra (`src/dijkstra.py`) -/

/-- Distances: `float('inf')`-capable values. -/
abbrev DistV := WithTop Nat

/-- The `for vecino in grafo.neighbors(nodo_actual)` relaxation loop of
`algoritmo_dijkstra`, folded over the neighbour list. `vis` already
contains the node `u` being finalized, matching the Python order of
operations. Returns the updated heap, distance map and predecessor
map. -/
def relaxNeighbors (g : Graph) (d u : Nat) :
    List Nat → List Nat → List (Nat × Nat) → (Nat → DistV) → (Nat → Option Nat) →
    (List (Nat × Nat) × (Nat → DistV) × (Nat → Option Nat))
  | [], _, heap, dist, pred => (heap, dist, pred)
  | v :: rest, vis, heap, dist, pred =>
    if v ∈ vis then relaxNeighbors g d u rest vis heap dist pred
    else
      let nd := d + g.weight u v
      if (nd : DistV) < dist v then
        relaxNeighbors g d u rest vis ((nd, v) :: heap)
          (fun x => if x = v then (nd : DistV) else dist x)
          (fun x => if x = v then some u else pred x)
      else relaxNeighbors g d u rest vis heap dist pred

/-- The `while heap:` loop of `algoritmo_dijkstra` (lazy-deletion
Dijkstra), with explicit fuel. -/
def dijkstraLoop (g : Graph) :
    Nat → List (Nat × Nat) → List Nat → (Nat → DistV) → (Nat → Option Nat) →
    ((Nat → DistV) × (Nat → Option Nat))
  | 0, _, _, dist, pred => (dist, pred)
  | fuel + 1, heap, vis, dist, pred =>
    match heapPop heap with
    | none => (dist, pred)
    | some ((d, u), heap') =>
      if u ∈ vis then dijkstraLoop g fuel heap' vis dist pred
      else
        let vis' := u :: vis
        let st := relaxNeighbors g d u (g.neighbors u) vis' heap' dist pred
        dijkstraLoop g fuel st.1 vis' st.2.1 st.2.2

/-- An upper bound on the remaining work of the Dijkstra/Prim loops:
one unit per heap entry plus, for every unvisited node, one unit for its
future finalization and one per future push of each of its neighbours. -/
def loopFuel (g : Graph) (heapLen : Nat) (vis : List Nat) : Nat :=
  heapLen + ((g.nodes.filter (fun v => v ∉ vis)).map
    (fun v => 1 + (g.neighbors v).length)).sum

/-- The computation `algoritmo_dijkstra` performs once the source node
has been validated: the lazy-deletion loop seeded with `(0, source)`,
distances initialized to infinity except `source ↦ 0`, predecessors to
`None`. -/
def dijkstraRun (g : Graph) (s : Nat) : (Nat → DistV) × (Nat → Option Nat) :=
  dijkstraLoop g (loopFuel g 1 []) [(0, s)] []
    (fun v => if v = s then (0 : DistV) else ⊤) (fun _ => none)

/-- `algoritmo_dijkstra(grafo, nodo_origen)`: raises (`Except.error`,
modelling the `ValueError`) when the requested source is not a node of
the graph, before any computation; otherwise returns the distance and
predecessor maps. -/
def algoritmo_dijkstra (g : Graph) (s : Nat) :
    Except String ((Nat → DistV) × (Nat → Option Nat)) :=
  if s ∈ g.nodes then .ok (dijkstraRun g s)
  else .error "El nodo origen no existe en el grafo"

/-- The `while nodo_actual is not None` walk of `reconstruir_camino`:
the target, then its predecessor, and so on (fuel-bounded; the chains
produced by Dijkstra are shorter than the node count). -/
def walkPreds (pred : Nat → Option Nat) : Nat → Nat → List Nat
  | 0, x => [x]
  | fuel + 1, x =>
    x :: (match pred x with
          | none => []
          | some y => walkPreds pred fuel y)

/-- `reconstruir_camino(nodo_destino, predecesores)`: `none` when the
target has no recorded predecessor, otherwise the reversed predecessor
walk (the final length-1 re-check is the dead guard of the source). -/
def reconstruir_camino (t : Nat) (pred : Nat → Option Nat) (fuel : Nat) :
    Option (List Nat) :=
  if pred t = none then none
  else
    let camino := (walkPreds pred fuel t).reverse
    if camino.length = 1 ∧ pred (camino.headD 0) ≠ none then none
    else some camino

/-! ## Prim (`src/prim.py`) -/

/-- Order on `Option Nat` matching the role of the optional predecessor
in Prim's heap triples (the `None` entry is never actually compared in a
run, see `src/prim.py`; any fixed order is observationally adequate). -/
def optLt (a b : Option Nat) : Prop :=
  match a, b with
  | none, none => False
  | none, some _ => True
  | some _, none => False
  | some x, some y => x < y

instance (a b : Option Nat) : Decidable (optLt a b) := by
  unfold optLt
  rcases a with _ | x <;> rcases b with _ | y <;> infer_instance

/-- Strict lexicographic order on Prim's `(weight, node, predecessor)`
heap entries. -/
def tripLt (a b : Nat × Nat × Option Nat) : Prop :=
  a.1 < b.1 ∨ (a.1 = b.1 ∧ (a.2.1 < b.2.1 ∨ (a.2.1 = b.2.1 ∧ optLt a.2.2 b.2.2)))

instance (a b : Nat × Nat × Option Nat) : Decidable (tripLt a b) := by
  unfold tripLt; infer_instance

/-- Leftmost minimal entry of `e :: l` under `tripLt`. -/
def findMinTrip (e : Nat × Nat × Option Nat) :
    List (Nat × Nat × Option Nat) → Nat × Nat × Option Nat
  | [] => e
  | f :: rest => if tripLt f e then findMinTrip f rest else findMinTrip e rest

/-- `heapq.heappop` on Prim's list-heap. -/
def heapPopP (l : List (Nat × Nat × Option Nat)) :
    Option ((Nat × Nat × Option Nat) × List (Nat × Nat × Option Nat)) :=
  match l with
  | [] => none
  | e :: rest =>
    let m := findMinTrip e rest
    some (m, (e :: rest).erase m)

/-- The `for vecino in grafo.neighbors(nodo_actual)` push loop of
`algoritmo_prim`: pushes `(weight, neighbour, current)` for every
unvisited neighbour. -/
def pushNeighbors (g : Graph) (u : Nat) :
    List Nat → List Nat → List (Nat × Nat × Option Nat) →
    List (Nat × Nat × Option Nat)
  | [], _, heap => heap
  | v :: rest, vis, heap =>
    if v ∈ vis then pushNeighbors g u rest vis heap
    else pushNeighbors g u rest vis (heap ++ [(g.weight u v, v, some u)])

/-- The `while heap and len(visitados) < len(grafo.nodes())` loop of
`algoritmo_prim`, with explicit fuel. -/
def primLoop (g : Graph) :
    Nat → List (Nat × Nat × Option Nat) → List Nat →
    List (Nat × Nat × Nat) → Nat → (List (Nat × Nat × Nat) × Nat)
  | 0, _, _, mst, total => (mst, total)
  | fuel + 1, heap, vis, mst, total =>
    if vis.length < g.nodes.length then
      match heapPopP heap with
      | none => (mst, total)
      | some ((w, u, prev), heap') =>
        if u ∈ vis then primLoop g fuel heap' vis mst total
        else
          let vis' := u :: vis
          match prev with
          | none =>
            primLoop g fuel (pushNeighbors g u (g.neighbors u) vis' heap')
              vis' mst total
          | some p =>
            primLoop g fuel (pushNeighbors g u (g.neighbors u) vis' heap')
              vis' (mst ++ [(p, u, w)]) (total + w)
    else (mst, total)

/-- `algoritmo_prim(grafo, nodo_inicio)`: empty graph short-circuits;
otherwise the frontier is seeded with `(0, start, None)` where the start
defaults to the first listed node. Returns the selected edges in
acceptance order and their total weight. -/
def algoritmo_prim (g : Graph) (inicio : Option Nat) :
    List (Nat × Nat × Nat) × Nat :=
  if g.nodes.length = 0 then ([], 0)
  else
    let start := match inicio with
      | none => g.nodes.headD 0
      | some s => s
    primLoop g (loopFuel g 1 []) [(0, start, none)] [] [] 0

/-! ## Union-Find and Kruskal (`src/kruskal.py`) -/

/-- The Union-Find state: the registered elements (dict keys) and the
`padre`/`rango` dicts, modelled as total functions that are only
meaningful on the registered elements. -/
structure UnionFind where
  elems : List Nat
  padre : Nat → Nat
  rango : Nat → Nat

/-- `UnionFind.__init__(elementos)`: every element is its own parent
with rank 0. -/
def UnionFind.make (elementos : List Nat) : UnionFind :=
  { elems := elementos, padre := fun x => x, rango := fun _ => 0 }

/-- The recursive body of `UnionFind.encontrar` with path compression,
fuel-bounded: returns the root found and the rewritten parent map.
Under the forest invariant the fuel `|elems|` is never exhausted. -/
def encontrarF (p : Nat → Nat) : Nat → Nat → Nat × (Nat → Nat)
  | 0, x => (x, p)
  | fuel + 1, x =>
    if p x = x then (x, p)
    else
      let r := encontrarF p fuel (p x)
      (r.1, fun y => if y = x then r.1 else r.2 y)

/-- `UnionFind.encontrar(elemento)`: the set representative, with path
compression as a state change. -/
def UnionFind.encontrar (uf : UnionFind) (x : Nat) : Nat × UnionFind :=
  let r := encontrarF uf.padre uf.elems.length x
  (r.1, { uf with padre := r.2 })

/-- `UnionFind.unir(elem1, elem2)`: union by rank; `false` when both
elements already share a representative. -/
def UnionFind.unir (uf : UnionFind) (x y : Nat) : Bool × UnionFind :=
  let f1 := uf.encontrar x
  let f2 := f1.2.encontrar y
  let r1 := f1.1
  let r2 := f2.1
  let uf2 := f2.2
  if r1 = r2 then (false, uf2)
  else if uf2.rango r1 < uf2.rango r2 then
    (true, { uf2 with padre := fun z => if z = r1 then r2 else uf2.padre z })
  else if uf2.rango r2 < uf2.rango r1 then
    (true, { uf2 with padre := fun z => if z = r2 then r1 else uf2.padre z })
  else
    (true, { uf2 with
      padre := fun z => if z = r2 then r1 else uf2.padre z,
      rango := fun z => if z = r1 then uf2.rango r1 + 1 else uf2.rango z })

/-- Non-strict lexicographic order on Kruskal's `(weight, u, v)` edge
triples: the order `aristas.sort()` uses. -/
def tripleLe (a b : Nat × Nat × Nat) : Prop :=
  a.1 < b.1 ∨ (a.1 = b.1 ∧ (a.2.1 < b.2.1 ∨ (a.2.1 = b.2.1 ∧ a.2.2 ≤ b.2.2)))

instance : DecidableRel tripleLe := by
  intro a b; unfold tripleLe; infer_instance

instance : IsTotal (Nat × Nat × Nat) tripleLe := by
  constructor; intro a b; unfold tripleLe; omega

instance : IsTrans (Nat × Nat × Nat) tripleLe := by
  constructor; intro a b c; unfold tripleLe; omega

/-- The `for peso, u, v in aristas` loop of `algoritmo_kruskal`,
including the early break at `|V| - 1` accepted edges. -/
def kruskalLoop (g : Graph) :
    List (Nat × Nat × Nat) → UnionFind → List (Nat × Nat × Nat) → Nat →
    (List (Nat × Nat × Nat) × Nat)
  | [], _, mst, total => (mst, total)
  | (w, u, v) :: rest, uf, mst, total =>
    let r := uf.unir u v
    if r.1 then
      let mst' := mst ++ [(u, v, w)]
      let total' := total + w
      if mst'.length = g.nodes.length - 1 then (mst', total')
      else kruskalLoop g rest r.2 mst' total'
    else kruskalLoop g rest r.2 mst total

/-- `algoritmo_kruskal(grafo)`: sort all `(weight, u, v)` triples
ascending, then greedily accept every edge whose endpoints Union-Find
still separates. (`aristas.sort()` is modelled by `insertionSort` under
the same lexicographic order: the triples are pairwise distinct, so the
sorted permutation is unique.) -/
def algoritmo_kruskal (g : Graph) : List (Nat × Nat × Nat) × Nat :=
  if g.nodes.length = 0 then ([], 0)
  else
    let aristas := (g.edges.map (fun e => (e.2.2, e.1, e.2.1))).insertionSort tripleLe
    kruskalLoop g aristas (UnionFind.make g.nodes) [] 0

/-! ## Huffman (`src/huffman.py`) -/

/-- A node of the Huffman tree (`NodoHuffman`): a leaf holds a symbol
and its frequency; an internal node holds the combined frequency and
its two children (the builder always sets both children, which the spec
records as a tree invariant). -/
inductive NodoHuffman where
  | hoja (caracter : Nat) (frecuencia : Nat)
  | interno (frecuencia : Nat) (izquierdo derecho : NodoHuffman)
deriving DecidableEq

/-- The `frecuencia` attribute. -/
def NodoHuffman.frecuencia : NodoHuffman → Nat
  | hoja _ f => f
  | interno f _ _ => f

/-- One symbol tallied into a `collections.Counter` table: bump the
existing entry or append a fresh one. -/
def counterStep (acc : List (Nat × Nat)) (c : Nat) : List (Nat × Nat) :=
  if acc.any (fun p => p.1 == c) then
    acc.map (fun p => if p.1 == c then (p.1, p.2 + 1) else p)
  else acc ++ [(c, 1)]

/-- `collections.Counter(texto)`: per-symbol occurrence counts, keyed in
first-appearance order. -/
def counterOf (texto : List Nat) : List (Nat × Nat) :=
  texto.foldl counterStep []

/-- `heapq.heappop` on the Huffman list-heap: the leftmost node of
minimal frequency (`NodoHuffman.__lt__` orders by frequency only; which
equal-frequency node a binary heap yields is an internal tie, fixed
here as the leftmost). -/
def extractMinFreq : List NodoHuffman → Option (NodoHuffman × List NodoHuffman)
  | [] => none
  | n :: rest =>
    match extractMinFreq rest with
    | none => some (n, [])
    | some (m, rest') =>
      if m.frecuencia < n.frecuencia then some (m, n :: rest')
      else some (n, rest)

/-- The `while len(heap) > 1` combining loop of
`construir_arbol_huffman`, with explicit fuel (one unit per combine). -/
def construirLoop : Nat → List NodoHuffman → List NodoHuffman
  | 0, heap => heap
  | fuel + 1, heap =>
    if heap.length ≤ 1 then heap
    else
      match extractMinFreq heap with
      | none => heap
      | some (izq, h1) =>
        match extractMinFreq h1 with
        | none => heap
        | some (der, h2) =>
          construirLoop fuel
            (h2 ++ [NodoHuffman.interno (izq.frecuencia + der.frecuencia) izq der])

/-- `construir_arbol_huffman(texto)`: `None` for empty text, otherwise
the root left by combining the two lowest-frequency nodes until one
remains. -/
def construir_arbol_huffman (texto : List Nat) : Option NodoHuffman :=
  if texto = [] then none
  else
    let heap := (counterOf texto).map (fun p => NodoHuffman.hoja p.1 p.2)
    (construirLoop heap.length heap).head?

/-- `codigos[caracter] = ...`: Python dict insert-or-overwrite on the
code table. -/
def dictInsert (k : Nat) (v : List Bool) (d : List (Nat × List Bool)) :
    List (Nat × List Bool) :=
  if d.any (fun p => p.1 == k) then
    d.map (fun p => if p.1 == k then (k, v) else p)
  else d ++ [(k, v)]

/-- The recursive body of `generar_codigos` on a non-`None` node: a leaf
stores its accumulated path (the conventional `"0"` when the path is
empty), an internal node recurses left with bit `0` (`false`) and right
with bit `1` (`true`). -/
def generarAux : NodoHuffman → List Bool → List (Nat × List Bool) →
    List (Nat × List Bool)
  | .hoja c _, cod, dict => dictInsert c (if cod = [] then [false] else cod) dict
  | .interno _ izq der, cod, dict =>
    generarAux der (cod ++ [true]) (generarAux izq (cod ++ [false]) dict)

/-- `generar_codigos(nodo)` as called by the pipeline: empty table for a
`None` tree, otherwise the leaf-path table of the tree. -/
def generar_codigos (nodo : Option NodoHuffman) : List (Nat × List Bool) :=
  match nodo with
  | none => []
  | some t => generarAux t [] []

/-! ### Sanity checks on the worked example of spec §8
(graph A-B:1, B-C:2, A-C:3 with A=0, B=1, C=2). -/

/-- The three-node example graph of spec §8, scenario 1. -/
def gABC : Graph :=
  { nodes := [0, 1, 2]
    edges := [(0, 1, 1), (1, 2, 2), (0, 2, 3)]
    nodesNodup := by decide
    edgesMem := by decide
    edgesIrrefl := by decide
    edgesPairNodup := by decide }

/-- A graph with an isolated node: nodes 0,1,2 and the single edge
0-1 of weight 1 (spec §8 scenario 3 shape; node 2 is unreachable
from 0). -/
def gIso : Graph :=
  { nodes := [0, 1, 2]
    edges := [(0, 1, 1)]
    nodesNodup := by decide
    edgesMem := by decide
    edgesIrrefl := by decide
    edgesPairNodup := by decide }

/-! ## Source-row invariance of the Dijkstra loop

With non-negative weights no relaxation can improve the source's
distance 0, so the source's distance and predecessor entries are never
written. -/

lemma relaxNeighbors_source_unchanged (g : Graph) (s d u : Nat) (ns : List Nat) :
    ∀ (vis : List Nat) (heap : List (Nat × Nat)) (dist : Nat → DistV)
      (pred : Nat → Option Nat), dist s = 0 → pred s = none →
      (relaxNeighbors g d u ns vis heap dist pred).2.1 s = 0 ∧
      (relaxNeighbors g d u ns vis heap dist pred).2.2 s = none := by
  induction ns with
  | nil => intro vis heap dist pred hd hp; exact ⟨hd, hp⟩
  | cons v rest ih =>
    intro vis heap dist pred hd hp
    simp only [relaxNeighbors]
    split_ifs with hv hlt
    · exact ih vis heap dist pred hd hp
    · have hvs : s ≠ v := by
        intro h
        rw [← h, hd] at hlt
        exact absurd hlt (not_lt.mpr (zero_le _))
      exact ih _ _ _ _ (by simpa [hvs] using hd) (by simpa [hvs] using hp)
    · exact ih vis heap dist pred hd hp

lemma dijkstraLoop_source_unchanged (g : Graph) (s : Nat) (fuel : Nat) :
    ∀ (heap : List (Nat × Nat)) (vis : List Nat) (dist : Nat → DistV)
      (pred : Nat → Option Nat), dist s = 0 → pred s = none →
      (dijkstraLoop g fuel heap vis dist pred).1 s = 0 ∧
      (dijkstraLoop g fuel heap vis dist pred).2 s = none := by
  induction fuel with
  | zero => intro heap vis dist pred hd hp; exact ⟨hd, hp⟩
  | succ n ih =>
    intro heap vis dist pred hd hp
    cases hpop : heapPop heap with
    | none => simpa [dijkstraLoop, hpop] using ⟨hd, hp⟩
    | some pr =>
      obtain ⟨⟨d, u⟩, heap'⟩ := pr
      by_cases hu : u ∈ vis
      · simpa [dijkstraLoop, hpop, hu] using ih heap' vis dist pred hd hp
      · have hrel := relaxNeighbors_source_unchanged g s d u (g.neighbors u)
          (u :: vis) heap' dist pred hd hp
        simpa [dijkstraLoop, hpop, hu] using
          ih _ (u :: vis) _ _ hrel.1 hrel.2

lemma dijkstraRun_source_none (g : Graph) (s : Nat) :
    (dijkstraRun g s).1 s = 0 ∧ (dijkstraRun g s).2 s = none :=
  dijkstraLoop_source_unchanged g s (loopFuel g 1 []) [(0, s)] []
    (fun v => if v = s then (0 : DistV) else ⊤) (fun _ => none)
    (by simp) rfl

/-- C2 (counterexample). On the graph 0-1 with isolated node 2,
Dijkstra from source 0 leaves both the source 0 and the unreachable
node 2 without a recorded predecessor, and `reconstruir_camino` returns
the "no path" outcome `None` for BOTH: the source does not yield a
trivial/empty path, and the two cases are not distinguished, contrary
to the claim. -/
theorem reconstruir_camino_source_counterexample :
    (dijkstraRun gIso 0).1 0 = 0 ∧
    (dijkstraRun gIso 0).1 2 = ⊤ ∧
    reconstruir_camino 0 (dijkstraRun gIso 0).2 3 = none ∧
    reconstruir_camino 2 (dijkstraRun gIso 0).2 3 = none := by
  decide

/-- C2 (amended): for every predecessor map produced by
`algoritmo_dijkstra`, the source never has a recorded predecessor, and
every target without a recorded predecessor — the source as well as any
unreachable node — yields the same "no path" outcome `None` from
`reconstruir_camino`; the two cases are NOT distinguished. -/
theorem reconstruir_camino_conflates_source_and_unreachable
    (g : Graph) (s t fuel : Nat) (ht : (dijkstraRun g s).2 t = none) :
    (dijkstraRun g s).2 s = none ∧
    reconstruir_camino t (dijkstraRun g s).2 fuel = none :=
  ⟨(dijkstraRun_source_none g s).2, by simp [reconstruir_camino, ht]⟩

/-- C2 (witness): the amended theorem applied to the concrete graph
`gIso`, source 0, unreachable target 2. -/
theorem reconstruir_camino_conflates_witness :
    (dijkstraRun gIso 0).2 0 = none ∧
    reconstruir_camino 2 (dijkstraRun gIso 0).2 3 = none :=
  reconstruir_camino_conflates_source_and_unreachable gIso 0 2 3 (by decide)

/-- C8: a requested source node absent from the graph is rejected with
the unknown-node `ValueError` before any computation: the result is the
error alone, with no distance or predecessor maps. -/
theorem dijkstra_unknown_source_rejected (g : Graph) (s : Nat)
    (h : s ∉ g.nodes) :
    algoritmo_dijkstra g s = .error "El nodo origen no existe en el grafo" := by
  simp [algoritmo_dijkstra, h]

/-- C8 (witness): the rejection theorem applied to the concrete graph
`gABC` and the absent node 7. -/
theorem dijkstra_unknown_source_rejected_witness :
    algoritmo_dijkstra gABC 7 = .error "El nodo origen no existe en el grafo" :=
  dijkstra_unknown_source_rejected gABC 7 (by decide)

/-- C1 (counterexample): on the empty input the Huffman builder silently
returns the null tree (`None`) instead of signalling an invalid-input
error, and the derived code table is silently empty. -/
theorem huffman_empty_input_not_rejected :
    construir_arbol_huffman [] = none ∧
    generar_codigos (construir_arbol_huffman []) = [] := by
  decide

/-- C1 (amended): for the empty input sequence
`construir_arbol_huffman` returns the null tree `None` without raising
any error, and the Huffman pipeline then produces an empty code table —
a silent empty result, not an invalid-input rejection. -/
theorem huffman_empty_input_silent_null_result :
    construir_arbol_huffman [] = none ∧
    generar_codigos none = [] ∧
    generar_codigos (construir_arbol_huffman []) = [] := by
  decide

/-! ## C9: single distinct symbol -/

lemma counterStep_same (c k : Nat) : counterStep [(c, k)] c = [(c, k + 1)] := by
  simp [counterStep]

lemma foldl_counterStep_uniform (c : Nat) :
    ∀ (l : List Nat) (k : Nat), (∀ x ∈ l, x = c) →
      List.foldl counterStep [(c, k)] l = [(c, k + l.length)] := by
  intro l
  induction l with
  | nil => intro k _; simp
  | cons x rest ih =>
    intro k hall
    have hx : x = c := hall x (by simp)
    subst hx
    rw [List.foldl_cons, counterStep_same]
    rw [ih (k + 1) (fun y hy => hall y (by simp [hy]))]
    simp [Nat.add_assoc, Nat.add_comm 1]

lemma counterOf_uniform (texto : List Nat) (c : Nat) (hne : texto ≠ [])
    (hall : ∀ x ∈ texto, x = c) : counterOf texto = [(c, texto.length)] := by
  cases texto with
  | nil => exact absurd rfl hne
  | cons x rest =>
    have hx : x = c := hall x (by simp)
    subst hx
    unfold counterOf
    rw [List.foldl_cons]
    have h0 : counterStep [] x = [(x, 1)] := by simp [counterStep]
    rw [h0, foldl_counterStep_uniform x rest 1 (fun y hy => hall y (by simp [hy]))]
    simp [Nat.add_comm]

/-- C9: for a non-empty text with exactly one distinct symbol, the
Huffman builder returns a single leaf holding that symbol (with its
total count as frequency), and the derived table assigns it the
conventional non-empty code `"0"` (here `[false]`), of length 1 ≥ 1. -/
theorem huffman_single_symbol_leaf_code (texto : List Nat) (c : Nat)
    (hne : texto ≠ []) (hall : ∀ x ∈ texto, x = c) :
    construir_arbol_huffman texto = some (.hoja c texto.length) ∧
    generar_codigos (construir_arbol_huffman texto) = [(c, [false])] := by
  have hc : construir_arbol_huffman texto = some (.hoja c texto.length) := by
    unfold construir_arbol_huffman
    rw [if_neg hne, counterOf_uniform texto c hne hall]
    simp [construirLoop]
  refine ⟨hc, ?_⟩
  rw [hc]
  simp [generar_codigos, generarAux, dictInsert]

/-- C9 (witness): the single-symbol theorem applied to the concrete
text "xxx" (symbol 7 repeated three times). -/
theorem huffman_single_symbol_leaf_code_witness :
    construir_arbol_huffman [7, 7, 7] = some (.hoja 7 3) ∧
    generar_codigos (construir_arbol_huffman [7, 7, 7]) = [(7, [false])] :=
  huffman_single_symbol_leaf_code [7, 7, 7] 7 (by decide) (by decide)

/-! ## C7: prefix-freedom of the derived code table -/

/-- The codes `generar_codigos` writes for the leaves of a (sub)tree
reached through accumulated path `cod`: leaf-paths, with the
conventional `"0"` at an isolated root leaf. -/
def pathCodes : NodoHuffman → List Bool → List (List Bool)
  | .hoja _ _, cod => [if cod = [] then [false] else cod]
  | .interno _ izq der, cod =>
    pathCodes izq (cod ++ [false]) ++ pathCodes der (cod ++ [true])

lemma pathCodes_extend :
    ∀ (t : NodoHuffman) (cod : List Bool), cod ≠ [] →
      ∀ c ∈ pathCodes t cod, cod <+: c := by
  intro t
  induction t with
  | hoja ch f =>
    intro cod hne c hc
    simp only [pathCodes, if_neg hne, List.mem_singleton] at hc
    exact hc ▸ List.prefix_refl cod
  | interno f izq der ihl ihr =>
    intro cod _ c hc
    rcases List.mem_append.mp hc with h | h
    · exact (List.prefix_append cod [false]).trans
        (ihl (cod ++ [false]) (by simp) c h)
    · exact (List.prefix_append cod [true]).trans
        (ihr (cod ++ [true]) (by simp) c h)

lemma prefix_eq_of_length {p1 p2 l : List Bool} (h1 : p1 <+: l)
    (h2 : p2 <+: l) (hlen : p1.length = p2.length) : p1 = p2 := by
  rcases List.prefix_of_prefix_length_le h1 h2 (le_of_eq hlen) with hp
  exact List.IsPrefix.eq_of_length hp hlen

lemma pathCodes_pairwise :
    ∀ (t : NodoHuffman) (cod : List Bool),
      ∀ c1 ∈ pathCodes t cod, ∀ c2 ∈ pathCodes t cod,
        c1 ≠ c2 → ¬ c1 <+: c2 := by
  intro t
  induction t with
  | hoja ch f =>
    intro cod c1 h1 c2 h2 hne
    simp only [pathCodes, List.mem_singleton] at h1 h2
    exact absurd (h1.trans h2.symm) hne
  | interno f izq der ihl ihr =>
    intro cod c1 h1 c2 h2 hne hpre
    rcases List.mem_append.mp h1 with hl1 | hr1 <;>
      rcases List.mem_append.mp h2 with hl2 | hr2
    · exact ihl (cod ++ [false]) c1 hl1 c2 hl2 hne hpre
    · have hp1 : (cod ++ [false]) <+: c2 :=
        (pathCodes_extend izq (cod ++ [false]) (by simp) c1 hl1).trans hpre
      have hp2 : (cod ++ [true]) <+: c2 :=
        pathCodes_extend der (cod ++ [true]) (by simp) c2 hr2
      have := prefix_eq_of_length hp1 hp2 (by simp)
      simp at this
    · have hp1 : (cod ++ [true]) <+: c2 :=
        (pathCodes_extend der (cod ++ [true]) (by simp) c1 hr1).trans hpre
      have hp2 : (cod ++ [false]) <+: c2 :=
        pathCodes_extend izq (cod ++ [false]) (by simp) c2 hl2
      have := prefix_eq_of_length hp1 hp2 (by simp)
      simp at this
    · exact ihr (cod ++ [true]) c1 hr1 c2 hr2 hne hpre

lemma generarAux_values :
    ∀ (t : NodoHuffman) (cod : List Bool) (dict : List (Nat × List Bool)),
      ∀ e ∈ generarAux t cod dict,
        e.2 ∈ dict.map Prod.snd ∨ e.2 ∈ pathCodes t cod := by
  intro t
  induction t with
  | hoja ch f =>
    intro cod dict e he
    have hv : (if cod = [] then [false] else cod) ∈
        pathCodes (NodoHuffman.hoja ch f) cod := by
      simp [pathCodes]
    simp only [generarAux, dictInsert] at he
    by_cases hmem : dict.any (fun p => p.1 == ch)
    · rw [if_pos hmem] at he
      rcases List.mem_map.mp he with ⟨p, hp, hpe⟩
      by_cases hpc : p.1 = ch
      · rw [if_pos (by simp [hpc])] at hpe
        exact .inr (by rw [← hpe]; exact hv)
      · rw [if_neg (by simp [hpc])] at hpe
        exact .inl (hpe ▸ List.mem_map.mpr ⟨p, hp, rfl⟩)
    · rw [if_neg hmem] at he
      rcases List.mem_append.mp he with h | h
      · exact .inl (List.mem_map.mpr ⟨e, h, rfl⟩)
      · simp only [List.mem_singleton] at h
        exact .inr (by rw [h]; exact hv)
  | interno f izq der ihl ihr =>
    intro cod dict e he
    rcases ihr (cod ++ [true]) (generarAux izq (cod ++ [false]) dict) e he with h | h
    · rcases List.mem_map.mp h with ⟨p, hp, hpe⟩
      rcases ihl (cod ++ [false]) dict p hp with h2 | h2
      · exact .inl (hpe ▸ h2)
      · exact .inr (List.mem_append.mpr (.inl (hpe ▸ h2)))
    · exact .inr (List.mem_append.mpr (.inr h))

/-- C7: for every non-empty input text, the code table derived from the
Huffman tree is prefix-free — no code in the table is a proper prefix
of another code in the table. -/
theorem huffman_codes_prefix_free (texto : List Nat) (_hne : texto ≠ []) :
    ∀ e1 ∈ generar_codigos (construir_arbol_huffman texto),
    ∀ e2 ∈ generar_codigos (construir_arbol_huffman texto),
      ¬ (e1.2 <+: e2.2 ∧ e1.2 ≠ e2.2) := by
  intro e1 h1 e2 h2 hcon
  cases harb : construir_arbol_huffman texto with
  | none => rw [harb] at h1; simp [generar_codigos] at h1
  | some t =>
    rw [harb] at h1 h2
    simp only [generar_codigos] at h1 h2
    have v1 := generarAux_values t [] [] e1 h1
    have v2 := generarAux_values t [] [] e2 h2
    simp only [List.map_nil, List.not_mem_nil, false_or] at v1 v2
    exact pathCodes_pairwise t [] e1.2 v1 e2.2 v2 hcon.2 hcon.1

/-- C7 (witness): prefix-freedom applied to the concrete text "aaabb"
(symbols 0,0,0,1,1). -/
theorem huffman_codes_prefix_free_witness :
    ([0, 0, 0, 1, 1] : List Nat) ≠ [] ∧
    (∀ e1 ∈ generar_codigos (construir_arbol_huffman [0, 0, 0, 1, 1]),
     ∀ e2 ∈ generar_codigos (construir_arbol_huffman [0, 0, 0, 1, 1]),
       ¬ (e1.2 <+: e2.2 ∧ e1.2 ≠ e2.2)) :=
  ⟨by decide, huffman_codes_prefix_free [0, 0, 0, 1, 1] (by decide)⟩

/-! ## Union-Find theory (`UnionFind` of `src/kruskal.py`)

A parent map is workable exactly when every element has a finite parent
chain ending in a self-loop (`Chain`). Chains are unique, duplicate-free
and contained in the registered elements, which bounds their length by
the element count and shows the fuel `|elems|` given to `encontrar`
is never exhausted. -/

/-- A parent-chain under parent map `p`: the list `x, p x, p (p x), ...`
ending at the first self-loop. -/
inductive Chain (p : Nat → Nat) : Nat → List Nat → Prop
  | root (x : Nat) (h : p x = x) : Chain p x [x]
  | step (x : Nat) (c : List Nat) (h : p x ≠ x) (hc : Chain p (p x) c) :
      Chain p x (x :: c)

/-- The last entry of a chain (its root). -/
def lastOf (l : List Nat) : Nat := (l.getLast?).getD 0

lemma chain_ne_nil {p : Nat → Nat} {x : Nat} {c : List Nat}
    (h : Chain p x c) : c ≠ [] := by
  cases h <;> simp

lemma chain_unique {p : Nat → Nat} {x : Nat} {c : List Nat}
    (h : Chain p x c) : ∀ c', Chain p x c' → c = c' := by
  induction h with
  | root x hx =>
    intro c' h'
    cases h' with
    | root => rfl
    | step _ _ h _ => exact absurd hx h
  | step x c hx hc ih =>
    intro c' h'
    cases h' with
    | root _ h => exact absurd h hx
    | step _ c2 _ hc2 => rw [ih c2 hc2]

lemma chain_suffix {p : Nat → Nat} {x : Nat} {c : List Nat}
    (h : Chain p x c) : ∀ y ∈ c, ∃ c', Chain p y c' ∧ c' <:+ c := by
  induction h with
  | root x hx =>
    intro y hy
    simp only [List.mem_singleton] at hy
    exact ⟨[x], hy ▸ Chain.root x hx, hy ▸ List.suffix_refl _⟩
  | step x c hx hc ih =>
    intro y hy
    rcases List.mem_cons.mp hy with h | h
    · refine ⟨x :: c, ?_, List.suffix_refl _⟩
      rw [h]
      exact Chain.step x c hx hc
    · rcases ih y h with ⟨c', h1, h2⟩
      exact ⟨c', h1, h2.trans (List.suffix_cons x c)⟩

lemma chain_nodup {p : Nat → Nat} {x : Nat} {c : List Nat}
    (h : Chain p x c) : c.Nodup := by
  induction h with
  | root x hx => simp
  | step x c hx hc ih =>
    refine List.nodup_cons.mpr ⟨?_, ih⟩
    intro hx_mem
    rcases chain_suffix hc x hx_mem with ⟨c', h1, h2⟩
    have heq : x :: c = c' := chain_unique (Chain.step x c hx hc) c' h1
    have : c'.length ≤ c.length := h2.length_le
    rw [← heq] at this
    simp at this

lemma lastOf_cons_of_ne_nil {x : Nat} {c : List Nat} (hne : c ≠ []) :
    lastOf (x :: c) = lastOf c := by
  rw [lastOf, lastOf, show x :: c = [x] ++ c from rfl,
    List.getLast?_append_of_ne_nil [x] hne]

lemma chain_last_isRoot {p : Nat → Nat} {x : Nat} {c : List Nat}
    (h : Chain p x c) : p (lastOf c) = lastOf c := by
  induction h with
  | root x hx => simpa [lastOf] using hx
  | step x c hx hc ih => rwa [lastOf_cons_of_ne_nil (chain_ne_nil hc)]

lemma chain_head {p : Nat → Nat} {x : Nat} {c : List Nat}
    (h : Chain p x c) : x ∈ c := by
  cases h <;> simp

lemma suffix_lastOf {c' c : List Nat} (h : c' <:+ c) (hne : c' ≠ []) :
    lastOf c' = lastOf c := by
  rcases h with ⟨pre, rfl⟩
  rw [lastOf, lastOf, List.getLast?_append_of_ne_nil pre hne]

/-- The Union-Find forest invariant for a parent map `p` over the
registered elements: parents of registered elements are registered,
unregistered values are (vacuously) self-parented, and every registered
element has a finite parent chain to a self-looped root. -/
def PInv (elems : List Nat) (p : Nat → Nat) : Prop :=
  (∀ x ∈ elems, p x ∈ elems) ∧ (∀ x, x ∉ elems → p x = x) ∧
  (∀ x ∈ elems, ∃ c, Chain p x c)

/-- The invariant of a `UnionFind` state. -/
def UFInv (uf : UnionFind) : Prop := PInv uf.elems uf.padre

lemma chain_subset {elems : List Nat} {p : Nat → Nat}
    (hcl : ∀ x ∈ elems, p x ∈ elems) {x : Nat} {c : List Nat}
    (hc : Chain p x c) (hx : x ∈ elems) : ∀ y ∈ c, y ∈ elems := by
  induction hc with
  | root z hz =>
    intro y hy
    simp only [List.mem_singleton] at hy
    exact hy ▸ hx
  | step z c hz hcz ih =>
    intro y hy
    rcases List.mem_cons.mp hy with h | h
    · exact h ▸ hx
    · exact ih (hcl z hx) y h

lemma nodup_subset_length_le {l1 l2 : List Nat} (h1 : l1.Nodup)
    (hs : ∀ x ∈ l1, x ∈ l2) : l1.length ≤ l2.length := by
  calc l1.length = l1.toFinset.card := (List.toFinset_card_of_nodup h1).symm
    _ ≤ l2.toFinset.card := by
        apply Finset.card_le_card
        intro a ha
        simp only [List.mem_toFinset] at ha ⊢
        exact hs a ha
    _ ≤ l2.length := l2.toFinset_card_le

lemma chain_length_le {elems : List Nat} {p : Nat → Nat}
    (hcl : ∀ x ∈ elems, p x ∈ elems) {x : Nat} {c : List Nat}
    (hc : Chain p x c) (hx : x ∈ elems) : c.length ≤ elems.length :=
  nodup_subset_length_le (chain_nodup hc) (chain_subset hcl hc hx)

/-- Full characterization of a fueled `encontrar` run along an existing
chain: the returned representative is the chain's root, and the parent
map changes only on non-root chain entries, which are rewired straight
to the root (path compression). -/
lemma encontrarF_spec {p : Nat → Nat} {x : Nat} {c : List Nat}
    (hc : Chain p x c) :
    ∀ fuel, c.length ≤ fuel →
      (encontrarF p fuel x).1 = lastOf c ∧
      (∀ y, (encontrarF p fuel x).2 y = p y ∨
        ((encontrarF p fuel x).2 y = lastOf c ∧ y ∈ c ∧ p y ≠ y)) := by
  induction hc with
  | root z hz =>
    intro fuel hfuel
    cases fuel with
    | zero => simp at hfuel
    | succ n =>
      constructor
      · simp [encontrarF, hz, lastOf]
      · intro y
        simp [encontrarF, hz]
  | step z c hz hcz ih =>
    intro fuel hfuel
    cases fuel with
    | zero => simp at hfuel
    | succ n =>
      have hn : c.length ≤ n := by
        simpa using Nat.succ_le_succ_iff.mp (by simpa using hfuel)
      obtain ⟨ih1, ih2⟩ := ih n hn
      have hlast : lastOf (z :: c) = lastOf c :=
        lastOf_cons_of_ne_nil (chain_ne_nil hcz)
      constructor
      · simp only [encontrarF, if_neg hz]
        rw [ih1, hlast]
      · intro y
        simp only [encontrarF, if_neg hz]
        by_cases hy : y = z
        · right
          subst hy
          exact ⟨by simp [ih1, hlast], by simp, hz⟩
        · rw [if_neg hy]
          rcases ih2 y with h | ⟨h1, h2, h3⟩
          · exact .inl h
          · exact .inr ⟨h1.trans hlast.symm, List.mem_cons_of_mem z h2, h3⟩

/-- `x`'s set representative is `r`: the root of its parent chain. -/
def RootedAt (p : Nat → Nat) (x r : Nat) : Prop :=
  ∃ c, Chain p x c ∧ lastOf c = r

lemma rootedAt_unique {p : Nat → Nat} {x r r' : Nat}
    (h : RootedAt p x r) (h' : RootedAt p x r') : r = r' := by
  rcases h with ⟨c, hc, hr⟩
  rcases h' with ⟨c', hc', hr'⟩
  rw [← hr, ← hr', chain_unique hc c' hc']

lemma root_mem_chain_eq_last {p : Nat → Nat} {x z : Nat} {c : List Nat}
    (hc : Chain p x c) (hz : z ∈ c) (hroot : p z = z) : z = lastOf c := by
  rcases chain_suffix hc z hz with ⟨c', h1, h2⟩
  have : c' = [z] := (chain_unique h1 [z] (Chain.root z hroot)).symm ▸ rfl
  rw [← suffix_lastOf h2 (chain_ne_nil h1),
    chain_unique h1 [z] (Chain.root z hroot)]
  simp [lastOf]

lemma rootedAt_of_chain {p : Nat → Nat} {x : Nat} {c : List Nat}
    (hc : Chain p x c) : RootedAt p x (lastOf c) := ⟨c, hc, rfl⟩

lemma rootedAt_root {p : Nat → Nat} {r : Nat} (h : p r = r) :
    RootedAt p r r := ⟨[r], Chain.root r h, by simp [lastOf]⟩

lemma rootedAt_isRoot {p : Nat → Nat} {x r : Nat} (h : RootedAt p x r) :
    p r = r := by
  rcases h with ⟨c, hc, hr⟩
  exact hr ▸ chain_last_isRoot hc

lemma rootedAt_mem {p : Nat → Nat} {x r : Nat} (h : RootedAt p x r)
    {elems : List Nat} (hcl : ∀ y ∈ elems, p y ∈ elems) (hx : x ∈ elems) :
    r ∈ elems := by
  rcases h with ⟨c, hc, hr⟩
  rcases List.getLast?_eq_getLast c (chain_ne_nil hc) with hlast
  exact hr ▸ chain_subset hcl hc hx _ (by
    rw [lastOf, hlast]
    simp only [Option.getD_some]
    exact List.getLast_mem (chain_ne_nil hc))

/-- Path compression preserves every element's chain root and does not
lengthen its chain. -/
lemma chain_after_compress {p : Nat → Nat} {x : Nat} {c : List Nat}
    (hc : Chain p x c) {fuel : Nat} (hfuel : c.length ≤ fuel) :
    ∀ {y : Nat} {cy : List Nat}, Chain p y cy →
      ∃ cy', Chain (encontrarF p fuel x).2 y cy' ∧
        lastOf cy' = lastOf cy ∧ cy'.length ≤ cy.length := by
  have hq := (encontrarF_spec hc fuel hfuel).2
  intro y cy hcy
  induction hcy with
  | root z hz =>
    refine ⟨[z], Chain.root z ?_, rfl, le_refl _⟩
    rcases hq z with h | ⟨_, _, h3⟩
    · rw [h, hz]
    · exact absurd hz h3
  | step z cz hz hcz ih =>
    rcases hq z with h | ⟨h1, h2, _⟩
    · rcases ih with ⟨cy', hcy', hlast, hlen⟩
      refine ⟨z :: cy', Chain.step z cy' ?_ (by rwa [h]), ?_, ?_⟩
      · rw [h]; exact hz
      · rw [lastOf_cons_of_ne_nil (chain_ne_nil hcy'),
          lastOf_cons_of_ne_nil (chain_ne_nil hcz), hlast]
      · simpa using Nat.succ_le_succ hlen
    · -- z lies on the compressed chain: it is rewired straight to the root
      have hroot : p (lastOf c) = lastOf c := chain_last_isRoot hc
      have hzr : z ≠ lastOf c := by
        intro h
        exact hz (h ▸ hroot)
      have hlz : lastOf (z :: cz) = lastOf c := by
        rcases chain_suffix hc z h2 with ⟨c', h1', h2'⟩
        rw [chain_unique (Chain.step z cz hz hcz) c' h1']
        exact suffix_lastOf h2' (chain_ne_nil h1')
      have hqroot : (encontrarF p fuel x).2 (lastOf c) = lastOf c := by
        rcases hq (lastOf c) with h | ⟨_, _, h3⟩
        · rw [h, hroot]
        · exact absurd hroot h3
      refine ⟨[z, lastOf c], ?_, ?_, ?_⟩
      · refine Chain.step z [lastOf c] ?_ ?_
        · rw [h1]; exact fun hh => hzr hh.symm
        · rw [h1]; exact Chain.root _ hqroot
      · rw [hlz]; simp [lastOf]
      · have : cz ≠ [] := chain_ne_nil hcz
        cases cz with
        | nil => exact absurd rfl this
        | cons a l => simp

lemma lastOf_mem {c : List Nat} (hne : c ≠ []) : lastOf c ∈ c := by
  rcases List.getLast?_eq_getLast c hne with hlast
  rw [lastOf, hlast]
  simp only [Option.getD_some]
  exact List.getLast_mem hne

lemma lastOf_append_singleton (l : List Nat) (a : Nat) :
    lastOf (l ++ [a]) = a := by
  simp [lastOf, List.getLast?_concat]

lemma encontrarF_of_isRoot (p : Nat → Nat) (fuel x : Nat) (h : p x = x) :
    encontrarF p fuel x = (x, p) := by
  cases fuel <;> simp [encontrarF, h]

/-- Under the invariant every value has a chain (registered elements by
the invariant, others as self-looped singletons). -/
lemma chains_total {elems : List Nat} {p : Nat → Nat} (hinv : PInv elems p)
    (z : Nat) : ∃ c, Chain p z c := by
  by_cases hz : z ∈ elems
  · exact hinv.2.2 z hz
  · exact ⟨[z], Chain.root z (hinv.2.1 z hz)⟩

lemma roots_total {elems : List Nat} {p : Nat → Nat} (hinv : PInv elems p)
    (z : Nat) : ∃ r, RootedAt p z r := by
  rcases chains_total hinv z with ⟨c, hc⟩
  exact ⟨lastOf c, rootedAt_of_chain hc⟩

/-- Specification of `UnionFind.encontrar` on an invariant-preserving
state: the result is the true representative, the state keeps its
elements, ranks and invariant, and no element's representative
changes (the claim of C10). -/
lemma encontrar_spec {uf : UnionFind} (hinv : UFInv uf) {x : Nat}
    (hx : x ∈ uf.elems) :
    RootedAt uf.padre x (uf.encontrar x).1 ∧
    (uf.encontrar x).2.elems = uf.elems ∧
    (uf.encontrar x).2.rango = uf.rango ∧
    UFInv (uf.encontrar x).2 ∧
    (∀ y r, RootedAt uf.padre y r → RootedAt (uf.encontrar x).2.padre y r) := by
  obtain ⟨hcl, hout, hch⟩ := hinv
  obtain ⟨c, hc⟩ := hch x hx
  have hfuel : c.length ≤ uf.elems.length := chain_length_le hcl hc hx
  obtain ⟨hspec1, hspec2⟩ := encontrarF_spec hc uf.elems.length hfuel
  have hpres : ∀ y r, RootedAt uf.padre y r →
      RootedAt (uf.encontrar x).2.padre y r := by
    intro y r hyr
    rcases hyr with ⟨cy, hcy, hr⟩
    rcases chain_after_compress hc hfuel hcy with ⟨cy', h1, h2, _⟩
    exact ⟨cy', h1, h2.trans hr⟩
  refine ⟨?_, rfl, rfl, ⟨?_, ?_, ?_⟩, hpres⟩
  · show RootedAt uf.padre x (encontrarF uf.padre uf.elems.length x).1
    rw [hspec1]
    exact rootedAt_of_chain hc
  · intro z hz
    show (encontrarF uf.padre uf.elems.length x).2 z ∈ uf.elems
    rcases hspec2 z with h | ⟨h1, _, _⟩
    · exact h ▸ hcl z hz
    · rw [h1]
      exact chain_subset hcl hc hx _ (lastOf_mem (chain_ne_nil hc))
  · intro z hz
    show (encontrarF uf.padre uf.elems.length x).2 z = z
    rcases hspec2 z with h | ⟨_, h2, _⟩
    · exact h ▸ hout z hz
    · exact absurd (chain_subset hcl hc hx z h2) hz
  · intro z hz
    rcases hch z hz with ⟨cz, hcz⟩
    rcases chain_after_compress hc hfuel hcz with ⟨cz', h1, _, _⟩
    exact ⟨cz', h1⟩

/-- `encontrar` on an unregistered element is an identity no-op (the
Python code would raise `KeyError`; it is never called this way). -/
lemma encontrar_of_not_mem {uf : UnionFind} (hinv : UFInv uf) {x : Nat}
    (hx : x ∉ uf.elems) : uf.encontrar x = (x, uf) := by
  show (let r := encontrarF uf.padre uf.elems.length x
        (r.1, { uf with padre := r.2 })) = (x, uf)
  rw [encontrarF_of_isRoot uf.padre uf.elems.length x (hinv.2.1 x hx)]

/-- Linking root `r2` beneath root `r1` rewrites chains: chains rooted
elsewhere are untouched, chains rooted at `r2` gain the final hop to
`r1`. -/
lemma chain_after_link {p : Nat → Nat} {r1 r2 : Nat} (h1 : p r1 = r1)
    (h2 : p r2 = r2) (hne : r1 ≠ r2) {y : Nat} {cy : List Nat}
    (hcy : Chain p y cy) :
    (lastOf cy ≠ r2 → Chain (fun z => if z = r2 then r1 else p z) y cy) ∧
    (lastOf cy = r2 → Chain (fun z => if z = r2 then r1 else p z) y (cy ++ [r1])) := by
  induction hcy with
  | root z hz =>
    constructor
    · intro hlz
      refine Chain.root z ?_
      rw [if_neg ?_, hz]
      intro h
      exact hlz (by simp [lastOf, h])
    · intro hlz
      have hz2 : z = r2 := by simpa [lastOf] using hlz
      subst hz2
      refine Chain.step z [r1] ?_ ?_
      · rw [if_pos rfl]; exact hne
      · rw [if_pos rfl]
        exact Chain.root r1 (by rw [if_neg hne, h1])
  | step z cz hz hcz ih =>
    have hz2 : z ≠ r2 := by
      intro h
      rw [h] at hz
      exact hz h2
    constructor
    · intro hlz
      rw [lastOf_cons_of_ne_nil (chain_ne_nil hcz)] at hlz
      refine Chain.step z cz ?_ ?_
      · rw [if_neg hz2]; exact hz
      · rw [if_neg hz2]; exact ih.1 hlz
    · intro hlz
      rw [lastOf_cons_of_ne_nil (chain_ne_nil hcz)] at hlz
      show Chain _ z (z :: (cz ++ [r1]))
      refine Chain.step z (cz ++ [r1]) ?_ ?_
      · rw [if_neg hz2]; exact hz
      · rw [if_neg hz2]; exact ih.2 hlz

/-- After linking `r2` beneath `r1`, representatives are rewritten by
collapsing `r2` into `r1`. -/
lemma rootedAt_after_link {p : Nat → Nat} {r1 r2 : Nat} (h1 : p r1 = r1)
    (h2 : p r2 = r2) (hne : r1 ≠ r2) {y r : Nat} (h : RootedAt p y r) :
    RootedAt (fun z => if z = r2 then r1 else p z) y
      (if r = r2 then r1 else r) := by
  rcases h with ⟨cy, hcy, hr⟩
  by_cases hrr : r = r2
  · rw [if_pos hrr]
    refine ⟨cy ++ [r1], (chain_after_link h1 h2 hne hcy).2 (hr.trans hrr), ?_⟩
    exact lastOf_append_singleton cy r1
  · rw [if_neg hrr]
    exact ⟨cy, (chain_after_link h1 h2 hne hcy).1 (fun hh => hrr (hr ▸ hh ▸ rfl)), hr⟩

/-- Two elements lie in the same set: they share a representative. -/
def sameRoot (p : Nat → Nat) (a b : Nat) : Prop :=
  ∃ r, RootedAt p a r ∧ RootedAt p b r

lemma sameRoot_symm {p : Nat → Nat} {a b : Nat} (h : sameRoot p a b) :
    sameRoot p b a := by
  rcases h with ⟨r, h1, h2⟩
  exact ⟨r, h2, h1⟩

lemma sameRoot_trans {p : Nat → Nat} {a b c : Nat} (h : sameRoot p a b)
    (h' : sameRoot p b c) : sameRoot p a c := by
  rcases h with ⟨r, h1, h2⟩
  rcases h' with ⟨r', h1', h2'⟩
  exact ⟨r, h1, (rootedAt_unique h1' h2 ▸ h2' : RootedAt p c r)⟩

/-- The invariant after linking `r2` beneath `r1` (both roots of
registered representatives). -/
lemma pinv_after_link {elems : List Nat} {p : Nat → Nat}
    (hinv : PInv elems p) {r1 r2 : Nat} (h1 : p r1 = r1) (h2 : p r2 = r2)
    (hne : r1 ≠ r2) (hm1 : r1 ∈ elems) (hm2 : r2 ∈ elems) :
    PInv elems (fun z => if z = r2 then r1 else p z) := by
  obtain ⟨hcl, hout, hch⟩ := hinv
  refine ⟨?_, ?_, ?_⟩
  · intro z hz
    by_cases hz2 : z = r2
    · simpa [hz2] using hm1
    · simpa [hz2] using hcl z hz
  · intro z hz
    have hz2 : z ≠ r2 := fun h => hz (h ▸ hm2)
    simp [hz2, hout z hz]
  · intro z hz
    rcases hch z hz with ⟨cz, hcz⟩
    by_cases hlz : lastOf cz = r2
    · exact ⟨cz ++ [r1], (chain_after_link h1 h2 hne hcz).2 hlz⟩
    · exact ⟨cz, (chain_after_link h1 h2 hne hcz).1 hlz⟩

lemma sameRoot_iff_rootedAt {p : Nat → Nat}
    {x r : Nat} (hxr : RootedAt p x r) (a : Nat) :
    sameRoot p a x ↔ RootedAt p a r := by
  constructor
  · rintro ⟨r', har', hxr'⟩
    rwa [rootedAt_unique hxr' hxr] at har'
  · intro h
    exact ⟨r, h, hxr⟩

/-- Partition change of one link step: the classes of `r1` and `r2`
merge, all other classes are untouched. -/
lemma sameRoot_after_link {elems : List Nat} {p : Nat → Nat}
    (hinv : PInv elems p) {r1 r2 : Nat} (h1 : p r1 = r1) (h2 : p r2 = r2)
    (hne : r1 ≠ r2) (a b : Nat) :
    sameRoot (fun z => if z = r2 then r1 else p z) a b ↔
      (sameRoot p a b ∨ (RootedAt p a r1 ∧ RootedAt p b r2) ∨
       (RootedAt p a r2 ∧ RootedAt p b r1)) := by
  obtain ⟨ra, hra⟩ := roots_total hinv a
  obtain ⟨rb, hrb⟩ := roots_total hinv b
  have hqa := rootedAt_after_link h1 h2 hne hra
  have hqb := rootedAt_after_link h1 h2 hne hrb
  constructor
  · rintro ⟨r, har, hbr⟩
    have ha : (if ra = r2 then r1 else ra) = r := rootedAt_unique hqa har
    have hb : (if rb = r2 then r1 else rb) = r := rootedAt_unique hqb hbr
    by_cases ha2 : ra = r2 <;> by_cases hb2 : rb = r2
    · left
      exact ⟨r2, ha2 ▸ hra, hb2 ▸ hrb⟩
    · rw [if_pos ha2] at ha
      rw [if_neg hb2] at hb
      right; right
      refine ⟨ha2 ▸ hra, ?_⟩
      rwa [show rb = r1 from hb.trans ha.symm] at hrb
    · rw [if_neg ha2] at ha
      rw [if_pos hb2] at hb
      right; left
      refine ⟨?_, hb2 ▸ hrb⟩
      rwa [show ra = r1 from ha.trans hb.symm] at hra
    · rw [if_neg ha2] at ha
      rw [if_neg hb2] at hb
      left
      exact ⟨r, ha ▸ hra, hb ▸ hrb⟩
  · intro h
    rcases h with ⟨r, har, hbr⟩ | ⟨har, hbr⟩ | ⟨har, hbr⟩
    · refine ⟨if r = r2 then r1 else r, ?_, ?_⟩
      · exact rootedAt_after_link h1 h2 hne har
      · exact rootedAt_after_link h1 h2 hne hbr
    · refine ⟨r1, ?_, ?_⟩
      · have := rootedAt_after_link h1 h2 hne har
        rwa [if_neg hne] at this
      · have := rootedAt_after_link h1 h2 hne hbr
        rwa [if_pos rfl] at this
    · refine ⟨r1, ?_, ?_⟩
      · have := rootedAt_after_link h1 h2 hne har
        rwa [if_pos rfl] at this
      · have := rootedAt_after_link h1 h2 hne hbr
        rwa [if_neg hne] at this

/-- Full specification of `UnionFind.unir` on an invariant-preserving
state: the returned flag is `false` exactly when the two elements
already share a representative (and then the partition is unchanged,
the union being subsumed by the first disjunct), and otherwise the two
classes merge and nothing else changes. -/
lemma unir_spec {uf : UnionFind} (hinv : UFInv uf) {x y : Nat}
    (hx : x ∈ uf.elems) (hy : y ∈ uf.elems) :
    ((uf.unir x y).1 = false ↔ sameRoot uf.padre x y) ∧
    (uf.unir x y).2.elems = uf.elems ∧
    UFInv (uf.unir x y).2 ∧
    (∀ a b, sameRoot (uf.unir x y).2.padre a b ↔
      (sameRoot uf.padre a b ∨
       (sameRoot uf.padre a x ∧ sameRoot uf.padre y b) ∨
       (sameRoot uf.padre a y ∧ sameRoot uf.padre x b))) := by
  obtain ⟨hxr, he1, hrg1, hinv1, pres1⟩ := encontrar_spec hinv hx
  have hy1 : y ∈ (uf.encontrar x).2.elems := by rw [he1]; exact hy
  obtain ⟨hyr2, he2, hrg2, hinv2, pres2⟩ := encontrar_spec hinv1 hy1
  set r1 := (uf.encontrar x).1 with hr1def
  set u1 := (uf.encontrar x).2 with hu1def
  set r2 := (u1.encontrar y).1 with hr2def
  set u2 := (u1.encontrar y).2 with hu2def
  obtain ⟨ry, hry⟩ := roots_total hinv y
  have hyr0 : RootedAt uf.padre y r2 := by
    rwa [rootedAt_unique (pres1 y ry hry) hyr2] at hry
  have pres12 : ∀ z r, RootedAt uf.padre z r → RootedAt u2.padre z r :=
    fun z r h => pres2 z r (pres1 z r h)
  have back12 : ∀ z r, RootedAt u2.padre z r → RootedAt uf.padre z r := by
    intro z r h
    obtain ⟨rz, hrz⟩ := roots_total hinv z
    rwa [← rootedAt_unique (pres12 z rz hrz) h]
  have rooted_iff : ∀ z r, RootedAt u2.padre z r ↔ RootedAt uf.padre z r :=
    fun z r => ⟨back12 z r, pres12 z r⟩
  have same12 : ∀ a b, sameRoot u2.padre a b ↔ sameRoot uf.padre a b := by
    intro a b
    constructor
    · rintro ⟨r, h1, h2⟩
      exact ⟨r, back12 _ _ h1, back12 _ _ h2⟩
    · rintro ⟨r, h1, h2⟩
      exact ⟨r, pres12 _ _ h1, pres12 _ _ h2⟩
  have hxr2 : RootedAt u2.padre x r1 := pres12 _ _ hxr
  have hyru2 : RootedAt u2.padre y r2 := pres2 _ _ hyr2
  have hr1root : u2.padre r1 = r1 := rootedAt_isRoot hxr2
  have hr2root : u2.padre r2 = r2 := rootedAt_isRoot hyru2
  have heq : u2.elems = uf.elems := he2.trans he1
  have hm1 : r1 ∈ uf.elems := rootedAt_mem hxr hinv.1 hx
  have hm2 : r2 ∈ uf.elems := rootedAt_mem hyr0 hinv.1 hy
  have hinv2' : PInv uf.elems u2.padre := heq ▸ hinv2
  have hax : ∀ a, sameRoot uf.padre a x ↔ RootedAt uf.padre a r1 :=
    fun a => sameRoot_iff_rootedAt hxr a
  have hay : ∀ a, sameRoot uf.padre a y ↔ RootedAt uf.padre a r2 :=
    fun a => sameRoot_iff_rootedAt hyr0 a
  have hyb : ∀ b, sameRoot uf.padre y b ↔ RootedAt uf.padre b r2 := by
    intro b
    constructor
    · rintro ⟨r, h1, h2⟩
      exact (rootedAt_unique h1 hyr0) ▸ h2
    · intro h
      exact ⟨r2, hyr0, h⟩
  have hxb : ∀ b, sameRoot uf.padre x b ↔ RootedAt uf.padre b r1 := by
    intro b
    constructor
    · rintro ⟨r, h1, h2⟩
      exact (rootedAt_unique h1 hxr) ▸ h2
    · intro h
      exact ⟨r1, hxr, h⟩
  have hunir : uf.unir x y = if r1 = r2 then (false, u2) else
      (if u2.rango r1 < u2.rango r2 then
        (true, { u2 with padre := fun z => if z = r1 then r2 else u2.padre z })
       else if u2.rango r2 < u2.rango r1 then
        (true, { u2 with padre := fun z => if z = r2 then r1 else u2.padre z })
       else
        (true, { u2 with
          padre := fun z => if z = r2 then r1 else u2.padre z,
          rango := fun z => if z = r1 then u2.rango r1 + 1 else u2.rango z })) :=
    rfl
  by_cases hr : r1 = r2
  · rw [hunir, if_pos hr]
    have hxy : sameRoot uf.padre x y := ⟨r1, hxr, by rw [hr]; exact hyr0⟩
    refine ⟨iff_of_true rfl hxy, heq, hinv2, ?_⟩
    intro a b
    rw [same12 a b]
    constructor
    · exact fun h => .inl h
    · rintro (h | ⟨h1, h2⟩ | ⟨h1, h2⟩)
      · exact h
      · exact sameRoot_trans (sameRoot_trans h1 hxy) h2
      · exact sameRoot_trans (sameRoot_trans h1 (sameRoot_symm hxy)) h2
  · have hfalse : ¬ sameRoot uf.padre x y := by
      rintro ⟨r, h1, h2⟩
      exact hr ((rootedAt_unique h1 hxr).symm.trans (rootedAt_unique h2 hyr0))
    rw [hunir, if_neg hr]
    by_cases hrk1 : u2.rango r1 < u2.rango r2
    · rw [if_pos hrk1]
      refine ⟨iff_of_false (by simp) hfalse, heq, ?_, ?_⟩
      · show PInv u2.elems (fun z => if z = r1 then r2 else u2.padre z)
        rw [heq]
        exact pinv_after_link hinv2' hr2root hr1root (Ne.symm hr) hm2 hm1
      · intro a b
        rw [sameRoot_after_link hinv2' hr2root hr1root (Ne.symm hr) a b,
          same12 a b]
        simp only [rooted_iff]
        rw [hax a, hay a, hyb b, hxb b]
        tauto
    · rw [if_neg hrk1]
      by_cases hrk2 : u2.rango r2 < u2.rango r1
      · rw [if_pos hrk2]
        refine ⟨iff_of_false (by simp) hfalse, heq, ?_, ?_⟩
        · show PInv u2.elems (fun z => if z = r2 then r1 else u2.padre z)
          rw [heq]
          exact pinv_after_link hinv2' hr1root hr2root hr hm1 hm2
        · intro a b
          rw [sameRoot_after_link hinv2' hr1root hr2root hr a b, same12 a b]
          simp only [rooted_iff]
          rw [hax a, hay a, hyb b, hxb b]
      · rw [if_neg hrk2]
        refine ⟨iff_of_false (by simp) hfalse, heq, ?_, ?_⟩
        · show PInv u2.elems (fun z => if z = r2 then r1 else u2.padre z)
          rw [heq]
          exact pinv_after_link hinv2' hr1root hr2root hr hm1 hm2
        · intro a b
          rw [sameRoot_after_link hinv2' hr1root hr2root hr a b, same12 a b]
          simp only [rooted_iff]
          rw [hax a, hay a, hyb b, hxb b]

lemma sameRoot_refl {elems : List Nat} {p : Nat → Nat} (hinv : PInv elems p)
    (a : Nat) : sameRoot p a a := by
  rcases roots_total hinv a with ⟨r, h⟩
  exact ⟨r, h, h⟩

lemma rtg_closure {α : Type} {r s : α → α → Prop}
    (h : ∀ u v, r u v → Relation.ReflTransGen s u v) :
    ∀ {a b}, Relation.ReflTransGen r a b → Relation.ReflTransGen s a b := by
  intro a b hab
  induction hab with
  | refl => exact .refl
  | tail _ h2 ih => exact ih.trans (h _ _ h2)

/-- A sequence of `unir(x, y)` calls, threading the state through. -/
def applyUnions : UnionFind → List (Nat × Nat) → UnionFind
  | uf, [] => uf
  | uf, pr :: rest => applyUnions (uf.unir pr.1 pr.2).2 rest

/-- `a` and `b` are connected by some chain of the performed unions. -/
def UnionChain (pairs : List (Nat × Nat)) (a b : Nat) : Prop :=
  Relation.ReflTransGen (fun u v => (u, v) ∈ pairs ∨ (v, u) ∈ pairs) a b

lemma make_inv (elementos : List Nat) : UFInv (UnionFind.make elementos) :=
  ⟨fun _ hx => hx, fun _ _ => rfl, fun x _ => ⟨[x], Chain.root x rfl⟩⟩

lemma sameRoot_make (elementos : List Nat) (a b : Nat) :
    sameRoot (UnionFind.make elementos).padre a b ↔ a = b := by
  constructor
  · rintro ⟨r, h1, h2⟩
    have ha : r = a := (rootedAt_unique (rootedAt_root rfl) h1).symm.trans rfl
    have hb : r = b := (rootedAt_unique (rootedAt_root rfl) h2).symm.trans rfl
    rw [← ha, ← hb]
  · rintro rfl
    exact sameRoot_refl (make_inv elementos) a

/-- The partition of a union sequence is the closure of the initial
partition together with the performed pairs. -/
lemma applyUnions_spec :
    ∀ (pairs : List (Nat × Nat)) (uf : UnionFind), UFInv uf →
      (∀ pr ∈ pairs, pr.1 ∈ uf.elems ∧ pr.2 ∈ uf.elems) →
      (applyUnions uf pairs).elems = uf.elems ∧
      UFInv (applyUnions uf pairs) ∧
      (∀ a b, sameRoot (applyUnions uf pairs).padre a b ↔
        Relation.ReflTransGen
          (fun u v => sameRoot uf.padre u v ∨ (u, v) ∈ pairs ∨ (v, u) ∈ pairs)
          a b) := by
  intro pairs
  induction pairs with
  | nil =>
    intro uf hinv _
    refine ⟨rfl, hinv, ?_⟩
    intro a b
    constructor
    · intro h
      exact Relation.ReflTransGen.single (.inl h)
    · intro h
      induction h with
      | refl => exact sameRoot_refl hinv a
      | tail _ h2 ih =>
        rcases h2 with h2 | h2 | h2
        · exact sameRoot_trans ih h2
        · exact absurd h2 (List.not_mem_nil _)
        · exact absurd h2 (List.not_mem_nil _)
  | cons pr rest ih =>
    intro uf hinv hmem
    obtain ⟨hx, hy⟩ := hmem pr (List.mem_cons_self pr rest)
    obtain ⟨hflag, helems, hinvu, hpart⟩ := unir_spec hinv hx hy
    have hmem' : ∀ q ∈ rest,
        q.1 ∈ (uf.unir pr.1 pr.2).2.elems ∧ q.2 ∈ (uf.unir pr.1 pr.2).2.elems := by
      intro q hq
      rw [helems]
      exact hmem q (List.mem_cons_of_mem pr hq)
    obtain ⟨he, hi, hp⟩ := ih (uf.unir pr.1 pr.2).2 hinvu hmem'
    have happ : applyUnions uf (pr :: rest) =
        applyUnions (uf.unir pr.1 pr.2).2 rest := rfl
    have hprmem : (pr.1, pr.2) ∈ pr :: rest := by
      rw [Prod.mk.eta]
      exact List.mem_cons_self pr rest
    refine ⟨happ ▸ (he.trans helems), happ ▸ hi, ?_⟩
    intro a b
    rw [happ, hp a b]
    constructor
    · refine rtg_closure ?_
      intro u v huv
      rcases huv with huv | huv | huv
      · rw [hpart u v] at huv
        rcases huv with h | ⟨h1, h2⟩ | ⟨h1, h2⟩
        · exact Relation.ReflTransGen.single (.inl h)
        · exact ((Relation.ReflTransGen.single (.inl h1)).tail
            (.inr (.inl hprmem))).trans (Relation.ReflTransGen.single (.inl h2))
        · exact ((Relation.ReflTransGen.single (.inl h1)).tail
            (.inr (.inr hprmem))).trans (Relation.ReflTransGen.single (.inl h2))
      · exact Relation.ReflTransGen.single (.inr (.inl (List.mem_cons_of_mem pr huv)))
      · exact Relation.ReflTransGen.single (.inr (.inr (List.mem_cons_of_mem pr huv)))
    · refine rtg_closure ?_
      intro u v huv
      rcases huv with huv | huv | huv
      · refine Relation.ReflTransGen.single (.inl ?_)
        rw [hpart u v]
        exact .inl huv
      · rcases List.mem_cons.mp huv with h | h
        · refine Relation.ReflTransGen.single (.inl ?_)
          rw [hpart u v]
          right; left
          have h1 : u = pr.1 := congrArg Prod.fst h
          have h2 : v = pr.2 := congrArg Prod.snd h
          exact ⟨h1 ▸ sameRoot_refl hinv u, h2 ▸ sameRoot_refl hinv v⟩
        · exact Relation.ReflTransGen.single (.inr (.inl h))
      · rcases List.mem_cons.mp huv with h | h
        · refine Relation.ReflTransGen.single (.inl ?_)
          rw [hpart u v]
          right; right
          have h1 : v = pr.1 := congrArg Prod.fst h
          have h2 : u = pr.2 := congrArg Prod.snd h
          exact ⟨h2 ▸ sameRoot_refl hinv u, h1 ▸ sameRoot_refl hinv v⟩
        · exact Relation.ReflTransGen.single (.inr (.inr h))

/-- The representative value `encontrar` returns. -/
def ufFind (uf : UnionFind) (x : Nat) : Nat := (uf.encontrar x).1

lemma ufFind_rootedAt {uf : UnionFind} (hinv : UFInv uf) {x : Nat}
    (hx : x ∈ uf.elems) : RootedAt uf.padre x (ufFind uf x) :=
  (encontrar_spec hinv hx).1

lemma ufFind_eq_iff {uf : UnionFind} (hinv : UFInv uf) {a b : Nat}
    (ha : a ∈ uf.elems) (hb : b ∈ uf.elems) :
    ufFind uf a = ufFind uf b ↔ sameRoot uf.padre a b := by
  constructor
  · intro h
    exact ⟨ufFind uf b, h ▸ ufFind_rootedAt hinv ha, ufFind_rootedAt hinv hb⟩
  · rintro ⟨r, h1, h2⟩
    rw [rootedAt_unique (ufFind_rootedAt hinv ha) h1,
      rootedAt_unique (ufFind_rootedAt hinv hb) h2]

/-- C6: Union-Find soundness. After any sequence of `unir` calls on
registered elements, `encontrar(a) = encontrar(b)` holds exactly when
`a` and `b` were connected by some chain of unions; moreover, in the
state so reached, `unir(x, y)` returns `false` exactly when `x` and `y`
already share a set — and is then a no-op on the partition — and
returns `true` exactly when it merges the two distinct sets of `x` and
`y`, leaving all other sets unchanged. -/
theorem unionfind_soundness (elems : List Nat) (pairs : List (Nat × Nat))
    (hpairs : ∀ pr ∈ pairs, pr.1 ∈ elems ∧ pr.2 ∈ elems)
    (a b : Nat) (ha : a ∈ elems) (hb : b ∈ elems) :
    (ufFind (applyUnions (UnionFind.make elems) pairs) a =
       ufFind (applyUnions (UnionFind.make elems) pairs) b ↔
     UnionChain pairs a b) ∧
    (∀ x y, x ∈ elems → y ∈ elems →
      (((applyUnions (UnionFind.make elems) pairs).unir x y).1 = false ↔
        sameRoot (applyUnions (UnionFind.make elems) pairs).padre x y) ∧
      ((((applyUnions (UnionFind.make elems) pairs).unir x y).1 = false →
        ∀ z w, sameRoot ((applyUnions (UnionFind.make elems) pairs).unir x y).2.padre z w ↔
          sameRoot (applyUnions (UnionFind.make elems) pairs).padre z w)) ∧
      ((((applyUnions (UnionFind.make elems) pairs).unir x y).1 = true →
        ¬ sameRoot (applyUnions (UnionFind.make elems) pairs).padre x y ∧
        ∀ z w, sameRoot ((applyUnions (UnionFind.make elems) pairs).unir x y).2.padre z w ↔
          (sameRoot (applyUnions (UnionFind.make elems) pairs).padre z w ∨
           (sameRoot (applyUnions (UnionFind.make elems) pairs).padre z x ∧
            sameRoot (applyUnions (UnionFind.make elems) pairs).padre y w) ∨
           (sameRoot (applyUnions (UnionFind.make elems) pairs).padre z y ∧
            sameRoot (applyUnions (UnionFind.make elems) pairs).padre x w))))) := by
  have hmem0 : ∀ pr ∈ pairs,
      pr.1 ∈ (UnionFind.make elems).elems ∧ pr.2 ∈ (UnionFind.make elems).elems :=
    hpairs
  obtain ⟨helems, hinv, hpart⟩ :=
    applyUnions_spec pairs (UnionFind.make elems) (make_inv elems) hmem0
  constructor
  · rw [ufFind_eq_iff hinv (helems.symm ▸ ha) (helems.symm ▸ hb), hpart a b]
    constructor
    · refine rtg_closure ?_
      intro u v huv
      rcases huv with huv | huv | huv
      · rw [sameRoot_make elems u v] at huv
        exact huv ▸ Relation.ReflTransGen.refl
      · exact Relation.ReflTransGen.single (.inl huv)
      · exact Relation.ReflTransGen.single (.inr huv)
    · refine rtg_closure ?_
      intro u v huv
      rcases huv with huv | huv
      · exact Relation.ReflTransGen.single (.inr (.inl huv))
      · exact Relation.ReflTransGen.single (.inr (.inr huv))
  · intro x y hx hy
    obtain ⟨hflag, _, _, hp⟩ :=
      unir_spec hinv (helems.symm ▸ hx : x ∈ _) (helems.symm ▸ hy : y ∈ _)
    refine ⟨hflag, ?_, ?_⟩
    · intro hfalse z w
      have hxy : sameRoot (applyUnions (UnionFind.make elems) pairs).padre x y :=
        hflag.mp hfalse
      rw [hp z w]
      constructor
      · rintro (h | ⟨h1, h2⟩ | ⟨h1, h2⟩)
        · exact h
        · exact sameRoot_trans (sameRoot_trans h1 hxy) h2
        · exact sameRoot_trans (sameRoot_trans h1 (sameRoot_symm hxy)) h2
      · exact fun h => .inl h
    · intro htrue
      refine ⟨?_, hp⟩
      intro hxy
      rw [← hflag, htrue] at hxy
      exact absurd hxy (by simp)

/-- C6 (witness): the soundness theorem applied to the elements 0-3 and
the union sequence (0,1), (1,2). -/
theorem unionfind_soundness_witness :
    (ufFind (applyUnions (UnionFind.make [0, 1, 2, 3]) [(0, 1), (1, 2)]) 0 =
       ufFind (applyUnions (UnionFind.make [0, 1, 2, 3]) [(0, 1), (1, 2)]) 2 ↔
     UnionChain [(0, 1), (1, 2)] 0 2) ∧
    (∀ x y, x ∈ [0, 1, 2, 3] → y ∈ [0, 1, 2, 3] →
      (((applyUnions (UnionFind.make [0, 1, 2, 3]) [(0, 1), (1, 2)]).unir x y).1 = false ↔
        sameRoot (applyUnions (UnionFind.make [0, 1, 2, 3]) [(0, 1), (1, 2)]).padre x y) ∧
      ((((applyUnions (UnionFind.make [0, 1, 2, 3]) [(0, 1), (1, 2)]).unir x y).1 = false →
        ∀ z w, sameRoot ((applyUnions (UnionFind.make [0, 1, 2, 3]) [(0, 1), (1, 2)]).unir x y).2.padre z w ↔
          sameRoot (applyUnions (UnionFind.make [0, 1, 2, 3]) [(0, 1), (1, 2)]).padre z w)) ∧
      ((((applyUnions (UnionFind.make [0, 1, 2, 3]) [(0, 1), (1, 2)]).unir x y).1 = true →
        ¬ sameRoot (applyUnions (UnionFind.make [0, 1, 2, 3]) [(0, 1), (1, 2)]).padre x y ∧
        ∀ z w, sameRoot ((applyUnions (UnionFind.make [0, 1, 2, 3]) [(0, 1), (1, 2)]).unir x y).2.padre z w ↔
          (sameRoot (applyUnions (UnionFind.make [0, 1, 2, 3]) [(0, 1), (1, 2)]).padre z w ∨
           (sameRoot (applyUnions (UnionFind.make [0, 1, 2, 3]) [(0, 1), (1, 2)]).padre z x ∧
            sameRoot (applyUnions (UnionFind.make [0, 1, 2, 3]) [(0, 1), (1, 2)]).padre y w) ∨
           (sameRoot (applyUnions (UnionFind.make [0, 1, 2, 3]) [(0, 1), (1, 2)]).padre z y ∧
            sameRoot (applyUnions (UnionFind.make [0, 1, 2, 3]) [(0, 1), (1, 2)]).padre x w))))) :=
  unionfind_soundness [0, 1, 2, 3] [(0, 1), (1, 2)] (by decide) 0 2
    (by decide) (by decide)

/-- Beyond the length of the element's chain, extra fuel does not
change the result of `encontrar`: the recursion terminates. -/
lemma encontrarF_fuel_agnostic {p : Nat → Nat} {y : Nat} {c : List Nat}
    (hc : Chain p y c) :
    ∀ f1 f2, c.length ≤ f1 → c.length ≤ f2 →
      encontrarF p f1 y = encontrarF p f2 y := by
  induction hc with
  | root z hz =>
    intro f1 f2 _ _
    rw [encontrarF_of_isRoot p f1 z hz, encontrarF_of_isRoot p f2 z hz]
  | step z c hz hcz ih =>
    intro f1 f2 h1 h2
    cases f1 with
    | zero => simp at h1
    | succ n1 =>
      cases f2 with
      | zero => simp at h2
      | succ n2 =>
        simp only [encontrarF, if_neg hz]
        rw [ih n1 n2 (by simpa using h1) (by simpa using h2)]

/-- C10: `encontrar` never changes the partition: every registered
element keeps the same representative across any `encontrar(x)` call;
the parent map stays a forest of self-looped roots (the invariant is
preserved); and on any state satisfying the invariant the `encontrar`
recursion terminates for every registered element — fuel beyond the
element count never changes the result. -/
theorem encontrar_preserves_partition (uf : UnionFind) (hinv : UFInv uf)
    (x : Nat) :
    (∀ y ∈ uf.elems, ufFind (uf.encontrar x).2 y = ufFind uf y) ∧
    UFInv (uf.encontrar x).2 ∧
    (∀ y ∈ uf.elems, ∀ fuel, uf.elems.length ≤ fuel →
      encontrarF uf.padre fuel y = encontrarF uf.padre uf.elems.length y) := by
  have hterm : ∀ y ∈ uf.elems, ∀ fuel, uf.elems.length ≤ fuel →
      encontrarF uf.padre fuel y = encontrarF uf.padre uf.elems.length y := by
    intro y hy fuel hfuel
    obtain ⟨c, hc⟩ := hinv.2.2 y hy
    have hlen : c.length ≤ uf.elems.length := chain_length_le hinv.1 hc hy
    exact encontrarF_fuel_agnostic hc fuel uf.elems.length
      (hlen.trans hfuel) hlen
  by_cases hx : x ∈ uf.elems
  · obtain ⟨_, he, _, hinv', pres⟩ := encontrar_spec hinv hx
    refine ⟨?_, hinv', hterm⟩
    intro y hy
    have hy' : y ∈ (uf.encontrar x).2.elems := by rw [he]; exact hy
    exact rootedAt_unique (ufFind_rootedAt hinv' hy')
      (pres y (ufFind uf y) (ufFind_rootedAt hinv hy))
  · rw [encontrar_of_not_mem hinv hx]
    exact ⟨fun y _ => rfl, hinv, hterm⟩

/-- C10 (witness): partition preservation applied to the state reached
from elements 0-2 by the union (0,1), compressing from element 0. -/
theorem encontrar_preserves_partition_witness :
    (∀ y ∈ (applyUnions (UnionFind.make [0, 1, 2]) [(0, 1)]).elems,
      ufFind ((applyUnions (UnionFind.make [0, 1, 2]) [(0, 1)]).encontrar 0).2 y =
        ufFind (applyUnions (UnionFind.make [0, 1, 2]) [(0, 1)]) y) ∧
    UFInv ((applyUnions (UnionFind.make [0, 1, 2]) [(0, 1)]).encontrar 0).2 ∧
    (∀ y ∈ (applyUnions (UnionFind.make [0, 1, 2]) [(0, 1)]).elems,
      ∀ fuel, (applyUnions (UnionFind.make [0, 1, 2]) [(0, 1)]).elems.length ≤ fuel →
        encontrarF (applyUnions (UnionFind.make [0, 1, 2]) [(0, 1)]).padre fuel y =
          encontrarF (applyUnions (UnionFind.make [0, 1, 2]) [(0, 1)]).padre
            (applyUnions (UnionFind.make [0, 1, 2]) [(0, 1)]).elems.length y) :=
  encontrar_preserves_partition (applyUnions (UnionFind.make [0, 1, 2]) [(0, 1)])
    ((applyUnions_spec [(0, 1)] (UnionFind.make [0, 1, 2])
      (make_inv [0, 1, 2]) (by decide)).2.1) 0

/-! ## Counting Union-Find classes (for the MST edge-count property) -/

/-- The number of distinct sets in a Union-Find state: distinct
representatives over the registered elements. -/
def nClasses (uf : UnionFind) : Nat :=
  ((uf.elems.map (ufFind uf)).dedup).length

/-- Collapsing one present value `b` onto another present value `a`
shrinks the number of distinct values by exactly one. -/
lemma collapse_dedup_length {L : List Nat} {a b : Nat} (ha : a ∈ L)
    (hb : b ∈ L) (hab : a ≠ b) :
    ((L.map (fun z => if z = b then a else z)).dedup).length + 1 =
      L.dedup.length := by
  have himg : L.toFinset.image (fun z => if z = b then a else z) =
      L.toFinset.erase b := by
    ext z
    simp only [Finset.mem_image, Finset.mem_erase, List.mem_toFinset]
    constructor
    · rintro ⟨w, hw, hval⟩
      by_cases hwb : w = b
      · rw [if_pos hwb] at hval
        exact ⟨hval ▸ hab, hval ▸ ha⟩
      · rw [if_neg hwb] at hval
        exact ⟨hval ▸ hwb, hval ▸ hw⟩
    · rintro ⟨hzb, hz⟩
      exact ⟨z, hz, if_neg hzb⟩
  have hset : (L.map (fun z => if z = b then a else z)).toFinset =
      L.toFinset.image (fun z => if z = b then a else z) := by
    ext z
    simp
  have h1 : ((L.map (fun z => if z = b then a else z)).dedup).length =
      (L.toFinset.erase b).card := by
    rw [← List.card_toFinset, hset, himg]
  rw [h1, Finset.card_erase_of_mem (List.mem_toFinset.mpr hb),
    ← List.card_toFinset]
  have : 0 < L.toFinset.card :=
    Finset.card_pos.mpr ⟨b, List.mem_toFinset.mpr hb⟩
  omega

/-- Two labellings that induce the same partition of `L` have the same
number of distinct values on `L`. -/
lemma dedup_length_congr :
    ∀ (L : List Nat) (f h : Nat → Nat),
      (∀ a ∈ L, ∀ b ∈ L, f a = f b ↔ h a = h b) →
      ((L.map f).dedup).length = ((L.map h).dedup).length := by
  intro L
  induction L with
  | nil => intro f h _; rfl
  | cons x L ih =>
    intro f h hiff
    have hmem : f x ∈ L.map f ↔ h x ∈ L.map h := by
      simp only [List.mem_map]
      constructor
      · rintro ⟨b, hb, hval⟩
        exact ⟨b, hb, ((hiff b (by simp [hb]) x (by simp)).mp hval)⟩
      · rintro ⟨b, hb, hval⟩
        exact ⟨b, hb, ((hiff b (by simp [hb]) x (by simp)).mpr hval)⟩
    have ihL := ih f h (fun a ha b hb =>
      hiff a (by simp [ha]) b (by simp [hb]))
    simp only [List.map_cons]
    by_cases hfx : f x ∈ L.map f
    · rw [List.dedup_cons_of_mem hfx,
        List.dedup_cons_of_mem (hmem.mp hfx), ihL]
    · rw [List.dedup_cons_of_not_mem hfx,
        List.dedup_cons_of_not_mem (fun hh => hfx (hmem.mpr hh))]
      simp [ihL]

/-- A rejected union does not change the number of sets. -/
lemma nClasses_unir_false {uf : UnionFind} (hinv : UFInv uf) {x y : Nat}
    (hx : x ∈ uf.elems) (hy : y ∈ uf.elems)
    (hres : (uf.unir x y).1 = false) :
    nClasses (uf.unir x y).2 = nClasses uf := by
  obtain ⟨hflag, helems, hinvu, hpart⟩ := unir_spec hinv hx hy
  have hxy := hflag.mp hres
  unfold nClasses
  rw [helems]
  apply dedup_length_congr
  intro a ha b hb
  rw [ufFind_eq_iff hinvu (helems.symm ▸ ha) (helems.symm ▸ hb),
    ufFind_eq_iff hinv ha hb, hpart a b]
  constructor
  · rintro (h | ⟨h1, h2⟩ | ⟨h1, h2⟩)
    · exact h
    · exact sameRoot_trans (sameRoot_trans h1 hxy) h2
    · exact sameRoot_trans (sameRoot_trans h1 (sameRoot_symm hxy)) h2
  · exact fun h => .inl h

/-- An accepted union merges exactly two distinct sets into one. -/
lemma nClasses_unir_true {uf : UnionFind} (hinv : UFInv uf) {x y : Nat}
    (hx : x ∈ uf.elems) (hy : y ∈ uf.elems)
    (hres : (uf.unir x y).1 = true) :
    nClasses (uf.unir x y).2 + 1 = nClasses uf := by
  obtain ⟨hflag, helems, hinvu, hpart⟩ := unir_spec hinv hx hy
  have hnxy : ¬ sameRoot uf.padre x y := by
    intro h
    have hh := hflag.mpr h
    rw [hres] at hh
    exact absurd hh (by simp)
  have hra : RootedAt uf.padre x (ufFind uf x) := ufFind_rootedAt hinv hx
  have hrb : RootedAt uf.padre y (ufFind uf y) := ufFind_rootedAt hinv hy
  have hrarb : ufFind uf x ≠ ufFind uf y := fun h =>
    hnxy ⟨ufFind uf x, hra, h ▸ hrb⟩
  have hax : ∀ a ∈ uf.elems,
      (sameRoot uf.padre a x ↔ ufFind uf a = ufFind uf x) := by
    intro a ha
    rw [← ufFind_eq_iff hinv ha hx]
  have hay : ∀ a ∈ uf.elems,
      (sameRoot uf.padre a y ↔ ufFind uf a = ufFind uf y) := by
    intro a ha
    rw [← ufFind_eq_iff hinv ha hy]
  have hcong : ((uf.elems.map (ufFind (uf.unir x y).2)).dedup).length =
      ((uf.elems.map (fun z =>
        if ufFind uf z = ufFind uf y then ufFind uf x else ufFind uf z)).dedup).length := by
    apply dedup_length_congr
    intro a ha b hb
    rw [ufFind_eq_iff hinvu (helems.symm ▸ ha) (helems.symm ▸ hb), hpart a b,
      ← ufFind_eq_iff hinv ha hb]
    have h1 : sameRoot uf.padre a x ↔ ufFind uf a = ufFind uf x := hax a ha
    have h2 : sameRoot uf.padre y b ↔ ufFind uf b = ufFind uf y := by
      rw [ufFind_eq_iff hinv hb hy]
      constructor
      · exact sameRoot_symm
      · exact sameRoot_symm
    have h3 : sameRoot uf.padre a y ↔ ufFind uf a = ufFind uf y := hay a ha
    have h4 : sameRoot uf.padre x b ↔ ufFind uf b = ufFind uf x := by
      rw [ufFind_eq_iff hinv hb hx]
      constructor
      · exact sameRoot_symm
      · exact sameRoot_symm
    rw [h1, h2, h3, h4]
    by_cases hA : ufFind uf a = ufFind uf y
    · by_cases hB : ufFind uf b = ufFind uf y
      · rw [if_pos hA, if_pos hB]
        omega
      · rw [if_pos hA, if_neg hB]
        omega
    · by_cases hB : ufFind uf b = ufFind uf y
      · rw [if_neg hA, if_pos hB]
        omega
      · rw [if_neg hA, if_neg hB]
        omega
  have hmap : uf.elems.map (fun z =>
      if ufFind uf z = ufFind uf y then ufFind uf x else ufFind uf z) =
      (uf.elems.map (ufFind uf)).map
        (fun w => if w = ufFind uf y then ufFind uf x else w) := by
    rw [List.map_map]
    rfl
  have hmema : ufFind uf x ∈ uf.elems.map (ufFind uf) :=
    List.mem_map.mpr ⟨x, hx, rfl⟩
  have hmemb : ufFind uf y ∈ uf.elems.map (ufFind uf) :=
    List.mem_map.mpr ⟨y, hy, rfl⟩
  show ((( (uf.unir x y).2.elems).map (ufFind (uf.unir x y).2)).dedup).length + 1 =
    nClasses uf
  rw [helems, hcong, hmap]
  exact collapse_dedup_length hmema hmemb hrarb

lemma nClasses_pos {uf : UnionFind} (h : uf.elems ≠ []) : 1 ≤ nClasses uf := by
  unfold nClasses
  have hm : uf.elems.map (ufFind uf) ≠ [] := by
    simpa using h
  have hd : ((uf.elems.map (ufFind uf)).dedup) ≠ [] := by
    simpa [List.dedup_eq_nil] using hm
  exact List.length_pos.mpr hd

lemma two_le_dedup_length {L : List Nat} {a b : Nat} (ha : a ∈ L)
    (hb : b ∈ L) (hab : a ≠ b) : 2 ≤ L.dedup.length := by
  have hsub : ({a, b} : Finset Nat) ⊆ L.toFinset := by
    intro z hz
    rcases Finset.mem_insert.mp hz with rfl | hz
    · exact List.mem_toFinset.mpr ha
    · rw [Finset.mem_singleton.mp hz]
      exact List.mem_toFinset.mpr hb
  calc 2 = ({a, b} : Finset Nat).card := (Finset.card_pair hab).symm
    _ ≤ L.toFinset.card := Finset.card_le_card hsub
    _ = L.dedup.length := List.card_toFinset L

lemma two_le_nClasses_of_unir_true {uf : UnionFind} (hinv : UFInv uf)
    {x y : Nat} (hx : x ∈ uf.elems) (hy : y ∈ uf.elems)
    (hres : (uf.unir x y).1 = true) : 2 ≤ nClasses uf := by
  obtain ⟨hflag, _, _, _⟩ := unir_spec hinv hx hy
  have hnxy : ¬ sameRoot uf.padre x y := by
    intro h
    have hh := hflag.mpr h
    rw [hres] at hh
    exact absurd hh (by simp)
  have hne : ufFind uf x ≠ ufFind uf y := by
    intro h
    exact hnxy ((ufFind_eq_iff hinv hx hy).mp h)
  exact two_le_dedup_length (List.mem_map.mpr ⟨x, hx, rfl⟩)
    (List.mem_map.mpr ⟨y, hy, rfl⟩) hne

lemma nClasses_applyUnions_le :
    ∀ (ps : List (Nat × Nat)) (uf : UnionFind), UFInv uf →
      (∀ q ∈ ps, q.1 ∈ uf.elems ∧ q.2 ∈ uf.elems) →
      nClasses (applyUnions uf ps) ≤ nClasses uf := by
  intro ps
  induction ps with
  | nil => intro uf _ _; exact le_refl _
  | cons q rest ih =>
    intro uf hinv hmem
    obtain ⟨h1, h2⟩ := hmem q (List.mem_cons_self q rest)
    obtain ⟨hflag, helems, hinvu, hpart⟩ := unir_spec hinv h1 h2
    have hrec := ih (uf.unir q.1 q.2).2 hinvu (fun r hr => by
      rw [helems]
      exact hmem r (List.mem_cons_of_mem q hr))
    have hstep : nClasses (uf.unir q.1 q.2).2 ≤ nClasses uf := by
      cases hres : (uf.unir q.1 q.2).1 with
      | false => rw [nClasses_unir_false hinv h1 h2 hres]
      | true =>
        have := nClasses_unir_true hinv h1 h2 hres
        omega
    exact le_trans hrec hstep

/-- The Kruskal loop accepts exactly as many edges as Union-Find class
merges happen: the final count is the node count minus the number of
classes after uniting along every offered edge (the early break can
only fire once a single class remains, when later unions are no-ops for
the count). -/
lemma kruskalLoop_count (g : Graph) :
    ∀ (ts : List (Nat × Nat × Nat)) (uf : UnionFind)
      (mst : List (Nat × Nat × Nat)) (total : Nat),
      UFInv uf → uf.elems = g.nodes →
      (∀ t ∈ ts, t.2.1 ∈ g.nodes ∧ t.2.2 ∈ g.nodes) →
      mst.length + nClasses uf = g.nodes.length →
      1 ≤ nClasses uf →
      (kruskalLoop g ts uf mst total).1.length =
        g.nodes.length -
          nClasses (applyUnions uf (ts.map (fun t => (t.2.1, t.2.2)))) := by
  intro ts
  induction ts with
  | nil =>
    intro uf mst total hinv helems hts hcount hpos
    simp only [kruskalLoop, applyUnions, List.map_nil]
    omega
  | cons t rest ih =>
    obtain ⟨w, u, v⟩ := t
    intro uf mst total hinv helems hts hcount hpos
    obtain ⟨hu, hv⟩ := hts (w, u, v) (List.mem_cons_self _ rest)
    have hu' : u ∈ uf.elems := by rw [helems]; exact hu
    have hv' : v ∈ uf.elems := by rw [helems]; exact hv
    obtain ⟨hflag, helems2, hinvu, hpart⟩ := unir_spec hinv hu' hv'
    have hrest : ∀ t ∈ rest, t.2.1 ∈ g.nodes ∧ t.2.2 ∈ g.nodes :=
      fun t ht => hts t (List.mem_cons_of_mem _ ht)
    have happly : applyUnions uf (((w, u, v) :: rest).map (fun t => (t.2.1, t.2.2))) =
        applyUnions (uf.unir u v).2 (rest.map (fun t => (t.2.1, t.2.2))) := rfl
    rw [happly]
    simp only [kruskalLoop]
    cases hres : (uf.unir u v).1 with
    | false =>
      simp only [hres, Bool.false_eq_true, if_false]
      have hc := nClasses_unir_false hinv hu' hv' hres
      exact ih (uf.unir u v).2 mst total hinvu (helems2.trans helems)
        hrest (by omega) (by omega)
    | true =>
      simp only [hres, if_true]
      have hc := nClasses_unir_true hinv hu' hv' hres
      have h2c := two_le_nClasses_of_unir_true hinv hu' hv' hres
      by_cases hbreak : (mst ++ [(u, v, w)]).length = g.nodes.length - 1
      · rw [if_pos hbreak]
        have hlen : mst.length + 1 = g.nodes.length - 1 := by
          simpa using hbreak
        have h1 : nClasses (uf.unir u v).2 = 1 := by omega
        have helemsr : (applyUnions (uf.unir u v).2
            (rest.map (fun t => (t.2.1, t.2.2)))).elems = g.nodes := by
          have := (applyUnions_spec (rest.map (fun t => (t.2.1, t.2.2)))
            (uf.unir u v).2 hinvu (fun q hq => by
              rw [helems2, helems]
              rcases List.mem_map.mp hq with ⟨t, ht, rfl⟩
              exact hrest t ht)).1
          rw [this, helems2, helems]
        have hle := nClasses_applyUnions_le (rest.map (fun t => (t.2.1, t.2.2)))
          (uf.unir u v).2 hinvu (fun q hq => by
            rw [helems2, helems]
            rcases List.mem_map.mp hq with ⟨t, ht, rfl⟩
            exact hrest t ht)
        have hnodes_ne : g.nodes ≠ [] := by
          intro hnil
          rw [hnil] at hcount
          simp at hcount
          omega
        have hge : 1 ≤ nClasses (applyUnions (uf.unir u v).2
            (rest.map (fun t => (t.2.1, t.2.2)))) := by
          apply nClasses_pos
          rw [helemsr]
          exact hnodes_ne
        simp only [List.length_append, List.length_singleton]
        omega
      · rw [if_neg hbreak]
        refine ih (uf.unir u v).2 (mst ++ [(u, v, w)]) (total + w) hinvu
          (helems2.trans helems) hrest ?_ ?_
        · simp only [List.length_append, List.length_singleton]
          omega
        · omega

/-! ## Connected components via Union-Find -/

/-- The Union-Find state reached from the graph's nodes by uniting
along every edge: its classes are the connected components. -/
def ufOfGraph (g : Graph) : UnionFind :=
  applyUnions (UnionFind.make g.nodes) (g.edges.map (fun e => (e.1, e.2.1)))

/-- A canonical representative of a node's connected component. -/
def canonRep (g : Graph) (v : Nat) : Nat := ufFind (ufOfGraph g) v

/-- The number of connected components of the graph (justified by
`canonRep_eq_iff_conn`). -/
def componentsCount (g : Graph) : Nat := nClasses (ufOfGraph g)

/-- The number of nodes in the component of `s`. -/
def componentSize (g : Graph) (s : Nat) : Nat :=
  (g.nodes.filter (fun v => canonRep g v == canonRep g s)).length

lemma edgePairs_mem (g : Graph) :
    ∀ q ∈ g.edges.map (fun e => (e.1, e.2.1)),
      q.1 ∈ g.nodes ∧ q.2 ∈ g.nodes := by
  intro q hq
  rcases List.mem_map.mp hq with ⟨e, he, rfl⟩
  exact g.edgesMem e he

lemma pair_step_iff_adj (g : Graph) (u v : Nat) :
    ((u, v) ∈ g.edges.map (fun e => (e.1, e.2.1)) ∨
     (v, u) ∈ g.edges.map (fun e => (e.1, e.2.1))) ↔ g.Adj u v := by
  constructor
  · rintro (h | h) <;> rcases List.mem_map.mp h with ⟨e, he, hval⟩
    · refine ⟨e.2.2, .inl ?_⟩
      have h1 : e.1 = u := congrArg Prod.fst hval
      have h2 : e.2.1 = v := congrArg Prod.snd hval
      rw [← h1, ← h2]
      exact he
    · refine ⟨e.2.2, .inr ?_⟩
      have h1 : e.1 = v := congrArg Prod.fst hval
      have h2 : e.2.1 = u := congrArg Prod.snd hval
      rw [← h1, ← h2]
      exact he
  · rintro ⟨w, h | h⟩
    · exact .inl (List.mem_map.mpr ⟨(u, v, w), h, rfl⟩)
    · exact .inr (List.mem_map.mpr ⟨(v, u, w), h, rfl⟩)

/-- Two nodes share a canonical representative exactly when they are
connected in the graph: `componentsCount` counts components. -/
lemma canonRep_eq_iff_conn (g : Graph) {u v : Nat} (hu : u ∈ g.nodes)
    (hv : v ∈ g.nodes) : canonRep g u = canonRep g v ↔ g.Conn u v := by
  obtain ⟨he, hi, hpart⟩ := applyUnions_spec
    (g.edges.map (fun e => (e.1, e.2.1))) (UnionFind.make g.nodes)
    (make_inv g.nodes) (edgePairs_mem g)
  unfold canonRep ufOfGraph
  rw [ufFind_eq_iff hi (he.symm ▸ hu) (he.symm ▸ hv), hpart u v]
  constructor
  · refine rtg_closure ?_
    intro a b hab
    rcases hab with hab | hab | hab
    · rw [sameRoot_make] at hab
      exact hab ▸ Relation.ReflTransGen.refl
    · exact Relation.ReflTransGen.single
        ((pair_step_iff_adj g a b).mp (.inl hab))
    · exact Relation.ReflTransGen.single
        ((pair_step_iff_adj g a b).mp (.inr hab))
  · refine rtg_closure ?_
    intro a b hab
    rcases (pair_step_iff_adj g a b).mpr hab with h | h
    · exact Relation.ReflTransGen.single (.inr (.inl h))
    · exact Relation.ReflTransGen.single (.inr (.inr h))

/-- The class count after a union sequence depends only on which pairs
were united, not on their order or multiplicity. -/
lemma nClasses_applyUnions_congr {uf : UnionFind} (hinv : UFInv uf)
    {ps1 ps2 : List (Nat × Nat)} (hmem : ∀ q, q ∈ ps1 ↔ q ∈ ps2)
    (hp1 : ∀ q ∈ ps1, q.1 ∈ uf.elems ∧ q.2 ∈ uf.elems) :
    nClasses (applyUnions uf ps1) = nClasses (applyUnions uf ps2) := by
  have hp2 : ∀ q ∈ ps2, q.1 ∈ uf.elems ∧ q.2 ∈ uf.elems :=
    fun q hq => hp1 q ((hmem q).mpr hq)
  obtain ⟨he1, hi1, hpart1⟩ := applyUnions_spec ps1 uf hinv hp1
  obtain ⟨he2, hi2, hpart2⟩ := applyUnions_spec ps2 uf hinv hp2
  unfold nClasses
  rw [he1, he2]
  apply dedup_length_congr
  intro a ha b hb
  rw [ufFind_eq_iff hi1 (he1.symm ▸ ha) (he1.symm ▸ hb),
    ufFind_eq_iff hi2 (he2.symm ▸ ha) (he2.symm ▸ hb), hpart1, hpart2]
  constructor <;> refine rtg_closure ?_ <;> intro a' b' hab <;>
    rcases hab with h | h | h
  · exact Relation.ReflTransGen.single (.inl h)
  · exact Relation.ReflTransGen.single (.inr (.inl ((hmem _).mp h)))
  · exact Relation.ReflTransGen.single (.inr (.inr ((hmem _).mp h)))
  · exact Relation.ReflTransGen.single (.inl h)
  · exact Relation.ReflTransGen.single (.inr (.inl ((hmem _).mpr h)))
  · exact Relation.ReflTransGen.single (.inr (.inr ((hmem _).mpr h)))

lemma ufFind_make (l : List Nat) (z : Nat) : ufFind (UnionFind.make l) z = z := by
  unfold ufFind UnionFind.encontrar
  rw [encontrarF_of_isRoot _ _ _ rfl]

lemma nClasses_make (l : List Nat) (hl : l.Nodup) :
    nClasses (UnionFind.make l) = l.length := by
  unfold nClasses
  have hmap : (UnionFind.make l).elems.map (ufFind (UnionFind.make l)) = l := by
    show l.map (ufFind (UnionFind.make l)) = l
    rw [show l.map (ufFind (UnionFind.make l)) = l.map id from
      List.map_congr_left (fun z _ => ufFind_make l z)]
    exact List.map_id l
  rw [hmap, List.dedup_eq_self.mpr hl]

/-- Kruskal accepts exactly `V - k` edges, `k` the number of connected
components. -/
lemma kruskal_count (g : Graph) :
    (algoritmo_kruskal g).1.length = g.nodes.length - componentsCount g := by
  unfold algoritmo_kruskal
  by_cases h0 : g.nodes.length = 0
  · rw [if_pos h0]
    have hnil : g.nodes = [] := List.length_eq_zero.mp h0
    have : componentsCount g = 0 := by
      unfold componentsCount
      have he := (applyUnions_spec (g.edges.map (fun e => (e.1, e.2.1)))
        (UnionFind.make g.nodes) (make_inv g.nodes) (edgePairs_mem g)).1
      unfold nClasses ufOfGraph
      rw [he]
      show ((g.nodes.map _).dedup).length = 0
      rw [hnil]
      rfl
    simp [this, h0]
  · rw [if_neg h0]
    have hperm : List.Perm
        ((g.edges.map (fun e => (e.2.2, e.1, e.2.1))).insertionSort tripleLe)
        (g.edges.map (fun e => (e.2.2, e.1, e.2.1))) :=
      List.perm_insertionSort tripleLe _
    have hts : ∀ t ∈ (g.edges.map (fun e => (e.2.2, e.1, e.2.1))).insertionSort tripleLe,
        t.2.1 ∈ g.nodes ∧ t.2.2 ∈ g.nodes := by
      intro t ht
      rcases List.mem_map.mp (hperm.mem_iff.mp ht) with ⟨e, he, rfl⟩
      exact g.edgesMem e he
    rw [kruskalLoop_count g _ (UnionFind.make g.nodes) [] 0 (make_inv g.nodes)
      rfl hts (by simp [nClasses_make g.nodes g.nodesNodup]) (by
        rw [nClasses_make g.nodes g.nodesNodup]
        omega)]
    have hcongr : nClasses (applyUnions (UnionFind.make g.nodes)
        ((((g.edges.map (fun e => (e.2.2, e.1, e.2.1))).insertionSort tripleLe)).map
          (fun t => (t.2.1, t.2.2)))) = componentsCount g := by
      unfold componentsCount ufOfGraph
      apply nClasses_applyUnions_congr (make_inv g.nodes)
      · intro q
        rw [(hperm.map (fun t => (t.2.1, t.2.2))).mem_iff]
        rw [List.map_map]
        constructor
        · intro hq
          rcases List.mem_map.mp hq with ⟨e, he, hval⟩
          exact List.mem_map.mpr ⟨e, he, hval⟩
        · intro hq
          rcases List.mem_map.mp hq with ⟨e, he, hval⟩
          exact List.mem_map.mpr ⟨e, he, hval⟩
      · intro q hq
        rcases List.mem_map.mp hq with ⟨t, ht, rfl⟩
        exact hts t ht
    rw [hcongr]

/-! ## Prim: visited-set analysis -/

lemma heapPopP_none_iff (l : List (Nat × Nat × Option Nat)) :
    heapPopP l = none ↔ l = [] := by
  cases l <;> simp [heapPopP]

lemma findMinTrip_mem (e : Nat × Nat × Option Nat) :
    ∀ l, findMinTrip e l ∈ e :: l := by
  intro l
  induction l generalizing e with
  | nil => simp [findMinTrip]
  | cons f rest ih =>
    simp only [findMinTrip]
    by_cases h : tripLt f e
    · rw [if_pos h]
      exact List.mem_cons_of_mem e (ih f)
    · rw [if_neg h]
      rcases List.mem_cons.mp (ih e) with h1 | h1
      · rw [h1]
        exact List.mem_cons_self e (f :: rest)
      · exact List.mem_cons_of_mem e (List.mem_cons_of_mem f h1)

lemma heapPopP_some {l : List (Nat × Nat × Option Nat)}
    {m : Nat × Nat × Option Nat} {rest : List (Nat × Nat × Option Nat)}
    (h : heapPopP l = some (m, rest)) :
    m ∈ l ∧ rest.length + 1 = l.length ∧ (∀ e ∈ rest, e ∈ l) := by
  cases l with
  | nil => simp [heapPopP] at h
  | cons e tl =>
    simp only [heapPopP, Option.some.injEq, Prod.mk.injEq] at h
    obtain ⟨hm, hrest⟩ := h
    have hmem : m ∈ e :: tl := hm ▸ findMinTrip_mem e tl
    refine ⟨hmem, ?_, ?_⟩
    · rw [← hrest, hm, List.length_erase_of_mem hmem]
      have : 0 < (e :: tl).length := by simp
      omega
    · intro x hx
      rw [← hrest] at hx
      exact List.mem_of_mem_erase hx

lemma neighbors_adj {g : Graph} {u v : Nat} (h : v ∈ g.neighbors u) :
    g.Adj u v := by
  rcases List.mem_filterMap.mp h with ⟨e, he, hval⟩
  by_cases h1 : e.1 = u
  · rw [if_pos h1] at hval
    refine ⟨e.2.2, .inl ?_⟩
    have h2 : e.2.1 = v := Option.some.inj hval
    rw [← h1, ← h2]
    exact he
  · rw [if_neg h1] at hval
    by_cases h2 : e.2.1 = u
    · rw [if_pos h2] at hval
      refine ⟨e.2.2, .inr ?_⟩
      have h3 : e.1 = v := Option.some.inj hval
      rw [← h3, ← h2]
      exact he
    · rw [if_neg h2] at hval
      exact absurd hval (by simp)

lemma adj_neighbors {g : Graph} {u v : Nat} (h : g.Adj u v) :
    v ∈ g.neighbors u := by
  rcases h with ⟨w, h | h⟩
  · refine List.mem_filterMap.mpr ⟨(u, v, w), h, ?_⟩
    simp
  · refine List.mem_filterMap.mpr ⟨(v, u, w), h, ?_⟩
    have hvu : v ≠ u := g.edgesIrrefl (v, u, w) h
    simp [hvu]

lemma adj_mem {g : Graph} {u v : Nat} (h : g.Adj u v) :
    u ∈ g.nodes ∧ v ∈ g.nodes := by
  rcases h with ⟨w, h | h⟩
  · exact g.edgesMem (u, v, w) h
  · exact (g.edgesMem (v, u, w) h).symm

lemma adj_symm {g : Graph} {u v : Nat} (h : g.Adj u v) : g.Adj v u := by
  rcases h with ⟨w, h | h⟩
  · exact ⟨w, .inr h⟩
  · exact ⟨w, .inl h⟩

lemma conn_mem {g : Graph} {s v : Nat} (hs : s ∈ g.nodes)
    (h : g.Conn s v) : v ∈ g.nodes := by
  induction h with
  | refl => exact hs
  | tail _ hadj ih => exact (adj_mem hadj).2

lemma conn_symm {g : Graph} {u v : Nat} (h : g.Conn u v) : g.Conn v u := by
  induction h with
  | refl => exact Relation.ReflTransGen.refl
  | tail _ hadj ih =>
    exact Relation.ReflTransGen.head (adj_symm hadj) ih

lemma neighbors_of_not_mem {g : Graph} {u : Nat} (h : u ∉ g.nodes) :
    g.neighbors u = [] := by
  unfold Graph.neighbors
  rw [List.filterMap_eq_nil_iff]
  intro e he
  have hmem := g.edgesMem e he
  have h1 : e.1 ≠ u := fun hh => h (hh ▸ hmem.1)
  have h2 : e.2.1 ≠ u := fun hh => h (hh ▸ hmem.2)
  simp [h1, h2]

lemma pushNeighbors_mono (g : Graph) (u : Nat) :
    ∀ (ns vis : List Nat) (heap : List (Nat × Nat × Option Nat)),
      ∀ e ∈ heap, e ∈ pushNeighbors g u ns vis heap := by
  intro ns
  induction ns with
  | nil => intro vis heap e he; exact he
  | cons v rest ih =>
    intro vis heap e he
    simp only [pushNeighbors]
    by_cases hv : v ∈ vis
    · rw [if_pos hv]
      exact ih vis heap e he
    · rw [if_neg hv]
      exact ih vis _ e (List.mem_append_left _ he)

lemma pushNeighbors_mem (g : Graph) (u : Nat) :
    ∀ (ns vis : List Nat) (heap : List (Nat × Nat × Option Nat)),
      ∀ e ∈ pushNeighbors g u ns vis heap,
        e ∈ heap ∨ ∃ v ∈ ns, v ∉ vis ∧ e = (g.weight u v, v, some u) := by
  intro ns
  induction ns with
  | nil => intro vis heap e he; exact .inl he
  | cons v rest ih =>
    intro vis heap e he
    simp only [pushNeighbors] at he
    by_cases hv : v ∈ vis
    · rw [if_pos hv] at he
      rcases ih vis heap e he with h | ⟨v', hv', h1, h2⟩
      · exact .inl h
      · exact .inr ⟨v', List.mem_cons_of_mem v hv', h1, h2⟩
    · rw [if_neg hv] at he
      rcases ih vis _ e he with h | ⟨v', hv', h1, h2⟩
      · rcases List.mem_append.mp h with h | h
        · exact .inl h
        · simp only [List.mem_singleton] at h
          exact .inr ⟨v, List.mem_cons_self v rest, hv, h⟩
      · exact .inr ⟨v', List.mem_cons_of_mem v hv', h1, h2⟩

lemma pushNeighbors_covers (g : Graph) (u : Nat) :
    ∀ (ns vis : List Nat) (heap : List (Nat × Nat × Option Nat)),
      ∀ v ∈ ns, v ∉ vis →
        ∃ e ∈ pushNeighbors g u ns vis heap, e.2.1 = v := by
  intro ns
  induction ns with
  | nil => intro vis heap v hv; simp at hv
  | cons w rest ih =>
    intro vis heap v hv hnv
    simp only [pushNeighbors]
    rcases List.mem_cons.mp hv with h | h
    · subst h
      rw [if_neg hnv]
      exact ⟨(g.weight u v, v, some u),
        pushNeighbors_mono g u rest vis _ _ (by simp), rfl⟩
    · by_cases hw : w ∈ vis
      · rw [if_pos hw]
        exact ih vis heap v h hnv
      · rw [if_neg hw]
        exact ih vis _ v h hnv

lemma pushNeighbors_length (g : Graph) (u : Nat) :
    ∀ (ns vis : List Nat) (heap : List (Nat × Nat × Option Nat)),
      (pushNeighbors g u ns vis heap).length ≤ heap.length + ns.length := by
  intro ns
  induction ns with
  | nil => intro vis heap; simp [pushNeighbors]
  | cons v rest ih =>
    intro vis heap
    simp only [pushNeighbors]
    by_cases hv : v ∈ vis
    · rw [if_pos hv]
      have := ih vis heap
      simp only [List.length_cons]
      omega
    · rw [if_neg hv]
      have := ih vis (heap ++ [(g.weight u v, v, some u)])
      simp only [List.length_append, List.length_singleton,
        List.length_cons, List.length_nil] at this ⊢
      omega

lemma sum_unvisited_split {nodes : List Nat} (hnd : nodes.Nodup)
    {vis : List Nat} {u : Nat} (hu : u ∈ nodes) (hunv : u ∉ vis)
    (f : Nat → Nat) :
    ((nodes.filter (fun v => v ∉ vis)).map f).sum =
      ((nodes.filter (fun v => v ∉ u :: vis)).map f).sum + f u := by
  have hufil : u ∈ nodes.filter (fun v => v ∉ vis) := by
    rw [List.mem_filter]
    exact ⟨hu, by simpa using hunv⟩
  have hndfil : (nodes.filter (fun v => v ∉ vis)).Nodup := hnd.filter _
  have herase : nodes.filter (fun v => v ∉ u :: vis) =
      (nodes.filter (fun v => v ∉ vis)).filter (fun v => v ≠ u) := by
    rw [List.filter_filter]
    apply List.filter_congr
    intro v _
    by_cases hv1 : v = u <;> by_cases hv2 : v ∈ vis <;>
      simp [hv1, hv2, List.mem_cons]
  have herase2 : (nodes.filter (fun v => v ∉ vis)).filter (fun v => v ≠ u) =
      (nodes.filter (fun v => v ∉ vis)).erase u := by
    rw [hndfil.erase_eq_filter u]
    apply List.filter_congr
    intro v _
    by_cases h : v = u
    · subst h
      simp
    · simp [h, Ne.symm h]
  have hperm : List.Perm (nodes.filter (fun v => v ∉ vis))
      (u :: (nodes.filter (fun v => v ∉ vis)).erase u) :=
    List.perm_cons_erase hufil
  rw [herase, herase2]
  calc ((nodes.filter (fun v => v ∉ vis)).map f).sum
      = ((u :: (nodes.filter (fun v => v ∉ vis)).erase u).map f).sum :=
        (hperm.map f).sum_eq
    _ = f u + (((nodes.filter (fun v => v ∉ vis)).erase u).map f).sum := by
        simp
    _ = (((nodes.filter (fun v => v ∉ vis)).erase u).map f).sum + f u := by
        omega

lemma heapPopP_some_ne {l : List (Nat × Nat × Option Nat)}
    {m : Nat × Nat × Option Nat} {rest : List (Nat × Nat × Option Nat)}
    (h : heapPopP l = some (m, rest)) : ∀ e ∈ l, e ≠ m → e ∈ rest := by
  cases l with
  | nil => simp [heapPopP] at h
  | cons e tl =>
    simp only [heapPopP, Option.some.injEq, Prod.mk.injEq] at h
    obtain ⟨hm, hrest⟩ := h
    intro x hx hne
    rw [← hrest, hm]
    exact (List.mem_erase_of_ne hne).mpr hx

/-- Steady-state invariant of the Prim loop, once the start node has
been visited: the visited set is duplicate-free, reachable from the
start, every frontier entry records a visited predecessor adjacent to
its node, and every edge out of the visited set is covered by the
frontier. -/
def PrimInv (g : Graph) (s : Nat) (heap : List (Nat × Nat × Option Nat))
    (vis : List Nat) : Prop :=
  s ∈ vis ∧ vis.Nodup ∧ (∀ v ∈ vis, v ∈ g.nodes) ∧
  (∀ v ∈ vis, g.Conn s v) ∧
  (∀ e ∈ heap, ∃ p, e.2.2 = some p ∧ p ∈ vis ∧ g.Adj p e.2.1) ∧
  (∀ u ∈ vis, ∀ v ∈ g.neighbors u, v ∈ vis ∨ ∃ e ∈ heap, e.2.1 = v)

lemma vis_full_of_length {g : Graph} {vis : List Nat} (hnd : vis.Nodup)
    (hsub : ∀ v ∈ vis, v ∈ g.nodes) (hlen : g.nodes.length ≤ vis.length) :
    ∀ v ∈ g.nodes, v ∈ vis := by
  have hsubF : vis.toFinset ⊆ g.nodes.toFinset := by
    intro z hz
    exact List.mem_toFinset.mpr (hsub z (List.mem_toFinset.mp hz))
  have hcard : g.nodes.toFinset.card ≤ vis.toFinset.card := by
    rw [List.toFinset_card_of_nodup hnd, List.toFinset_card_of_nodup g.nodesNodup]
    exact hlen
  have := Finset.eq_of_subset_of_card_le hsubF hcard
  intro v hv
  exact List.mem_toFinset.mp (this ▸ List.mem_toFinset.mpr hv)

lemma primInv_characterizes_full {g : Graph} {s : Nat} {vis : List Nat}
    (hsub : ∀ v ∈ vis, v ∈ g.nodes) (hconn : ∀ v ∈ vis, g.Conn s v)
    (hall : ∀ v ∈ g.nodes, v ∈ vis) :
    ∀ v, v ∈ vis ↔ (v ∈ g.nodes ∧ g.Conn s v) := by
  intro v
  constructor
  · intro hv
    exact ⟨hsub v hv, hconn v hv⟩
  · intro hv
    exact hall v hv.1

lemma primInv_characterizes_closed {g : Graph} {s : Nat} {vis : List Nat}
    (hs : s ∈ vis) (hsub : ∀ v ∈ vis, v ∈ g.nodes)
    (hconn : ∀ v ∈ vis, g.Conn s v)
    (hclosed : ∀ u ∈ vis, ∀ v ∈ g.neighbors u, v ∈ vis) :
    ∀ v, v ∈ vis ↔ (v ∈ g.nodes ∧ g.Conn s v) := by
  intro v
  constructor
  · intro hv
    exact ⟨hsub v hv, hconn v hv⟩
  · rintro ⟨-, hcv⟩
    induction hcv with
    | refl => exact hs
    | tail hab hadj ih =>
      rename_i a b
      exact hclosed a ih b (adj_neighbors hadj)

lemma sum_ge_one_eq_zero (f : Nat → Nat) (l : List Nat)
    (hf : ∀ x ∈ l, 1 ≤ f x) (h : (l.map f).sum = 0) : l = [] := by
  cases l with
  | nil => rfl
  | cons a rest =>
    have h1 := hf a (List.mem_cons_self a rest)
    simp only [List.map_cons, List.sum_cons] at h
    omega

/-- Main Prim loop analysis: with sufficient fuel and the steady-state
invariant, the loop ends having visited exactly the connected component
of the start node, having accepted one edge per visit after the
first. -/
lemma primLoop_spec (g : Graph) (s : Nat) :
    ∀ (fuel : Nat) (heap : List (Nat × Nat × Option Nat)) (vis : List Nat)
      (mst : List (Nat × Nat × Nat)) (total : Nat),
      loopFuel g heap.length vis ≤ fuel →
      PrimInv g s heap vis →
      mst.length + 1 = vis.length →
      ∃ visF : List Nat,
        (primLoop g fuel heap vis mst total).1.length + 1 = visF.length ∧
        visF.Nodup ∧ (∀ v, v ∈ visF ↔ (v ∈ g.nodes ∧ g.Conn s v)) := by
  intro fuel
  induction fuel with
  | zero =>
    intro heap vis mst total hfuel hinv hcount
    obtain ⟨hs, hnd, hsub, hconn, hprev, hclosed⟩ := hinv
    have hz : loopFuel g heap.length vis = 0 := Nat.le_zero.mp hfuel
    unfold loopFuel at hz
    have hfil : g.nodes.filter (fun v => v ∉ vis) = [] :=
      sum_ge_one_eq_zero (fun v => 1 + (g.neighbors v).length)
        (g.nodes.filter (fun v => v ∉ vis)) (fun x _ => Nat.le_add_right 1 _)
        (Nat.eq_zero_of_add_eq_zero_left hz)
    have hall : ∀ v ∈ g.nodes, v ∈ vis := by
      intro v hv
      by_contra hnv
      have : v ∈ g.nodes.filter (fun v => v ∉ vis) :=
        List.mem_filter.mpr ⟨hv, by simpa using hnv⟩
      rw [hfil] at this
      exact absurd this (List.not_mem_nil v)
    exact ⟨vis, hcount, hnd, primInv_characterizes_full hsub hconn hall⟩
  | succ n ih =>
    intro heap vis mst total hfuel hinv hcount
    obtain ⟨hs, hnd, hsub, hconn, hprev, hclosed⟩ := hinv
    simp only [primLoop]
    by_cases hlt : vis.length < g.nodes.length
    · rw [if_pos hlt]
      cases hpop : heapPopP heap with
      | none =>
        have hnil := (heapPopP_none_iff heap).mp hpop
        have hclosed' : ∀ u ∈ vis, ∀ v ∈ g.neighbors u, v ∈ vis := by
          intro u hu v hv
          rcases hclosed u hu v hv with h | ⟨e, he, _⟩
          · exact h
          · rw [hnil] at he
            exact absurd he (List.not_mem_nil e)
        exact ⟨vis, hcount, hnd,
          primInv_characterizes_closed hs hsub hconn hclosed'⟩
      | some pr =>
        obtain ⟨⟨w, u, prev⟩, heap'⟩ := pr
        obtain ⟨hmem, hlen, hsubheap⟩ := heapPopP_some hpop
        have hne_mem := heapPopP_some_ne hpop
        dsimp only
        by_cases hu : u ∈ vis
        · rw [if_pos hu]
          refine ih heap' vis mst total ?_ ?_ hcount
          · unfold loopFuel at hfuel ⊢
            omega
          · refine ⟨hs, hnd, hsub, hconn, ?_, ?_⟩
            · intro e he
              exact hprev e (hsubheap e he)
            · intro u' hu' v hv
              rcases hclosed u' hu' v hv with h | ⟨e, he, hev⟩
              · exact .inl h
              · by_cases heq : e = (w, u, prev)
                · left
                  rw [heq] at hev
                  exact hev ▸ hu
                · exact .inr ⟨e, hne_mem e he heq, hev⟩
        · rw [if_neg hu]
          obtain ⟨p, hpr, hpvis, hpadj⟩ := hprev (w, u, prev) hmem
          have hpr' : prev = some p := hpr
          rw [hpr']
          dsimp only
          have hu_node : u ∈ g.nodes := (adj_mem hpadj).2
          have hconn_u : g.Conn s u := (hconn p hpvis).tail hpadj
          refine ih (pushNeighbors g u (g.neighbors u) (u :: vis) heap')
            (u :: vis) (mst ++ [(p, u, w)]) (total + w) ?_ ?_ ?_
          · -- fuel: the measure strictly decreased
            have hpushlen := pushNeighbors_length g u (g.neighbors u)
              (u :: vis) heap'
            have hsplit := sum_unvisited_split g.nodesNodup hu_node hu
              (fun v => 1 + (g.neighbors v).length)
            unfold loopFuel at hfuel ⊢
            omega
          · refine ⟨List.mem_cons_of_mem u hs, List.nodup_cons.mpr ⟨hu, hnd⟩,
              ?_, ?_, ?_, ?_⟩
            · intro v hv
              rcases List.mem_cons.mp hv with h | h
              · exact h ▸ hu_node
              · exact hsub v h
            · intro v hv
              rcases List.mem_cons.mp hv with h | h
              · exact h ▸ hconn_u
              · exact hconn v h
            · intro e he
              rcases pushNeighbors_mem g u (g.neighbors u) (u :: vis) heap' e he
                with h | ⟨v, hvn, _, hev⟩
              · obtain ⟨p', hp1, hp2, hp3⟩ := hprev e (hsubheap e h)
                exact ⟨p', hp1, List.mem_cons_of_mem u hp2, hp3⟩
              · refine ⟨u, ?_, List.mem_cons_self u vis, ?_⟩
                · rw [hev]
                · rw [hev]
                  exact neighbors_adj hvn
            · intro u' hu' v hv
              rcases List.mem_cons.mp hu' with h | h
              · subst h
                by_cases hvv : v ∈ u' :: vis
                · exact .inl hvv
                · rcases pushNeighbors_covers g u' (g.neighbors u') (u' :: vis)
                    heap' v hv hvv with ⟨e, he1, he2⟩
                  exact .inr ⟨e, he1, he2⟩
              · rcases hclosed u' h v hv with hvv | ⟨e, he, hev⟩
                · exact .inl (List.mem_cons_of_mem u hvv)
                · by_cases heq : e = (w, u, prev)
                  · left
                    rw [heq] at hev
                    exact hev ▸ List.mem_cons_self u vis
                  · exact .inr ⟨e, pushNeighbors_mono g u (g.neighbors u)
                      (u :: vis) heap' e (hne_mem e he heq), hev⟩
          · simp only [List.length_append, List.length_singleton,
              List.length_cons, List.length_nil]
            omega
    · rw [if_neg hlt]
      have hall := vis_full_of_length hnd hsub (not_lt.mp hlt)
      exact ⟨vis, hcount, hnd, primInv_characterizes_full hsub hconn hall⟩

lemma length_eq_of_nodup_mem {l1 l2 : List Nat} (h1 : l1.Nodup)
    (h2 : l2.Nodup) (hm : ∀ v, v ∈ l1 ↔ v ∈ l2) : l1.length = l2.length :=
  le_antisymm (nodup_subset_length_le h1 (fun x hx => (hm x).mp hx))
    (nodup_subset_length_le h2 (fun x hx => (hm x).mpr hx))

/-- Prim from a start node accepts exactly one edge fewer than the
number of nodes in the start node's connected component. -/
lemma prim_count (g : Graph) (s : Nat) (hs : s ∈ g.nodes) :
    (algoritmo_prim g (some s)).1.length + 1 = componentSize g s := by
  have hne : g.nodes.length ≠ 0 := by
    intro h
    rw [List.length_eq_zero.mp h] at hs
    exact absurd hs (List.not_mem_nil s)
  unfold algoritmo_prim
  rw [if_neg hne]
  have hfil0 : g.nodes.filter (fun v => v ∉ ([] : List Nat)) = g.nodes := by
    apply List.filter_eq_self.mpr
    intro v _
    simp
  have hsplit0 := sum_unvisited_split g.nodesNodup hs
    (List.not_mem_nil s) (fun v => 1 + (g.neighbors v).length)
  obtain ⟨m, hm⟩ : ∃ m, loopFuel g 1 [] = m + 1 := by
    refine ⟨loopFuel g 1 [] - 1, ?_⟩
    unfold loopFuel
    omega
  rw [hm]
  show (primLoop g (m + 1) [(0, s, none)] [] [] 0).1.length + 1 =
    componentSize g s
  have hpop1 : heapPopP [(0, s, none)] = some ((0, s, none), []) := by
    simp [heapPopP, findMinTrip, List.erase_cons_head]
  simp only [primLoop, hpop1]
  rw [if_pos (by simpa using Nat.pos_of_ne_zero hne)]
  rw [if_neg (List.not_mem_nil s)]
  have hheap1 := pushNeighbors_length g s (g.neighbors s) [s] []
  obtain ⟨visF, hlenF, hndF, hmemF⟩ := primLoop_spec g s m
    (pushNeighbors g s (g.neighbors s) [s] []) [s] [] 0
    (by
      unfold loopFuel at hm ⊢
      rw [hfil0] at hm
      rw [hfil0] at hsplit0
      simp only [List.length_nil] at hheap1
      omega)
    (by
      refine ⟨List.mem_cons_self s [], by simp, ?_, ?_, ?_, ?_⟩
      · intro v hv
        rw [List.mem_singleton.mp hv]
        exact hs
      · intro v hv
        rw [List.mem_singleton.mp hv]
        exact Relation.ReflTransGen.refl
      · intro e he
        rcases pushNeighbors_mem g s (g.neighbors s) [s] [] e he with h | ⟨v, hvn, _, hev⟩
        · exact absurd h (List.not_mem_nil e)
        · refine ⟨s, ?_, List.mem_cons_self s [], ?_⟩
          · rw [hev]
          · rw [hev]
            exact neighbors_adj hvn
      · intro u' hu' v hv
        rw [List.mem_singleton.mp hu'] at hv
        by_cases hvv : v ∈ [s]
        · exact .inl hvv
        · rcases pushNeighbors_covers g s (g.neighbors s) [s] [] v hv hvv
            with ⟨e, he1, he2⟩
          exact .inr ⟨e, he1, he2⟩)
    rfl
  rw [hlenF]
  unfold componentSize
  apply length_eq_of_nodup_mem hndF (g.nodesNodup.filter _)
  intro v
  rw [hmemF v, List.mem_filter]
  constructor
  · rintro ⟨hv1, hv2⟩
    refine ⟨hv1, ?_⟩
    simp only [beq_iff_eq]
    exact (canonRep_eq_iff_conn g hv1 hs).mpr (conn_symm hv2)
  · rintro ⟨hv1, hv2⟩
    simp only [beq_iff_eq] at hv2
    exact ⟨hv1, conn_symm ((canonRep_eq_iff_conn g hv1 hs).mp hv2)⟩

lemma all_eq_of_dedup_length_one {L : List Nat} (h : L.dedup.length = 1) :
    ∀ a ∈ L, ∀ b ∈ L, a = b := by
  cases hd : L.dedup with
  | nil =>
    rw [hd] at h
    simp at h
  | cons x tl =>
    cases tl with
    | nil =>
      intro a ha b hb
      have ha' : a ∈ L.dedup := List.mem_dedup.mpr ha
      have hb' : b ∈ L.dedup := List.mem_dedup.mpr hb
      rw [hd] at ha' hb'
      rw [List.mem_singleton.mp ha', List.mem_singleton.mp hb']
    | cons y tl2 =>
      rw [hd] at h
      simp at h

/-- A disconnected graph: two components {0,1} and {2,3}. -/
def gDisc : Graph :=
  { nodes := [0, 1, 2, 3]
    edges := [(0, 1, 1), (2, 3, 1)]
    nodesNodup := by decide
    edgesMem := by decide
    edgesIrrefl := by decide
    edgesPairNodup := by decide }

/-- C3 (counterexample): on the 4-node graph with components {0,1} and
{2,3} (so V = 4, k = 2), Kruskal returns V - k = 2 edges as claimed,
but Prim started at node 0 returns only 1 edge — the spanning tree of
the start component alone — refuting the claim that BOTH engines return
exactly V - k edges. -/
theorem mst_edge_count_counterexample :
    componentsCount gDisc = 2 ∧
    gDisc.nodes.length - componentsCount gDisc = 2 ∧
    (algoritmo_kruskal gDisc).1.length = 2 ∧
    (algoritmo_prim gDisc (some 0)).1.length = 1 := by
  decide

/-- C3 (amended): Kruskal always returns exactly `V - k` edges (`k` the
number of connected components, counted by `componentsCount`, which is
proved here to identify nodes exactly up to connectivity); Prim from a
start node returns exactly (size of the start node's component) - 1
edges — which equals `V - k` only when the graph is connected; and on a
connected graph both engines return exactly `V - 1` edges. -/
theorem mst_edge_counts (g : Graph) (s : Nat) (hs : s ∈ g.nodes) :
    (algoritmo_kruskal g).1.length = g.nodes.length - componentsCount g ∧
    (algoritmo_prim g (some s)).1.length + 1 = componentSize g s ∧
    (componentsCount g = 1 →
      (algoritmo_kruskal g).1.length = g.nodes.length - 1 ∧
      (algoritmo_prim g (some s)).1.length = g.nodes.length - 1) ∧
    (∀ u ∈ g.nodes, ∀ v ∈ g.nodes,
      (canonRep g u = canonRep g v ↔ g.Conn u v)) := by
  refine ⟨kruskal_count g, prim_count g s hs, ?_, ?_⟩
  · intro h1
    have helems : (ufOfGraph g).elems = g.nodes := by
      unfold ufOfGraph
      exact (applyUnions_spec (g.edges.map (fun e => (e.1, e.2.1)))
        (UnionFind.make g.nodes) (make_inv g.nodes) (edgePairs_mem g)).1
    have hall : ∀ u ∈ g.nodes, ∀ v ∈ g.nodes, canonRep g u = canonRep g v := by
      intro u hu v hv
      exact all_eq_of_dedup_length_one h1 (canonRep g u)
        (List.mem_map.mpr ⟨u, helems.symm ▸ hu, rfl⟩) (canonRep g v)
        (List.mem_map.mpr ⟨v, helems.symm ▸ hv, rfl⟩)
    have hsize : componentSize g s = g.nodes.length := by
      unfold componentSize
      rw [List.filter_eq_self.mpr]
      intro v hv
      simpa using hall v hv s hs
    constructor
    · rw [kruskal_count g, h1]
    · have hp := prim_count g s hs
      rw [hsize] at hp
      omega
  · intro u hu v hv
    exact canonRep_eq_iff_conn g hu hv

/-- C3 (witness): the amended count theorem applied to the connected
3-node example graph from start node 0. -/
theorem mst_edge_counts_witness :
    (algoritmo_kruskal gABC).1.length = gABC.nodes.length - componentsCount gABC ∧
    (algoritmo_prim gABC (some 0)).1.length + 1 = componentSize gABC 0 ∧
    (componentsCount gABC = 1 →
      (algoritmo_kruskal gABC).1.length = gABC.nodes.length - 1 ∧
      (algoritmo_prim gABC (some 0)).1.length = gABC.nodes.length - 1) ∧
    (∀ u ∈ gABC.nodes, ∀ v ∈ gABC.nodes,
      (canonRep gABC u = canonRep gABC v ↔ gABC.Conn u v)) :=
  mst_edge_counts gABC 0 (by decide)

/-! ## Dijkstra distance correctness (`src/dijkstra.py`, spec §5, §8) -/

/-- A walk from `s` to `v` of total weight `w`, the edge weights read the
way the algorithms read them (`Graph.weight`). -/
inductive Walk (g : Graph) (s : Nat) : Nat → Nat → Prop
  | refl : Walk g s s 0
  | tail {v x w : Nat} (hw : Walk g s v w) (hadj : g.Adj v x) :
      Walk g s x (w + g.weight v x)

lemma walk_conn {g : Graph} {s v : Nat} {w : Nat} (h : Walk g s v w) :
    g.Conn s v := by
  induction h with
  | refl => exact Relation.ReflTransGen.refl
  | tail hw hadj ih => exact Relation.ReflTransGen.tail ih hadj

lemma pairLt_trans {a b c : Nat × Nat} (h1 : pairLt a b) (h2 : pairLt b c) :
    pairLt a c := by
  unfold pairLt at h1 h2 ⊢
  omega

lemma pairLt_shift {a b c : Nat × Nat} (h1 : ¬ pairLt a b)
    (h2 : pairLt a c) : pairLt b c := by
  unfold pairLt at h1 h2 ⊢
  omega

lemma findMinPair_mem (e : Nat × Nat) :
    ∀ l, findMinPair e l ∈ e :: l := by
  intro l
  induction l generalizing e with
  | nil => simp [findMinPair]
  | cons f rest ih =>
    simp only [findMinPair]
    by_cases h : pairLt f e
    · rw [if_pos h]
      exact List.mem_cons_of_mem e (ih f)
    · rw [if_neg h]
      rcases List.mem_cons.mp (ih e) with h1 | h1
      · rw [h1]
        exact List.mem_cons_self e (f :: rest)
      · exact List.mem_cons_of_mem e (List.mem_cons_of_mem f h1)

lemma findMinPair_min :
    ∀ (l : List (Nat × Nat)) (e : Nat × Nat),
      ∀ f ∈ e :: l, ¬ pairLt f (findMinPair e l) := by
  intro l
  induction l with
  | nil =>
    intro e f hf
    rw [List.mem_singleton] at hf
    subst hf
    unfold findMinPair pairLt
    omega
  | cons a rest ih =>
    intro e f hf
    simp only [findMinPair]
    by_cases h : pairLt a e
    · rw [if_pos h]
      intro hcon
      rcases List.mem_cons.mp hf with h1 | h1
      · rw [h1] at hcon
        exact ih a a (List.mem_cons_self a rest) (pairLt_trans h hcon)
      · rcases List.mem_cons.mp h1 with h2 | h2
        · rw [h2] at hcon
          exact ih a a (List.mem_cons_self a rest) hcon
        · exact ih a f (List.mem_cons_of_mem a h2) hcon
    · rw [if_neg h]
      intro hcon
      rcases List.mem_cons.mp hf with h1 | h1
      · rw [h1] at hcon
        exact ih e e (List.mem_cons_self e rest) hcon
      · rcases List.mem_cons.mp h1 with h2 | h2
        · rw [h2] at hcon
          exact ih e e (List.mem_cons_self e rest) (pairLt_shift h hcon)
        · exact ih e f (List.mem_cons_of_mem e h2) hcon

lemma heapPop_none_iff (l : List (Nat × Nat)) :
    heapPop l = none ↔ l = [] := by
  cases l <;> simp [heapPop]

lemma heapPop_spec {l : List (Nat × Nat)} {d u : Nat}
    {rest : List (Nat × Nat)} (h : heapPop l = some ((d, u), rest)) :
    (d, u) ∈ l ∧ rest.length + 1 = l.length ∧ (∀ e ∈ rest, e ∈ l) ∧
    (∀ e ∈ l, e ≠ (d, u) → e ∈ rest) ∧ (∀ e ∈ l, d ≤ e.1) := by
  cases l with
  | nil => simp [heapPop] at h
  | cons e tl =>
    simp only [heapPop, Option.some.injEq, Prod.mk.injEq] at h
    obtain ⟨hm, hrest⟩ := h
    have hmem : (d, u) ∈ e :: tl := hm ▸ findMinPair_mem e tl
    refine ⟨hmem, ?_, ?_, ?_, ?_⟩
    · rw [← hrest, hm, List.length_erase_of_mem hmem]
      have : 0 < (e :: tl).length := by simp
      omega
    · intro x hx
      rw [← hrest] at hx
      exact List.mem_of_mem_erase hx
    · intro x hx hne
      rw [← hrest, hm]
      exact (List.mem_erase_of_ne hne).mpr hx
    · intro x hx
      have hnot := findMinPair_min tl e x hx
      rw [hm] at hnot
      unfold pairLt at hnot
      dsimp only at hnot
      omega

lemma relaxNeighbors_vis_unchanged (g : Graph) (d u : Nat) :
    ∀ (ns vis : List Nat) (heap : List (Nat × Nat)) (dist : Nat → DistV)
      (pred : Nat → Option Nat), ∀ x ∈ vis,
      (relaxNeighbors g d u ns vis heap dist pred).2.1 x = dist x ∧
      (relaxNeighbors g d u ns vis heap dist pred).2.2 x = pred x := by
  intro ns
  induction ns with
  | nil => intro vis heap dist pred x hx; exact ⟨rfl, rfl⟩
  | cons v rest ih =>
    intro vis heap dist pred x hx
    simp only [relaxNeighbors]
    split_ifs with hv hlt
    · exact ih vis heap dist pred x hx
    · have hxv : x ≠ v := fun h => hv (h ▸ hx)
      have h12 := ih vis ((d + g.weight u v, v) :: heap)
        (fun y => if y = v then ((d + g.weight u v : Nat) : DistV) else dist y)
        (fun y => if y = v then some u else pred y) x hx
      simp only [if_neg hxv] at h12
      exact h12
    · exact ih vis heap dist pred x hx

lemma relaxNeighbors_dist_le (g : Graph) (d u : Nat) :
    ∀ (ns vis : List Nat) (heap : List (Nat × Nat)) (dist : Nat → DistV)
      (pred : Nat → Option Nat) (x : Nat),
      (relaxNeighbors g d u ns vis heap dist pred).2.1 x ≤ dist x := by
  intro ns
  induction ns with
  | nil => intro vis heap dist pred x; exact le_refl _
  | cons v rest ih =>
    intro vis heap dist pred x
    simp only [relaxNeighbors]
    split_ifs with hv hlt
    · exact ih vis heap dist pred x
    · refine le_trans (ih vis ((d + g.weight u v, v) :: heap)
        (fun y => if y = v then ((d + g.weight u v : Nat) : DistV) else dist y)
        (fun y => if y = v then some u else pred y) x) ?_
      by_cases hxv : x = v
      · subst hxv
        simpa using le_of_lt hlt
      · simp [hxv]
    · exact ih vis heap dist pred x

lemma relaxNeighbors_sound (g : Graph) (d u : Nat) :
    ∀ (ns vis : List Nat) (heap : List (Nat × Nat)) (dist : Nat → DistV)
      (pred : Nat → Option Nat),
      (∀ e ∈ heap, dist e.2 ≤ (e.1 : DistV)) →
      ∀ e ∈ (relaxNeighbors g d u ns vis heap dist pred).1,
        (relaxNeighbors g d u ns vis heap dist pred).2.1 e.2 ≤
          (e.1 : DistV) := by
  intro ns
  induction ns with
  | nil => intro vis heap dist pred hh e he; exact hh e he
  | cons v rest ih =>
    intro vis heap dist pred hh
    simp only [relaxNeighbors]
    split_ifs with hv hlt
    · exact ih vis heap dist pred hh
    · refine ih vis _ _ _ ?_
      intro e he
      rcases List.mem_cons.mp he with rfl | he2
      · simp
      · by_cases hev : e.2 = v
        · have hle := hh e he2
          rw [hev] at hle ⊢
          simpa using le_of_lt (lt_of_lt_of_le hlt hle)
        · simpa [hev] using hh e he2
    · exact ih vis heap dist pred hh

lemma relaxNeighbors_front (g : Graph) (d u : Nat) :
    ∀ (ns vis : List Nat) (heap : List (Nat × Nat)) (dist : Nat → DistV)
      (pred : Nat → Option Nat),
      (∀ v, v ∉ vis → dist v ≠ ⊤ →
        ∃ dd : Nat, (dd, v) ∈ heap ∧ (dd : DistV) = dist v) →
      ∀ v, v ∉ vis → (relaxNeighbors g d u ns vis heap dist pred).2.1 v ≠ ⊤ →
        ∃ dd : Nat, (dd, v) ∈ (relaxNeighbors g d u ns vis heap dist pred).1 ∧
          (dd : DistV) = (relaxNeighbors g d u ns vis heap dist pred).2.1 v := by
  intro ns
  induction ns with
  | nil => intro vis heap dist pred hf v hv; exact hf v hv
  | cons w0 rest ih =>
    intro vis heap dist pred hf
    simp only [relaxNeighbors]
    split_ifs with hv hlt
    · exact ih vis heap dist pred hf
    · refine ih vis _ _ _ ?_
      intro x hx hxt
      by_cases hxw : x = w0
      · subst hxw
        refine ⟨d + g.weight u x, List.mem_cons_self _ _, ?_⟩
        simp
      · have hxt2 : dist x ≠ ⊤ := by simpa [hxw] using hxt
        rcases hf x hx hxt2 with ⟨dd, hm, hdd⟩
        refine ⟨dd, List.mem_cons_of_mem _ hm, ?_⟩
        simpa [hxw] using hdd
    · exact ih vis heap dist pred hf

lemma relaxNeighbors_ach (g : Graph) (s d u : Nat) :
    ∀ (ns vis : List Nat) (heap : List (Nat × Nat)) (dist : Nat → DistV)
      (pred : Nat → Option Nat),
      (∀ v ∈ ns, g.Adj u v) →
      Walk g s u d →
      (∀ v, dist v ≠ ⊤ → ∃ w : Nat, Walk g s v w ∧ dist v = (w : DistV)) →
      ∀ v, (relaxNeighbors g d u ns vis heap dist pred).2.1 v ≠ ⊤ →
        ∃ w : Nat, Walk g s v w ∧
          (relaxNeighbors g d u ns vis heap dist pred).2.1 v = (w : DistV) := by
  intro ns
  induction ns with
  | nil => intro vis heap dist pred _ _ hach v hv; exact hach v hv
  | cons w0 rest ih =>
    intro vis heap dist pred hadj hwu hach
    have hadj2 : ∀ v ∈ rest, g.Adj u v :=
      fun v hv => hadj v (List.mem_cons_of_mem _ hv)
    simp only [relaxNeighbors]
    split_ifs with hv hlt
    · exact ih vis heap dist pred hadj2 hwu hach
    · refine ih vis _ _ _ hadj2 hwu ?_
      intro x hxt
      by_cases hxw : x = w0
      · subst hxw
        refine ⟨d + g.weight u x,
          Walk.tail hwu (hadj x (List.mem_cons_self _ _)), ?_⟩
        simp
      · have hxt2 : dist x ≠ ⊤ := by simpa [hxw] using hxt
        rcases hach x hxt2 with ⟨w, hw, heq⟩
        exact ⟨w, hw, by simpa [hxw] using heq⟩
    · exact ih vis heap dist pred hadj2 hwu hach

lemma relaxNeighbors_predf (g : Graph) (d u : Nat) :
    ∀ (ns vis : List Nat) (heap : List (Nat × Nat)) (dist : Nat → DistV)
      (pred : Nat → Option Nat),
      (∀ v, pred v ≠ none → dist v ≠ ⊤) →
      ∀ v, (relaxNeighbors g d u ns vis heap dist pred).2.2 v ≠ none →
        (relaxNeighbors g d u ns vis heap dist pred).2.1 v ≠ ⊤ := by
  intro ns
  induction ns with
  | nil => intro vis heap dist pred hp v hv; exact hp v hv
  | cons w0 rest ih =>
    intro vis heap dist pred hp
    simp only [relaxNeighbors]
    split_ifs with hv hlt
    · exact ih vis heap dist pred hp
    · refine ih vis _ _ _ ?_
      intro x hx
      by_cases hxw : x = w0
      · subst hxw
        simp
      · have hpx : pred x ≠ none := by simpa [hxw] using hx
        simpa [hxw] using hp x hpx
    · exact ih vis heap dist pred hp

lemma relaxNeighbors_mono_keys (g : Graph) (d u : Nat) :
    ∀ (ns vis : List Nat) (heap : List (Nat × Nat)) (dist : Nat → DistV)
      (pred : Nat → Option Nat),
      (∀ v ∈ vis, ∀ e ∈ heap, dist v ≤ (e.1 : DistV)) →
      (∀ v ∈ vis, dist v ≤ (d : DistV)) →
      ∀ v ∈ vis, ∀ e ∈ (relaxNeighbors g d u ns vis heap dist pred).1,
        (relaxNeighbors g d u ns vis heap dist pred).2.1 v ≤
          (e.1 : DistV) := by
  intro ns
  induction ns with
  | nil => intro vis heap dist pred hm hd v hv e he; exact hm v hv e he
  | cons w0 rest ih =>
    intro vis heap dist pred hm hd
    simp only [relaxNeighbors]
    split_ifs with hv0 hlt
    · exact ih vis heap dist pred hm hd
    · refine ih vis _ _ _ ?_ ?_
      · intro v hv e he
        have hvw : v ≠ w0 := fun h => hv0 (h ▸ hv)
        rcases List.mem_cons.mp he with rfl | he2
        · have h1 := hd v hv
          have h2 : ((d : Nat) : DistV) ≤ ((d + g.weight u w0 : Nat) : DistV) := by
            exact_mod_cast Nat.le_add_right d _
          simpa [hvw] using le_trans h1 h2
        · simpa [hvw] using hm v hv e he2
      · intro v hv
        have hvw : v ≠ w0 := fun h => hv0 (h ▸ hv)
        simpa [hvw] using hd v hv
    · exact ih vis heap dist pred hm hd

lemma relaxNeighbors_cover (g : Graph) (d u : Nat) :
    ∀ (ns vis : List Nat) (heap : List (Nat × Nat)) (dist : Nat → DistV)
      (pred : Nat → Option Nat) (x : Nat), x ∈ ns → x ∉ vis →
      (relaxNeighbors g d u ns vis heap dist pred).2.1 x ≤
        ((d + g.weight u x : Nat) : DistV) := by
  intro ns
  induction ns with
  | nil => intro vis heap dist pred x hx; exact absurd hx (List.not_mem_nil x)
  | cons w0 rest ih =>
    intro vis heap dist pred x hx hxv
    simp only [relaxNeighbors]
    split_ifs with hv0 hlt
    · rcases List.mem_cons.mp hx with rfl | hx2
      · exact absurd hv0 hxv
      · exact ih vis heap dist pred x hx2 hxv
    · rcases List.mem_cons.mp hx with rfl | hx2
      · refine le_trans (relaxNeighbors_dist_le g d u rest vis
          ((d + g.weight u x, x) :: heap)
          (fun y => if y = x then ((d + g.weight u x : Nat) : DistV) else dist y)
          (fun y => if y = x then some u else pred y) x) ?_
        simp
      · exact ih vis _ _ _ x hx2 hxv
    · rcases List.mem_cons.mp hx with rfl | hx2
      · exact le_trans
          (relaxNeighbors_dist_le g d u rest vis heap dist pred x)
          (not_lt.mp hlt)
      · exact ih vis heap dist pred x hx2 hxv

lemma relaxNeighbors_length (g : Graph) (d u : Nat) :
    ∀ (ns vis : List Nat) (heap : List (Nat × Nat)) (dist : Nat → DistV)
      (pred : Nat → Option Nat),
      (relaxNeighbors g d u ns vis heap dist pred).1.length ≤
        heap.length + ns.length := by
  intro ns
  induction ns with
  | nil => intro vis heap dist pred; simp [relaxNeighbors]
  | cons w0 rest ih =>
    intro vis heap dist pred
    simp only [relaxNeighbors]
    split_ifs with hv0 hlt
    · refine le_trans (ih vis heap dist pred) ?_
      simp only [List.length_cons]
      omega
    · refine le_trans (ih vis _ _ _) ?_
      simp only [List.length_cons]
      omega
    · refine le_trans (ih vis heap dist pred) ?_
      simp only [List.length_cons]
      omega

lemma filter_not_mem_cons_of_not_node (nodes vis : List Nat) (u : Nat)
    (hu : u ∉ nodes) :
    nodes.filter (fun v => v ∉ u :: vis) = nodes.filter (fun v => v ∉ vis) := by
  apply List.filter_congr
  intro v hv
  have hvu : v ≠ u := fun h => hu (h ▸ hv)
  simp [List.mem_cons, hvu]

/-- Steady-state invariant of the Dijkstra loop: every finite tentative
distance is achieved by some walk from the source; every unvisited node
with a finite tentative distance has a current heap entry; heap entries
upper-bound the tentative distance of their node; edges out of visited
nodes are relaxed; visited tentative distances are below every heap key;
predecessors are only recorded together with a finite distance. -/
def DijkInv (g : Graph) (s : Nat) (heap : List (Nat × Nat)) (vis : List Nat)
    (dist : Nat → DistV) (pred : Nat → Option Nat) : Prop :=
  (∀ v, dist v ≠ ⊤ → ∃ w : Nat, Walk g s v w ∧ dist v = (w : DistV)) ∧
  (∀ v, v ∉ vis → dist v ≠ ⊤ →
    ∃ dd : Nat, (dd, v) ∈ heap ∧ (dd : DistV) = dist v) ∧
  (∀ e ∈ heap, dist e.2 ≤ (e.1 : DistV)) ∧
  (∀ x ∈ vis, ∀ v ∈ g.neighbors x,
    dist v ≤ dist x + (g.weight x v : DistV)) ∧
  (∀ v ∈ vis, ∀ e ∈ heap, dist v ≤ (e.1 : DistV)) ∧
  (∀ v, pred v ≠ none → dist v ≠ ⊤)

/-- Main Dijkstra loop analysis: with sufficient fuel and the invariant,
the loop ends with every finite distance achieved by a walk, every
recorded predecessor backed by a finite distance, and a final visited
set on which all incident edges are relaxed and which contains every
node of finite distance. -/
lemma dijkstraLoop_spec (g : Graph) (s : Nat) :
    ∀ (fuel : Nat) (heap : List (Nat × Nat)) (vis : List Nat)
      (dist : Nat → DistV) (pred : Nat → Option Nat),
      loopFuel g heap.length vis ≤ fuel →
      DijkInv g s heap vis dist pred →
      (∀ v, (dijkstraLoop g fuel heap vis dist pred).1 v ≠ ⊤ →
        ∃ w : Nat, Walk g s v w ∧
          (dijkstraLoop g fuel heap vis dist pred).1 v = (w : DistV)) ∧
      (∀ v, (dijkstraLoop g fuel heap vis dist pred).2 v ≠ none →
        (dijkstraLoop g fuel heap vis dist pred).1 v ≠ ⊤) ∧
      ∃ visF : List Nat,
        (∀ v, (dijkstraLoop g fuel heap vis dist pred).1 v ≠ ⊤ → v ∈ visF) ∧
        (∀ x ∈ visF, ∀ v ∈ g.neighbors x,
          (dijkstraLoop g fuel heap vis dist pred).1 v ≤
            (dijkstraLoop g fuel heap vis dist pred).1 x +
              (g.weight x v : DistV)) := by
  intro fuel
  induction fuel with
  | zero =>
    intro heap vis dist pred hfuel hinv
    obtain ⟨hach, hfront, hsound, hrel, hmono, hpredf⟩ := hinv
    have hz : loopFuel g heap.length vis = 0 := Nat.le_zero.mp hfuel
    have hheap : heap = [] := by
      unfold loopFuel at hz
      exact List.eq_nil_of_length_eq_zero (by omega)
    simp only [dijkstraLoop]
    refine ⟨hach, hpredf, vis, ?_, hrel⟩
    intro v hv
    by_contra hvv
    rcases hfront v hvv hv with ⟨dd, hmem, _⟩
    rw [hheap] at hmem
    exact absurd hmem (List.not_mem_nil _)
  | succ n ih =>
    intro heap vis dist pred hfuel hinv
    obtain ⟨hach, hfront, hsound, hrel, hmono, hpredf⟩ := hinv
    simp only [dijkstraLoop]
    cases hpop : heapPop heap with
    | none =>
      have hheap := (heapPop_none_iff heap).mp hpop
      refine ⟨hach, hpredf, vis, ?_, hrel⟩
      intro v hv
      by_contra hvv
      rcases hfront v hvv hv with ⟨dd, hmem, _⟩
      rw [hheap] at hmem
      exact absurd hmem (List.not_mem_nil _)
    | some pr =>
      obtain ⟨⟨d, u⟩, heap1⟩ := pr
      obtain ⟨hmem, hlen, hsub, hkeep, hmin⟩ := heapPop_spec hpop
      dsimp only
      by_cases hu : u ∈ vis
      · rw [if_pos hu]
        refine ih heap1 vis dist pred ?_ ?_
        · unfold loopFuel at hfuel ⊢
          omega
        · refine ⟨hach, ?_, ?_, hrel, ?_, hpredf⟩
          · intro v hv hvt
            rcases hfront v hv hvt with ⟨dd, hm, hdd⟩
            refine ⟨dd, hkeep (dd, v) hm ?_, hdd⟩
            intro hcon
            have hvu : v = u := congrArg Prod.snd hcon
            exact hv (hvu ▸ hu)
          · intro e he
            exact hsound e (hsub e he)
          · intro v hv e he
            exact hmono v hv e (hsub e he)
      · rw [if_neg hu]
        have h1 : dist u ≤ (d : DistV) := hsound (d, u) hmem
        have hduT : dist u ≠ ⊤ := by
          intro hcon
          rw [hcon] at h1
          exact absurd (top_le_iff.mp h1) (WithTop.coe_ne_top)
        rcases hfront u hu hduT with ⟨d0, hd0mem, hd0⟩
        have hdd0 : d ≤ d0 := hmin (d0, u) hd0mem
        have hdu : dist u = (d : DistV) := by
          apply le_antisymm h1
          rw [← hd0]
          exact_mod_cast hdd0
        rcases hach u hduT with ⟨wu, hwu, hwueq⟩
        have hwud : wu = d := by
          rw [hdu] at hwueq
          exact_mod_cast hwueq.symm
        rw [hwud] at hwu
        have hadjns : ∀ v ∈ g.neighbors u, g.Adj u v :=
          fun v hv => neighbors_adj hv
        have hvisu := relaxNeighbors_vis_unchanged g d u (g.neighbors u)
          (u :: vis) heap1 dist pred
        have hdle := relaxNeighbors_dist_le g d u (g.neighbors u)
          (u :: vis) heap1 dist pred
        have ach2 := relaxNeighbors_ach g s d u (g.neighbors u) (u :: vis)
          heap1 dist pred hadjns hwu hach
        have hfront1 : ∀ v, v ∉ u :: vis → dist v ≠ ⊤ →
            ∃ dd : Nat, (dd, v) ∈ heap1 ∧ (dd : DistV) = dist v := by
          intro v hv hvt
          have hvvis : v ∉ vis := fun h => hv (List.mem_cons_of_mem u h)
          have hvu : v ≠ u := fun h => hv (h ▸ List.mem_cons_self u vis)
          rcases hfront v hvvis hvt with ⟨dd, hm, hdd⟩
          refine ⟨dd, hkeep (dd, v) hm ?_, hdd⟩
          intro hcon
          exact hvu (congrArg Prod.snd hcon)
        have front2 := relaxNeighbors_front g d u (g.neighbors u) (u :: vis)
          heap1 dist pred hfront1
        have hsound1 : ∀ e ∈ heap1, dist e.2 ≤ (e.1 : DistV) :=
          fun e he => hsound e (hsub e he)
        have sound2 := relaxNeighbors_sound g d u (g.neighbors u) (u :: vis)
          heap1 dist pred hsound1
        have hmono1 : ∀ v ∈ u :: vis, ∀ e ∈ heap1, dist v ≤ (e.1 : DistV) := by
          intro v hv e he
          rcases List.mem_cons.mp hv with heq | hv2
          · rw [heq, hdu]
            exact_mod_cast hmin e (hsub e he)
          · exact hmono v hv2 e (hsub e he)
        have hmonod : ∀ v ∈ u :: vis, dist v ≤ (d : DistV) := by
          intro v hv
          rcases List.mem_cons.mp hv with heq | hv2
          · rw [heq, hdu]
          · exact hmono v hv2 (d, u) hmem
        have mono2 := relaxNeighbors_mono_keys g d u (g.neighbors u)
          (u :: vis) heap1 dist pred hmono1 hmonod
        have predf2 := relaxNeighbors_predf g d u (g.neighbors u) (u :: vis)
          heap1 dist pred hpredf
        have rel2 : ∀ x ∈ u :: vis, ∀ v ∈ g.neighbors x,
            (relaxNeighbors g d u (g.neighbors u) (u :: vis) heap1
              dist pred).2.1 v ≤
            (relaxNeighbors g d u (g.neighbors u) (u :: vis) heap1
              dist pred).2.1 x + (g.weight x v : DistV) := by
          intro x hx v hv
          rcases List.mem_cons.mp hx with heq | hx2
          · subst heq
            rw [(hvisu x (List.mem_cons_self x vis)).1, hdu]
            by_cases hvv : v ∈ x :: vis
            · rw [(hvisu v hvv).1]
              rcases List.mem_cons.mp hvv with heq2 | hv2
              · rw [heq2, hdu]
                exact le_self_add
              · exact le_trans (hmono v hv2 (d, x) hmem) le_self_add
            · refine le_trans (relaxNeighbors_cover g d x (g.neighbors x)
                (x :: vis) heap1 dist pred v hv hvv) ?_
              exact le_of_eq (Nat.cast_add d _)
          · rw [(hvisu x (List.mem_cons_of_mem u hx2)).1]
            exact le_trans (hdle v) (hrel x hx2 v hv)
        have hfuel2 : loopFuel g (relaxNeighbors g d u (g.neighbors u)
            (u :: vis) heap1 dist pred).1.length (u :: vis) ≤ n := by
          have hlenR := relaxNeighbors_length g d u (g.neighbors u)
            (u :: vis) heap1 dist pred
          by_cases hun : u ∈ g.nodes
          · have hsplit := sum_unvisited_split g.nodesNodup hun hu
              (fun v => 1 + (g.neighbors v).length)
            unfold loopFuel at hfuel ⊢
            omega
          · have hnb : g.neighbors u = [] := neighbors_of_not_mem hun
            have hfeq := filter_not_mem_cons_of_not_node g.nodes vis u hun
            unfold loopFuel at hfuel ⊢
            rw [hfeq, hnb]
            rw [hnb] at hlenR
            simp only [List.length_nil] at hlenR
            omega
        exact ih (relaxNeighbors g d u (g.neighbors u) (u :: vis) heap1
            dist pred).1 (u :: vis)
          (relaxNeighbors g d u (g.neighbors u) (u :: vis) heap1 dist pred).2.1
          (relaxNeighbors g d u (g.neighbors u) (u :: vis) heap1 dist pred).2.2
          hfuel2 ⟨ach2, front2, sound2, rel2, mono2, predf2⟩

lemma conn_walk {g : Graph} {s v : Nat} (h : g.Conn s v) :
    ∃ w : Nat, Walk g s v w := by
  induction h with
  | refl => exact ⟨0, Walk.refl⟩
  | tail hab hadj ihw =>
    rcases ihw with ⟨w, hw⟩
    exact ⟨_, Walk.tail hw hadj⟩

/-- C4. For every graph and every source node present in it,
`algoritmo_dijkstra` succeeds and returns maps `(dist, pred)` with:
the source at distance 0; every finite distance both achieved by an
actual walk from the source and a lower bound of every walk from the
source to that node (so every reachable node gets a finite distance,
namely the true minimum total walk weight); and every unreachable node
at distance infinity, with no recorded predecessor and no
reconstructable path. -/
theorem dijkstra_distance_correctness (g : Graph) (s : Nat)
    (hs : s ∈ g.nodes) :
    ∃ r, algoritmo_dijkstra g s = .ok r ∧
      r.1 s = 0 ∧
      (∀ (v w : Nat), Walk g s v w → r.1 v ≤ (w : DistV)) ∧
      (∀ v : Nat, r.1 v ≠ ⊤ → ∃ w : Nat, Walk g s v w ∧ r.1 v = (w : DistV)) ∧
      (∀ v : Nat, g.Conn s v → r.1 v ≠ ⊤) ∧
      (∀ v : Nat, ¬ g.Conn s v → r.1 v = ⊤ ∧ r.2 v = none ∧
        ∀ fuel : Nat, reconstruir_camino v r.2 fuel = none) := by
  have hsrc := dijkstraRun_source_none g s
  have hinv0 : DijkInv g s [(0, s)] []
      (fun v => if v = s then (0 : DistV) else ⊤) (fun _ => none) := by
    refine ⟨?_, ?_, ?_, ?_, ?_, ?_⟩
    · intro v hv
      by_cases hvs : v = s
      · subst hvs
        exact ⟨0, Walk.refl, by simp⟩
      · simp [hvs] at hv
    · intro v hv hvt
      by_cases hvs : v = s
      · subst hvs
        exact ⟨0, List.mem_cons_self _ _, by simp⟩
      · simp [hvs] at hvt
    · intro e he
      rcases List.mem_cons.mp he with rfl | he2
      · simp
      · exact absurd he2 (List.not_mem_nil e)
    · intro x hx
      exact absurd hx (List.not_mem_nil x)
    · intro v hv
      exact absurd hv (List.not_mem_nil v)
    · intro v hv
      exact absurd rfl hv
  have hloop := dijkstraLoop_spec g s (loopFuel g 1 []) [(0, s)] []
    (fun v => if v = s then (0 : DistV) else ⊤) (fun _ => none)
    (by rw [List.length_singleton]) hinv0
  obtain ⟨hach, hpredf, visF, hfin, hrel⟩ := hloop
  have hLB : ∀ (v w : Nat), Walk g s v w →
      (dijkstraRun g s).1 v ≤ (w : DistV) := by
    intro v w hw
    induction hw with
    | refl =>
      rw [hsrc.1]
      simp
    | tail hwv hadj ihw =>
      rename_i v2 x wv
      have hfinv : (dijkstraRun g s).1 v2 ≠ ⊤ := by
        intro hcon
        rw [hcon] at ihw
        exact absurd (top_le_iff.mp ihw) (WithTop.coe_ne_top)
      have hv2 : v2 ∈ visF := hfin v2 hfinv
      refine le_trans (hrel v2 hv2 x (adj_neighbors hadj)) ?_
      rw [Nat.cast_add]
      exact add_le_add_right ihw _
  refine ⟨dijkstraRun g s, by simp [algoritmo_dijkstra, hs], hsrc.1, hLB,
    hach, ?_, ?_⟩
  · intro v hconn
    rcases conn_walk hconn with ⟨w, hw⟩
    intro hcon
    have := hLB v w hw
    rw [hcon] at this
    exact absurd (top_le_iff.mp this) (WithTop.coe_ne_top)
  · intro v hconn
    have hvt : (dijkstraRun g s).1 v = ⊤ := by
      by_contra hvt
      rcases hach v hvt with ⟨w, hw, _⟩
      exact hconn (walk_conn hw)
    have hvp : (dijkstraRun g s).2 v = none := by
      by_contra hvp
      exact (hpredf v hvp) hvt
    exact ⟨hvt, hvp, fun fuel => by simp [reconstruir_camino, hvp]⟩

/-- C4 (witness): the correctness theorem applied to the 3-node example
graph from source 0. -/
theorem dijkstra_distance_correctness_witness :
    0 ∈ gABC.nodes ∧
    (∃ r, algoritmo_dijkstra gABC 0 = .ok r ∧
      r.1 0 = 0 ∧
      (∀ (v w : Nat), Walk gABC 0 v w → r.1 v ≤ (w : DistV)) ∧
      (∀ v : Nat, r.1 v ≠ ⊤ →
        ∃ w : Nat, Walk gABC 0 v w ∧ r.1 v = (w : DistV)) ∧
      (∀ v : Nat, gABC.Conn 0 v → r.1 v ≠ ⊤) ∧
      (∀ v : Nat, ¬ gABC.Conn 0 v → r.1 v = ⊤ ∧ r.2 v = none ∧
        ∀ fuel : Nat, reconstruir_camino v r.2 fuel = none)) :=
  ⟨by decide, dijkstra_distance_correctness gABC 0 (by decide)⟩

/-! ## Minimum spanning trees: shared infrastructure (spec §4, §8) -/

/-- Adjacency through a given edge list (either orientation). -/
def AdjL (F : List (Nat × Nat × Nat)) (u v : Nat) : Prop :=
  ∃ w, (u, v, w) ∈ F ∨ (v, u, w) ∈ F

/-- Connectivity through a given edge list. -/
def ConnL (F : List (Nat × Nat × Nat)) (u v : Nat) : Prop :=
  Relation.ReflTransGen (AdjL F) u v

/-- Total weight of an edge list. -/
def wsum (F : List (Nat × Nat × Nat)) : Nat := (F.map (fun e => e.2.2)).sum

/-- The same edge triple with its endpoints swapped. -/
def swapE (e : Nat × Nat × Nat) : Nat × Nat × Nat := (e.2.1, e.1, e.2.2)

/-- An edge crossing the cut `C`: exactly one endpoint inside. -/
def crossE (C : Nat → Prop) (t : Nat × Nat × Nat) : Prop :=
  (C t.1 ∧ ¬ C t.2.1) ∨ (C t.2.1 ∧ ¬ C t.1)

/-- A spanning tree candidate: duplicate-free, drawn from the graph's
edge list, connecting all nodes, with one edge fewer than there are
nodes. -/
def SpanTree (g : Graph) (T : List (Nat × Nat × Nat)) : Prop :=
  T.Nodup ∧ (∀ e ∈ T, e ∈ g.edges) ∧
  (∀ u ∈ g.nodes, ∀ v ∈ g.nodes, ConnL T u v) ∧
  T.length + 1 = g.nodes.length

/-- A minimum spanning tree: a spanning tree candidate of least total
weight. -/
def IsMST (g : Graph) (T : List (Nat × Nat × Nat)) : Prop :=
  SpanTree g T ∧ ∀ T2, SpanTree g T2 → wsum T ≤ wsum T2

lemma adjL_symm {F : List (Nat × Nat × Nat)} {u v : Nat}
    (h : AdjL F u v) : AdjL F v u := by
  rcases h with ⟨w, h | h⟩
  · exact ⟨w, .inr h⟩
  · exact ⟨w, .inl h⟩

lemma connL_symm {F : List (Nat × Nat × Nat)} {u v : Nat}
    (h : ConnL F u v) : ConnL F v u := by
  induction h with
  | refl => exact Relation.ReflTransGen.refl
  | tail _ hadj ih => exact Relation.ReflTransGen.head (adjL_symm hadj) ih

lemma adjL_mono {F G : List (Nat × Nat × Nat)} (hsub : ∀ t ∈ F, t ∈ G)
    {u v : Nat} (h : AdjL F u v) : AdjL G u v := by
  rcases h with ⟨w, h | h⟩
  · exact ⟨w, .inl (hsub _ h)⟩
  · exact ⟨w, .inr (hsub _ h)⟩

lemma connL_mono {F G : List (Nat × Nat × Nat)} (hsub : ∀ t ∈ F, t ∈ G)
    {u v : Nat} (h : ConnL F u v) : ConnL G u v := by
  induction h with
  | refl => exact Relation.ReflTransGen.refl
  | tail _ hadj ih => exact ih.tail (adjL_mono hsub hadj)

lemma wsum_append (F G : List (Nat × Nat × Nat)) :
    wsum (F ++ G) = wsum F + wsum G := by
  unfold wsum
  rw [List.map_append, List.sum_append]

lemma wsum_erase {F : List (Nat × Nat × Nat)} {f : Nat × Nat × Nat}
    (h : f ∈ F) : wsum (F.erase f) + f.2.2 = wsum F := by
  induction F with
  | nil => exact absurd h (List.not_mem_nil f)
  | cons a tl ih =>
    rw [List.erase_cons]
    by_cases haf : a = f
    · subst haf
      simp [wsum, Nat.add_comm]
    · rw [if_neg (by simpa using haf)]
      rcases List.mem_cons.mp h with h1 | h1
      · exact absurd h1.symm haf
      · have := ih h1
        unfold wsum at this ⊢
        simp only [List.map_cons, List.sum_cons]
        omega

lemma sameEdgePair_symm {e f : Nat × Nat × Nat} (h : sameEdgePair e f) :
    sameEdgePair f e := by
  unfold sameEdgePair at h ⊢
  omega

lemma sameEdgePair_refl (e : Nat × Nat × Nat) : sameEdgePair e e := by
  unfold sameEdgePair
  omega

lemma sameEdgePair_swapE (e : Nat × Nat × Nat) : sameEdgePair (swapE e) e := by
  unfold sameEdgePair swapE
  dsimp only
  right
  exact ⟨rfl, rfl⟩

lemma sameEdgePair_shift {t e f : Nat × Nat × Nat} (h1 : sameEdgePair t e)
    (h2 : sameEdgePair t f) : sameEdgePair e f := by
  unfold sameEdgePair at h1 h2 ⊢
  omega

/-- Within a list of pairwise distinct unordered pairs, an unordered
pair determines the triple. -/
lemma pairwise_same_eq {L : List (Nat × Nat × Nat)}
    (hpw : L.Pairwise (fun e f => ¬ sameEdgePair e f)) :
    ∀ a ∈ L, ∀ b ∈ L, sameEdgePair a b → a = b := by
  induction L with
  | nil => intro a ha; exact absurd ha (List.not_mem_nil a)
  | cons e tl ih =>
    intro a ha b hb hs
    rcases List.pairwise_cons.mp hpw with ⟨hhead, htl⟩
    rcases List.mem_cons.mp ha with rfl | ha2
    · rcases List.mem_cons.mp hb with rfl | hb2
      · rfl
      · exact absurd hs (hhead b hb2)
    · rcases List.mem_cons.mp hb with rfl | hb2
      · exact absurd (sameEdgePair_symm hs) (hhead a ha2)
      · exact ih htl a ha2 b hb2 hs

/-- The edges of a graph have pairwise distinct unordered pairs, so an
unordered pair of a stored edge determines the stored triple. -/
lemma edges_same_eq (g : Graph) :
    ∀ a ∈ g.edges, ∀ b ∈ g.edges, sameEdgePair a b → a = b :=
  pairwise_same_eq g.edgesPairNodup

/-- `grafo[u][v]['weight']` reads back the stored weight of an edge, in
either orientation. -/
lemma weight_of_mem {g : Graph} {u v w : Nat}
    (h : (u, v, w) ∈ g.edges ∨ (v, u, w) ∈ g.edges) :
    g.weight u v = w := by
  have hex : ∃ e ∈ g.edges,
      ((e.1 == u && e.2.1 == v) || (e.1 == v && e.2.1 == u)) = true := by
    rcases h with h | h
    · exact ⟨(u, v, w), h, by simp⟩
    · exact ⟨(v, u, w), h, by simp⟩
  have hsome : (g.edges.find? (fun e =>
      (e.1 == u && e.2.1 == v) || (e.1 == v && e.2.1 == u))).isSome := by
    rw [List.find?_isSome]
    exact hex
  rcases Option.isSome_iff_exists.mp hsome with ⟨e0, he0⟩
  have hmem0 : e0 ∈ g.edges := List.mem_of_find?_eq_some he0
  have hp0 := List.find?_some he0
  simp only [Bool.or_eq_true, Bool.and_eq_true, beq_iff_eq] at hp0
  unfold Graph.weight
  rw [he0]
  rcases h with h | h
  · have : e0 = (u, v, w) := by
      apply edges_same_eq g e0 hmem0 (u, v, w) h
      unfold sameEdgePair
      rcases hp0 with ⟨h1, h2⟩ | ⟨h1, h2⟩
      · exact .inl ⟨h1, h2⟩
      · exact .inr ⟨h1, h2⟩
    rw [this]
  · have : e0 = (v, u, w) := by
      apply edges_same_eq g e0 hmem0 (v, u, w) h
      unfold sameEdgePair
      rcases hp0 with ⟨h1, h2⟩ | ⟨h1, h2⟩
      · exact .inr ⟨h1, h2⟩
      · exact .inl ⟨h1, h2⟩
    rw [this]

/-- `StepsL F a l b`: `l` lists the nodes strictly after `a` on a walk
from `a` to `b` through edges of `F`. -/
inductive StepsL (F : List (Nat × Nat × Nat)) : Nat → List Nat → Nat → Prop
  | nil (a : Nat) : StepsL F a [] a
  | cons {a b c : Nat} {l : List Nat} (hadj : AdjL F a b)
      (h : StepsL F b l c) : StepsL F a (b :: l) c

lemma connL_iff_steps {F : List (Nat × Nat × Nat)} {a b : Nat} :
    ConnL F a b ↔ ∃ l, StepsL F a l b := by
  constructor
  · intro h
    induction h using Relation.ReflTransGen.head_induction_on with
    | refl => exact ⟨[], StepsL.nil b⟩
    | head hadj _ ih =>
      rcases ih with ⟨l, hl⟩
      exact ⟨_ :: l, StepsL.cons hadj hl⟩
  · rintro ⟨l, hl⟩
    induction hl with
    | nil a => exact Relation.ReflTransGen.refl
    | cons hadj _ ih => exact Relation.ReflTransGen.head hadj ih

lemma steps_last_mem {F : List (Nat × Nat × Nat)} :
    ∀ {a l b}, StepsL F a l b → b ∈ a :: l := by
  intro a l b h
  induction h with
  | nil a => exact List.mem_cons_self a []
  | cons hadj h ih => exact List.mem_cons_of_mem _ ih

lemma steps_suffix {F : List (Nat × Nat × Nat)} :
    ∀ (l3 : List Nat) {x y : Nat} {l4 : List Nat} {c : Nat},
      StepsL F x (l3 ++ y :: l4) c → StepsL F y l4 c := by
  intro l3
  induction l3 with
  | nil =>
    intro x y l4 c h
    cases h with
    | cons hadj h2 => exact h2
  | cons z l3 ih =>
    intro x y l4 c h
    cases h with
    | cons hadj h2 => exact ih h2

/-- Every walk can be shortened to one visiting no node twice. -/
lemma steps_nodup {F : List (Nat × Nat × Nat)} :
    ∀ {a l b}, StepsL F a l b →
      ∃ l2, StepsL F a l2 b ∧ (a :: l2).Nodup := by
  intro a l b h
  induction h with
  | nil a => exact ⟨[], StepsL.nil a, by simp⟩
  | cons hadj h ih =>
    rename_i a b2 c l
    rcases ih with ⟨l2, hsteps, hnd⟩
    by_cases hmem : a ∈ b2 :: l2
    · rcases List.mem_cons.mp hmem with rfl | hmem2
      · exact ⟨l2, hsteps, hnd⟩
      · rcases List.mem_iff_append.mp hmem2 with ⟨l3, l4, rfl⟩
        refine ⟨l4, steps_suffix l3 hsteps, ?_⟩
        have hsuf : (a :: l4) <:+ b2 :: l3 ++ a :: l4 := by
          refine ⟨b2 :: l3, ?_⟩
          simp
        exact hnd.sublist hsuf.sublist
    · exact ⟨b2 :: l2, StepsL.cons hadj hsteps, List.nodup_cons.mpr ⟨hmem, hnd⟩⟩

/-- A walk from inside the cut to outside it decomposes at its first
crossing: a prefix entirely inside the cut, one crossing step, and a
suffix. -/
lemma steps_split_cross {F : List (Nat × Nat × Nat)} (C : Nat → Prop) :
    ∀ {a l b}, StepsL F a l b → C a → ¬ C b →
      ∃ x y l1 l2, a :: l = (a :: l1) ++ y :: l2 ∧
        StepsL F a l1 x ∧ (∀ z ∈ a :: l1, C z) ∧
        AdjL F x y ∧ ¬ C y ∧ StepsL F y l2 b := by
  intro a l b h
  induction h with
  | nil a => intro hC hnC; exact absurd hC hnC
  | cons hadj h ih =>
    rename_i a b2 c l
    intro hC hnC
    by_cases hb2 : C b2
    · rcases ih hb2 hnC with ⟨x, y, l1, l2, hdec, hsteps1, hin, hxy, hny, hsteps2⟩
      refine ⟨x, y, b2 :: l1, l2, ?_, StepsL.cons hadj hsteps1, ?_, hxy, hny,
        hsteps2⟩
      · rw [List.cons_append]
        exact congrArg (a :: ·) hdec
      · intro z hz
        rcases List.mem_cons.mp hz with rfl | hz2
        · exact hC
        · exact hin z hz2
    · refine ⟨a, b2, [], l, by simp, StepsL.nil a, ?_, hadj, hb2, h⟩
      intro z hz
      rw [List.mem_singleton] at hz
      exact hz ▸ hC

/-- A walk none of whose nodes is `z` survives the removal of any edge
with endpoint `z`. -/
lemma steps_erase {F : List (Nat × Nat × Nat)} {f : Nat × Nat × Nat} :
    ∀ {s l t}, StepsL F s l t → ∀ z, z ∉ s :: l →
      (f.1 = z ∨ f.2.1 = z) → StepsL (F.erase f) s l t := by
  intro s l t h
  induction h with
  | nil a => intro z _ _; exact StepsL.nil a
  | cons hadj h ih =>
    rename_i a b2 c l
    intro z hz hfz
    have hza : z ≠ a := by
      intro hh
      exact hz (by rw [hh]; exact List.mem_cons_self a _)
    have hzb : z ≠ b2 := by
      intro hh
      exact hz (by
        rw [hh]
        exact List.mem_cons_of_mem a (List.mem_cons_self b2 l))
    have hz2 : z ∉ b2 :: l := by
      intro hh
      exact hz (List.mem_cons_of_mem a hh)
    refine StepsL.cons ?_ (ih z hz2 hfz)
    rcases hadj with ⟨w, hw | hw⟩
    · refine ⟨w, .inl ((List.mem_erase_of_ne ?_).mpr hw)⟩
      intro hcon
      rcases hfz with h1 | h1
      · exact hza (by rw [← h1, ← hcon])
      · exact hzb (by rw [← h1, ← hcon])
    · refine ⟨w, .inr ((List.mem_erase_of_ne ?_).mpr hw)⟩
      intro hcon
      rcases hfz with h1 | h1
      · exact hzb (by rw [← h1, ← hcon])
      · exact hza (by rw [← h1, ← hcon])

/-- Every walk with nodes all inside the cut survives the removal of
any edge with an endpoint outside the cut. -/
lemma steps_erase_inside {F : List (Nat × Nat × Nat)} {f : Nat × Nat × Nat}
    {C : Nat → Prop} :
    ∀ {s l t}, StepsL F s l t → (∀ z ∈ s :: l, C z) →
      ∀ y, ¬ C y → (f.1 = y ∨ f.2.1 = y) → StepsL (F.erase f) s l t := by
  intro s l t h
  induction h with
  | nil a => intro _ y _ _; exact StepsL.nil a
  | cons hadj h ih =>
    rename_i a b2 c l
    intro hin y hny hfy
    have hCa : C a := hin a (List.mem_cons_self a _)
    have hCb : C b2 := hin b2 (List.mem_cons_of_mem a (List.mem_cons_self b2 l))
    refine StepsL.cons ?_ (ih (fun z hz => hin z (List.mem_cons_of_mem a hz))
      y hny hfy)
    rcases hadj with ⟨w, hw | hw⟩
    · refine ⟨w, .inl ((List.mem_erase_of_ne ?_).mpr hw)⟩
      intro hcon
      rcases hfy with h1 | h1
      · exact hny (h1 ▸ hcon ▸ hCa)
      · exact hny (h1 ▸ hcon ▸ hCb)
    · refine ⟨w, .inr ((List.mem_erase_of_ne ?_).mpr hw)⟩
      intro hcon
      rcases hfy with h1 | h1
      · exact hny (h1 ▸ hcon ▸ hCb)
      · exact hny (h1 ▸ hcon ▸ hCa)

/-- Connectivity survives swapping one edge out as long as its two
endpoints stay connected in the new list. -/
lemma connL_reroute {F G : List (Nat × Nat × Nat)} {f : Nat × Nat × Nat}
    (hsub : ∀ t ∈ F, t ≠ f → t ∈ G)
    (hbridge : ConnL G f.1 f.2.1) :
    ∀ {u v}, ConnL F u v → ConnL G u v := by
  intro u v h
  induction h with
  | refl => exact Relation.ReflTransGen.refl
  | tail hst hadj ih =>
    rename_i p q
    refine ih.trans ?_
    rcases hadj with ⟨w, hw | hw⟩
    · by_cases hcon : (p, q, w) = f
      · have h1 : p = f.1 := by rw [← hcon]
        have h2 : q = f.2.1 := by rw [← hcon]
        rw [h1, h2]
        exact hbridge
      · exact Relation.ReflTransGen.single ⟨w, .inl (hsub _ hw hcon)⟩
    · by_cases hcon : (q, p, w) = f
      · have h1 : q = f.1 := by rw [← hcon]
        have h2 : p = f.2.1 := by rw [← hcon]
        rw [h1, h2]
        exact connL_symm hbridge
      · exact Relation.ReflTransGen.single ⟨w, .inr (hsub _ hw hcon)⟩

/-- The exchange step: given a minimum spanning tree, a cut, and a
graph edge across the cut of weight at most that of every tree edge
across the cut, some minimum spanning tree contains that edge and every
non-crossing edge of the original tree. -/
lemma spanTree_exchange (g : Graph) (C : Nat → Prop)
    {T : List (Nat × Nat × Nat)} (hT : SpanTree g T)
    (hmin : ∀ T2, SpanTree g T2 → wsum T ≤ wsum T2)
    {e0 : Nat × Nat × Nat} {a b : Nat}
    (he0 : e0 ∈ g.edges)
    (hor : (e0.1 = a ∧ e0.2.1 = b) ∨ (e0.1 = b ∧ e0.2.1 = a))
    (ha : C a) (hb : ¬ C b) (han : a ∈ g.nodes) (hbn : b ∈ g.nodes)
    (hcross : ∀ f ∈ T, crossE C f → e0.2.2 ≤ f.2.2)
    (hnotin : e0 ∉ T) :
    ∃ T2, SpanTree g T2 ∧ (∀ T3, SpanTree g T3 → wsum T2 ≤ wsum T3) ∧
      e0 ∈ T2 ∧ (∀ t ∈ T, ¬ crossE C t → t ∈ T2) := by
  obtain ⟨hnd, hsubE, hspan, hlen⟩ := hT
  have hconn : ConnL T a b := hspan a han b hbn
  rcases connL_iff_steps.mp hconn with ⟨l0, hl0⟩
  rcases steps_nodup hl0 with ⟨l, hsteps, hndl⟩
  rcases steps_split_cross C hsteps ha hb with
    ⟨x, y, l1, l2, hdec, hpre, hinC, hxy, hny, hsuf⟩
  have hCx : C x := hinC x (steps_last_mem hpre)
  obtain ⟨f, hfT, hpairf⟩ : ∃ f, f ∈ T ∧
      ((f.1 = x ∧ f.2.1 = y) ∨ (f.1 = y ∧ f.2.1 = x)) := by
    rcases hxy with ⟨wf, hwf | hwf⟩
    · exact ⟨(x, y, wf), hwf, .inl ⟨rfl, rfl⟩⟩
    · exact ⟨(y, x, wf), hwf, .inr ⟨rfl, rfl⟩⟩
  have hfy : f.1 = y ∨ f.2.1 = y := by
    rcases hpairf with ⟨h1, h2⟩ | ⟨h1, h2⟩
    · exact .inr h2
    · exact .inl h1
  have hfx : f.1 = x ∨ f.2.1 = x := by
    rcases hpairf with ⟨h1, h2⟩ | ⟨h1, h2⟩
    · exact .inl h1
    · exact .inr h2
  have hcrossf : crossE C f := by
    rcases hpairf with ⟨h1, h2⟩ | ⟨h1, h2⟩
    · exact .inl ⟨h1 ▸ hCx, h2 ▸ hny⟩
    · exact .inr ⟨h2 ▸ hCx, h1 ▸ hny⟩
  have hwle : e0.2.2 ≤ f.2.2 := hcross f hfT hcrossf
  have hxnot : x ∉ y :: l2 := by
    rw [hdec] at hndl
    rcases List.nodup_append.mp hndl with ⟨h1, h2, hdisj⟩
    exact fun hcon => hdisj (steps_last_mem hpre) hcon
  have hpre2 : StepsL (T.erase f) a l1 x :=
    steps_erase_inside hpre hinC y hny hfy
  have hsuf2 : StepsL (T.erase f) y l2 b := steps_erase hsuf x hxnot hfx
  have hsubT2 : ∀ t ∈ T.erase f, t ∈ T.erase f ++ [e0] :=
    fun t ht => List.mem_append_left _ ht
  have he0T2 : e0 ∈ T.erase f ++ [e0] :=
    List.mem_append_right _ (List.mem_singleton.mpr rfl)
  have hax2 : ConnL (T.erase f ++ [e0]) a x :=
    connL_mono hsubT2 (connL_iff_steps.mpr ⟨l1, hpre2⟩)
  have hyb2 : ConnL (T.erase f ++ [e0]) y b :=
    connL_mono hsubT2 (connL_iff_steps.mpr ⟨l2, hsuf2⟩)
  have he0eq : e0 = (e0.1, e0.2.1, e0.2.2) := rfl
  have hab2 : ConnL (T.erase f ++ [e0]) a b := by
    refine Relation.ReflTransGen.single ⟨e0.2.2, ?_⟩
    rcases hor with ⟨h1, h2⟩ | ⟨h1, h2⟩
    · left
      rw [← h1, ← h2, ← he0eq]
      exact he0T2
    · right
      rw [← h1, ← h2, ← he0eq]
      exact he0T2
  have hxy2 : ConnL (T.erase f ++ [e0]) x y :=
    ((connL_symm hax2).trans hab2).trans (connL_symm hyb2)
  have hbridge : ConnL (T.erase f ++ [e0]) f.1 f.2.1 := by
    rcases hpairf with ⟨h1, h2⟩ | ⟨h1, h2⟩
    · rw [h1, h2]
      exact hxy2
    · rw [h1, h2]
      exact connL_symm hxy2
  have hsubT2w : ∀ t ∈ T, t ≠ f → t ∈ T.erase f ++ [e0] :=
    fun t ht htne => List.mem_append_left _ ((List.mem_erase_of_ne htne).mpr ht)
  have hspan2 : ∀ u ∈ g.nodes, ∀ v ∈ g.nodes,
      ConnL (T.erase f ++ [e0]) u v :=
    fun u hu v hv => connL_reroute hsubT2w hbridge (hspan u hu v hv)
  have hnd2 : (T.erase f ++ [e0]).Nodup := by
    rw [List.nodup_append]
    refine ⟨hnd.erase f, List.nodup_singleton e0, ?_⟩
    intro t ht hte0
    rw [List.mem_singleton] at hte0
    subst hte0
    exact hnotin (List.mem_of_mem_erase ht)
  have hsubE2 : ∀ t ∈ T.erase f ++ [e0], t ∈ g.edges := by
    intro t ht
    rcases List.mem_append.mp ht with h1 | h1
    · exact hsubE t (List.mem_of_mem_erase h1)
    · rw [List.mem_singleton] at h1
      exact h1 ▸ he0
  have hlenE : (T.erase f).length + 1 = T.length := by
    rw [List.length_erase_of_mem hfT]
    have : 0 < T.length := List.length_pos.mpr (List.ne_nil_of_mem hfT)
    omega
  have hlen2 : (T.erase f ++ [e0]).length + 1 = g.nodes.length := by
    rw [List.length_append, List.length_singleton]
    omega
  have hST2 : SpanTree g (T.erase f ++ [e0]) := ⟨hnd2, hsubE2, hspan2, hlen2⟩
  have hw2 : wsum (T.erase f ++ [e0]) = wsum (T.erase f) + e0.2.2 := by
    rw [wsum_append]
    simp [wsum]
  have hwT : wsum (T.erase f) + f.2.2 = wsum T := wsum_erase hfT
  have hgeT : wsum T ≤ wsum (T.erase f ++ [e0]) := hmin _ hST2
  have hweq : wsum (T.erase f ++ [e0]) = wsum T := by omega
  refine ⟨T.erase f ++ [e0], hST2, ?_, he0T2, ?_⟩
  · intro T3 h3
    rw [hweq]
    exact hmin T3 h3
  · intro t ht htnc
    have htne : t ≠ f := fun hcon => htnc (hcon ▸ hcrossf)
    exact hsubT2w t ht htne

/-- The exchange step packaged with the trivial case in which the new
edge is already in the tree. -/
lemma isMST_extend (g : Graph) (C : Nat → Prop)
    {T : List (Nat × Nat × Nat)} (hT : IsMST g T)
    {e0 : Nat × Nat × Nat} {a b : Nat}
    (he0 : e0 ∈ g.edges)
    (hor : (e0.1 = a ∧ e0.2.1 = b) ∨ (e0.1 = b ∧ e0.2.1 = a))
    (ha : C a) (hb : ¬ C b) (han : a ∈ g.nodes) (hbn : b ∈ g.nodes)
    (hcross : ∀ f ∈ T, crossE C f → e0.2.2 ≤ f.2.2) :
    ∃ T2, IsMST g T2 ∧ e0 ∈ T2 ∧ (∀ t ∈ T, ¬ crossE C t → t ∈ T2) := by
  by_cases hmem : e0 ∈ T
  · exact ⟨T, hT, hmem, fun t ht _ => ht⟩
  · rcases spanTree_exchange g C hT.1 hT.2 he0 hor ha hb han hbn hcross hmem
      with ⟨T2, h1, h2, h3, h4⟩
    exact ⟨T2, ⟨h1, h2⟩, h3, h4⟩

/-- Two equally long lists of pairwise-distinct unordered pairs, the
first matching into the second up to orientation, have equal total
weight. -/
lemma wsum_eq_of_matching :
    ∀ (A T : List (Nat × Nat × Nat)),
      A.Pairwise (fun e f => ¬ sameEdgePair e f) →
      T.Pairwise (fun e f => ¬ sameEdgePair e f) →
      (∀ e ∈ A, e ∈ T ∨ swapE e ∈ T) →
      A.length = T.length →
      wsum A = wsum T := by
  intro A
  induction A with
  | nil =>
    intro T _ _ _ hlen
    simp only [List.length_nil] at hlen
    have : T = [] := List.length_eq_zero.mp hlen.symm
    rw [this]
  | cons e A2 ih =>
    intro T hpwA hpwT hmatch hlen
    obtain ⟨t, htT, hts, htw⟩ : ∃ t, t ∈ T ∧ sameEdgePair t e ∧
        t.2.2 = e.2.2 := by
      rcases hmatch e (List.mem_cons_self e A2) with h | h
      · exact ⟨e, h, sameEdgePair_refl e, rfl⟩
      · exact ⟨swapE e, h, sameEdgePair_swapE e, rfl⟩
    rcases List.pairwise_cons.mp hpwA with ⟨hheadA, hpwA2⟩
    have hpwT2 : (T.erase t).Pairwise (fun e f => ¬ sameEdgePair e f) :=
      hpwT.sublist (List.erase_sublist t T)
    have hmatch2 : ∀ e2 ∈ A2, e2 ∈ T.erase t ∨ swapE e2 ∈ T.erase t := by
      intro e2 he2
      have hne : ¬ sameEdgePair e e2 := hheadA e2 he2
      rcases hmatch e2 (List.mem_cons_of_mem e he2) with h | h
      · refine .inl ((List.mem_erase_of_ne ?_).mpr h)
        intro hcon
        exact hne (sameEdgePair_shift hts (hcon ▸ sameEdgePair_refl e2))
      · refine .inr ((List.mem_erase_of_ne ?_).mpr h)
        intro hcon
        exact hne (sameEdgePair_shift hts (hcon ▸ sameEdgePair_swapE e2))
    have hlen2 : A2.length = (T.erase t).length := by
      rw [List.length_erase_of_mem htT]
      simp only [List.length_cons] at hlen
      omega
    have hrec := ih (T.erase t) hpwA2 hpwT2 hmatch2 hlen2
    have hwT : wsum (T.erase t) + t.2.2 = wsum T := wsum_erase htT
    unfold wsum at hrec hwT ⊢
    simp only [List.map_cons, List.sum_cons]
    omega

/-- A spanning tree candidate inherits pairwise-distinct unordered
pairs from the graph's edge list. -/
lemma spanTree_pairwise {g : Graph} {T : List (Nat × Nat × Nat)}
    (hT : SpanTree g T) :
    T.Pairwise (fun e f => ¬ sameEdgePair e f) := by
  obtain ⟨hnd, hsub, _, _⟩ := hT
  refine List.Pairwise.imp_of_mem ?_ hnd
  intro e f he hf hne hs
  exact hne (edges_same_eq g e (hsub e he) f (hsub f hf) hs)

/-- Any spanning tree candidate can be improved to a minimum one. -/
lemma exists_isMST (g : Graph) (h : ∃ T, SpanTree g T) :
    ∃ T, IsMST g T := by
  obtain ⟨T0, h0⟩ := h
  suffices hstep : ∀ n (T : List (Nat × Nat × Nat)),
      SpanTree g T → wsum T ≤ n → ∃ Tm, IsMST g Tm by
    exact hstep (wsum T0) T0 h0 (le_refl _)
  intro n
  induction n with
  | zero =>
    intro T hT hw
    refine ⟨T, hT, ?_⟩
    intro T2 _
    omega
  | succ n ihn =>
    intro T hT hw
    by_cases hmin : ∀ T2, SpanTree g T2 → wsum T ≤ wsum T2
    · exact ⟨T, hT, hmin⟩
    · push_neg at hmin
      obtain ⟨T2, h2, hlt⟩ := hmin
      exact ihn T2 h2 (by omega)

lemma applyUnions_append (ps1 ps2 : List (Nat × Nat)) :
    ∀ uf, applyUnions uf (ps1 ++ ps2) =
      applyUnions (applyUnions uf ps1) ps2 := by
  induction ps1 with
  | nil => intro uf; rfl
  | cons p rest ih =>
    intro uf
    exact ih (uf.unir p.1 p.2).2

lemma sameRoot_of_nClasses_one {uf : UnionFind} (hinv : UFInv uf)
    (h1 : nClasses uf = 1) {a b : Nat} (ha : a ∈ uf.elems)
    (hb : b ∈ uf.elems) : sameRoot uf.padre a b := by
  have heq : ufFind uf a = ufFind uf b :=
    all_eq_of_dedup_length_one h1 (ufFind uf a)
      (List.mem_map.mpr ⟨a, ha, rfl⟩) (ufFind uf b)
      (List.mem_map.mpr ⟨b, hb, rfl⟩)
  exact (ufFind_eq_iff hinv ha hb).mp heq

lemma unionChain_symm {pairs : List (Nat × Nat)} {a b : Nat}
    (h : UnionChain pairs a b) : UnionChain pairs b a := by
  induction h with
  | refl => exact Relation.ReflTransGen.refl
  | tail hst hstep ih =>
    refine Relation.ReflTransGen.head ?_ ih
    rcases hstep with h1 | h1
    · exact .inr h1
    · exact .inl h1

lemma unionChain_mono {ps1 ps2 : List (Nat × Nat)}
    (hsub : ∀ q ∈ ps1, q ∈ ps2) {a b : Nat} (h : UnionChain ps1 a b) :
    UnionChain ps2 a b := by
  induction h with
  | refl => exact Relation.ReflTransGen.refl
  | tail hst hstep ih =>
    refine ih.tail ?_
    rcases hstep with h1 | h1
    · exact .inl (hsub _ h1)
    · exact .inr (hsub _ h1)

/-- A union chain over the endpoint pairs of an edge list realizes
connectivity through that edge list. -/
lemma unionChain_connL (F : List (Nat × Nat × Nat)) {a b : Nat}
    (h : UnionChain (F.map (fun e => (e.1, e.2.1))) a b) : ConnL F a b := by
  induction h with
  | refl => exact Relation.ReflTransGen.refl
  | tail hst hstep ih =>
    refine ih.tail ?_
    rcases hstep with h1 | h1
    · rcases List.mem_map.mp h1 with ⟨e, he, hval⟩
      rw [Prod.mk.injEq] at hval
      obtain ⟨h2, h3⟩ := hval
      refine ⟨e.2.2, .inl ?_⟩
      rw [← h2, ← h3]
      exact he
    · rcases List.mem_map.mp h1 with ⟨e, he, hval⟩
      rw [Prod.mk.injEq] at hval
      obtain ⟨h2, h3⟩ := hval
      refine ⟨e.2.2, .inr ?_⟩
      rw [← h2, ← h3]
      exact he

/-- One component means every pair of nodes is connected. -/
lemma conn_of_componentsCount_one {g : Graph} (h1 : componentsCount g = 1) :
    ∀ u ∈ g.nodes, ∀ v ∈ g.nodes, g.Conn u v := by
  intro u hu v hv
  obtain ⟨he, hi, _⟩ := applyUnions_spec
    (g.edges.map (fun e => (e.1, e.2.1))) (UnionFind.make g.nodes)
    (make_inv g.nodes) (edgePairs_mem g)
  have helems : (ufOfGraph g).elems = g.nodes := by
    unfold ufOfGraph
    exact he
  have heq : canonRep g u = canonRep g v := by
    unfold componentsCount nClasses at h1
    exact all_eq_of_dedup_length_one h1 (canonRep g u)
      (List.mem_map.mpr ⟨u, helems.symm ▸ hu, rfl⟩) (canonRep g v)
      (List.mem_map.mpr ⟨v, helems.symm ▸ hv, rfl⟩)
  exact (canonRep_eq_iff_conn g hu hv).mp heq

/-- In the Union-Find state reached by uniting along the processed
edges, shared representatives convert to chains of accepted edges,
whenever every processed edge has its endpoints chained through the
accepted edges. -/
lemma partition_to_acc_chain {g : Graph} {done acc : List (Nat × Nat × Nat)}
    (hd : ∀ t ∈ done, t.2.1 ∈ g.nodes ∧ t.2.2 ∈ g.nodes)
    (hdone : ∀ t ∈ done,
      UnionChain (acc.map (fun e => (e.1, e.2.1))) t.2.1 t.2.2)
    {a b : Nat}
    (hsr : sameRoot (applyUnions (UnionFind.make g.nodes)
      (done.map (fun t => (t.2.1, t.2.2)))).padre a b) :
    UnionChain (acc.map (fun e => (e.1, e.2.1))) a b := by
  obtain ⟨_, _, hpart⟩ := applyUnions_spec
    (done.map (fun t => (t.2.1, t.2.2))) (UnionFind.make g.nodes)
    (make_inv g.nodes) (by
      intro q hq
      rcases List.mem_map.mp hq with ⟨t, ht, rfl⟩
      exact hd t ht)
  rw [hpart] at hsr
  refine rtg_closure ?_ hsr
  intro u v huv
  rcases huv with h | h | h
  · rw [sameRoot_make] at h
    exact h ▸ Relation.ReflTransGen.refl
  · rcases List.mem_map.mp h with ⟨t, ht, hval⟩
    rw [Prod.mk.injEq] at hval
    obtain ⟨h2, h3⟩ := hval
    rw [← h2, ← h3]
    exact hdone t ht
  · rcases List.mem_map.mp h with ⟨t, ht, hval⟩
    rw [Prod.mk.injEq] at hval
    obtain ⟨h2, h3⟩ := hval
    rw [← h2, ← h3]
    exact unionChain_symm (hdone t ht)

/-- Main Kruskal loop analysis on a connected graph: the accepted edges
chain every pair of nodes together, are distinct graph edges, their
weights sum to the returned total, and a minimum spanning tree through
all of them exists whenever one through the edges accepted so far
does. -/
lemma kruskalLoop_mst (g : Graph) (hc1 : componentsCount g = 1)
    (hne : g.nodes ≠ []) :
    ∀ (rest : List (Nat × Nat × Nat)) (uf : UnionFind)
      (done acc : List (Nat × Nat × Nat)) (total : Nat),
      uf = applyUnions (UnionFind.make g.nodes)
        (done.map (fun t => (t.2.1, t.2.2))) →
      (∀ t ∈ done, (t.2.1, t.2.2, t.1) ∈ g.edges) →
      (∀ t ∈ rest, (t.2.1, t.2.2, t.1) ∈ g.edges) →
      List.Sorted tripleLe rest →
      (∀ e ∈ g.edges, (e.2.2, e.1, e.2.1) ∈ done ∨
        (e.2.2, e.1, e.2.1) ∈ rest) →
      (∀ t ∈ done,
        UnionChain (acc.map (fun e => (e.1, e.2.1))) t.2.1 t.2.2) →
      (∀ e ∈ acc, (e.2.2, e.1, e.2.1) ∈ done) →
      (∀ e ∈ acc, e ∈ g.edges) →
      acc.Pairwise (fun e f => ¬ sameEdgePair e f) →
      total = wsum acc →
      acc.length + nClasses uf = g.nodes.length →
      (∀ a ∈ g.nodes, ∀ b ∈ g.nodes,
        UnionChain ((kruskalLoop g rest uf acc total).1.map
          (fun e => (e.1, e.2.1))) a b) ∧
      (∀ e ∈ (kruskalLoop g rest uf acc total).1, e ∈ g.edges) ∧
      (kruskalLoop g rest uf acc total).1.Pairwise
        (fun e f => ¬ sameEdgePair e f) ∧
      (kruskalLoop g rest uf acc total).2 =
        wsum (kruskalLoop g rest uf acc total).1 ∧
      ((∃ T, IsMST g T ∧ ∀ e ∈ acc, e ∈ T ∨ swapE e ∈ T) →
        ∃ T, IsMST g T ∧
          ∀ e ∈ (kruskalLoop g rest uf acc total).1,
            e ∈ T ∨ swapE e ∈ T) := by
  intro rest
  induction rest with
  | nil =>
    intro uf done acc total hufeq hdE hrE hsort hall hdone haccdone haccE hpw
      htot hcount
    have hdmem : ∀ q ∈ done.map (fun t => (t.2.1, t.2.2)),
        q.1 ∈ g.nodes ∧ q.2 ∈ g.nodes := by
      intro q hq
      rcases List.mem_map.mp hq with ⟨t, ht, rfl⟩
      exact g.edgesMem _ (hdE t ht)
    obtain ⟨helemsD, hinvD, hpartD⟩ := applyUnions_spec
      (done.map (fun t => (t.2.1, t.2.2))) (UnionFind.make g.nodes)
      (make_inv g.nodes) hdmem
    have hinv_uf : UFInv uf := by rw [hufeq]; exact hinvD
    have helems_uf : uf.elems = g.nodes := by rw [hufeq]; exact helemsD
    have hclasses : nClasses uf = 1 := by
      have hcongr : nClasses (applyUnions (UnionFind.make g.nodes)
          (done.map (fun t => (t.2.1, t.2.2)))) =
          nClasses (ufOfGraph g) := by
        unfold ufOfGraph
        apply nClasses_applyUnions_congr (make_inv g.nodes)
        · intro q
          constructor
          · intro hq
            rcases List.mem_map.mp hq with ⟨t, ht, rfl⟩
            exact List.mem_map.mpr ⟨(t.2.1, t.2.2, t.1), hdE t ht, rfl⟩
          · intro hq
            rcases List.mem_map.mp hq with ⟨e, he, rfl⟩
            rcases hall e he with hd | hr
            · exact List.mem_map.mpr ⟨(e.2.2, e.1, e.2.1), hd, rfl⟩
            · exact absurd hr (List.not_mem_nil _)
        · intro q hq
          rcases List.mem_map.mp hq with ⟨t, ht, rfl⟩
          exact g.edgesMem _ (hdE t ht)
      rw [hufeq, hcongr]
      exact hc1
    refine ⟨?_, haccE, hpw, htot, fun h => h⟩
    intro a ha b hb
    have hsr : sameRoot uf.padre a b :=
      sameRoot_of_nClasses_one hinv_uf hclasses
        (helems_uf.symm ▸ ha) (helems_uf.symm ▸ hb)
    rw [hufeq] at hsr
    exact partition_to_acc_chain (fun t2 ht2 => g.edgesMem _ (hdE t2 ht2))
      hdone hsr
  | cons t rest2 ih =>
    obtain ⟨w, u, v⟩ := t
    intro uf done acc total hufeq hdE hrE hsort hall hdone haccdone haccE hpw
      htot hcount
    have he0 : (u, v, w) ∈ g.edges := hrE (w, u, v) (List.mem_cons_self _ _)
    obtain ⟨hu, hv⟩ := g.edgesMem _ he0
    have hdmem : ∀ q ∈ done.map (fun t => (t.2.1, t.2.2)),
        q.1 ∈ g.nodes ∧ q.2 ∈ g.nodes := by
      intro q hq
      rcases List.mem_map.mp hq with ⟨t, ht, rfl⟩
      exact g.edgesMem _ (hdE t ht)
    obtain ⟨helemsD, hinvD, hpartD⟩ := applyUnions_spec
      (done.map (fun t => (t.2.1, t.2.2))) (UnionFind.make g.nodes)
      (make_inv g.nodes) hdmem
    have hinv_uf : UFInv uf := by rw [hufeq]; exact hinvD
    have helems_uf : uf.elems = g.nodes := by rw [hufeq]; exact helemsD
    have hu2 : u ∈ uf.elems := by rw [helems_uf]; exact hu
    have hv2 : v ∈ uf.elems := by rw [helems_uf]; exact hv
    obtain ⟨hflag, helems2, hinvu, hpart2⟩ := unir_spec hinv_uf hu2 hv2
    have hsr_of_done : ∀ t ∈ done, sameRoot uf.padre t.2.1 t.2.2 := by
      intro t ht
      rw [hufeq]
      exact (hpartD t.2.1 t.2.2).mpr (Relation.ReflTransGen.single
        (.inr (.inl (List.mem_map.mpr ⟨t, ht, rfl⟩))))
    have huf2 : (uf.unir u v).2 = applyUnions (UnionFind.make g.nodes)
        ((done ++ [(w, u, v)]).map (fun t => (t.2.1, t.2.2))) := by
      rw [List.map_append, applyUnions_append, ← hufeq]
      rfl
    have hdE2 : ∀ t ∈ done ++ [(w, u, v)],
        (t.2.1, t.2.2, t.1) ∈ g.edges := by
      intro t ht
      rcases List.mem_append.mp ht with h1 | h1
      · exact hdE t h1
      · rw [List.mem_singleton] at h1
        subst h1
        exact he0
    have hrE2 : ∀ t ∈ rest2, (t.2.1, t.2.2, t.1) ∈ g.edges :=
      fun t ht => hrE t (List.mem_cons_of_mem _ ht)
    rcases List.sorted_cons.mp hsort with ⟨hhead, hsort2⟩
    have hall2 : ∀ e ∈ g.edges, (e.2.2, e.1, e.2.1) ∈ done ++ [(w, u, v)] ∨
        (e.2.2, e.1, e.2.1) ∈ rest2 := by
      intro e he
      rcases hall e he with h1 | h1
      · exact .inl (List.mem_append_left _ h1)
      · rcases List.mem_cons.mp h1 with h2 | h2
        · refine .inl (List.mem_append_right _ ?_)
          rw [h2]
          exact List.mem_singleton.mpr rfl
        · exact .inr h2
    have hnc : ∀ m : Nat × Nat × Nat, sameRoot uf.padre m.1 m.2.1 →
        ¬ crossE (fun z => sameRoot uf.padre z u) m := by
      intro m hm hcf
      rcases hcf with ⟨h1, h2⟩ | ⟨h1, h2⟩
      · exact h2 (sameRoot_trans (sameRoot_symm hm) h1)
      · exact h2 (sameRoot_trans hm h1)
    simp only [kruskalLoop]
    cases hres : (uf.unir u v).1 with
    | false =>
      simp only [hres, Bool.false_eq_true, if_false]
      have hsr_uv : sameRoot uf.padre u v := hflag.mp hres
      have hdone2 : ∀ t ∈ done ++ [(w, u, v)],
          UnionChain (acc.map (fun e => (e.1, e.2.1))) t.2.1 t.2.2 := by
        intro t ht
        rcases List.mem_append.mp ht with h1 | h1
        · exact hdone t h1
        · rw [List.mem_singleton] at h1
          subst h1
          have hsr2 := hsr_uv
          rw [hufeq] at hsr2
          exact partition_to_acc_chain
            (fun t2 ht2 => g.edgesMem _ (hdE t2 ht2)) hdone hsr2
      have hcount2 : acc.length + nClasses (uf.unir u v).2 =
          g.nodes.length := by
        rw [nClasses_unir_false hinv_uf hu2 hv2 hres]
        exact hcount
      exact ih (uf.unir u v).2 (done ++ [(w, u, v)]) acc total huf2 hdE2 hrE2
        hsort2 hall2 hdone2
        (fun e he => List.mem_append_left _ (haccdone e he)) haccE hpw htot
        hcount2
    | true =>
      simp only [hres, if_true]
      have hnsr : ¬ sameRoot uf.padre u v := by
        intro hsr
        have hfl := hflag.mpr hsr
        rw [hres] at hfl
        exact absurd hfl (by simp)
      have hc := nClasses_unir_true hinv_uf hu2 hv2 hres
      have hdone2 : ∀ t ∈ done ++ [(w, u, v)],
          UnionChain ((acc ++ [(u, v, w)]).map (fun e => (e.1, e.2.1)))
            t.2.1 t.2.2 := by
        intro t ht
        rcases List.mem_append.mp ht with h1 | h1
        · refine unionChain_mono ?_ (hdone t h1)
          intro q hq
          rw [List.map_append]
          exact List.mem_append_left _ hq
        · rw [List.mem_singleton] at h1
          subst h1
          refine Relation.ReflTransGen.single (.inl ?_)
          exact List.mem_map.mpr ⟨(u, v, w),
            List.mem_append_right _ (List.mem_singleton.mpr rfl), rfl⟩
      have haccdone2 : ∀ e ∈ acc ++ [(u, v, w)],
          (e.2.2, e.1, e.2.1) ∈ done ++ [(w, u, v)] := by
        intro e he
        rcases List.mem_append.mp he with h1 | h1
        · exact List.mem_append_left _ (haccdone e h1)
        · rw [List.mem_singleton] at h1
          subst h1
          exact List.mem_append_right _ (List.mem_singleton.mpr rfl)
      have haccE2 : ∀ e ∈ acc ++ [(u, v, w)], e ∈ g.edges := by
        intro e he
        rcases List.mem_append.mp he with h1 | h1
        · exact haccE e h1
        · rw [List.mem_singleton] at h1
          subst h1
          exact he0
      have hpw2 : (acc ++ [(u, v, w)]).Pairwise
          (fun e f => ¬ sameEdgePair e f) := by
        rw [List.pairwise_append]
        refine ⟨hpw, List.pairwise_singleton _ _, ?_⟩
        intro e he f hf
        rw [List.mem_singleton] at hf
        subst hf
        intro hs
        have hsr_e : sameRoot uf.padre e.1 e.2.1 :=
          hsr_of_done (e.2.2, e.1, e.2.1) (haccdone e he)
        unfold sameEdgePair at hs
        dsimp only at hs
        rcases hs with ⟨h1, h2⟩ | ⟨h1, h2⟩
        · refine hnsr ?_
          rw [← h1, ← h2]
          exact hsr_e
        · refine hnsr (sameRoot_symm ?_)
          rw [← h1, ← h2]
          exact hsr_e
      have htot2 : total + w = wsum (acc ++ [(u, v, w)]) := by
        rw [wsum_append, htot]
        simp [wsum]
      have hmatch2 : (∃ T, IsMST g T ∧ ∀ e ∈ acc, e ∈ T ∨ swapE e ∈ T) →
          ∃ T, IsMST g T ∧
            ∀ e ∈ acc ++ [(u, v, w)], e ∈ T ∨ swapE e ∈ T := by
        rintro ⟨T, hT, hmT⟩
        have hcrossT : ∀ f ∈ T, crossE (fun z => sameRoot uf.padre z u) f →
            (u, v, w).2.2 ≤ f.2.2 := by
          intro f hfT hcf
          have hfE : f ∈ g.edges := hT.1.2.1 f hfT
          rcases hall f hfE with hfd | hfr
          · exact absurd hcf (hnc f (hsr_of_done (f.2.2, f.1, f.2.1) hfd))
          · rcases List.mem_cons.mp hfr with heq | hfr2
            · injection heq with hw1 h23
              show w ≤ f.2.2
              omega
            · have hle := hhead (f.2.2, f.1, f.2.1) hfr2
              unfold tripleLe at hle
              dsimp only at hle
              show w ≤ f.2.2
              omega
        obtain ⟨T2, hT2, he0T2, hkeep⟩ := isMST_extend g
          (fun z => sameRoot uf.padre z u) hT he0
          (show (((u, v, w).1 = u ∧ (u, v, w).2.1 = v) ∨
            ((u, v, w).1 = v ∧ (u, v, w).2.1 = u)) from .inl ⟨rfl, rfl⟩)
          (show sameRoot uf.padre u u from sameRoot_refl hinv_uf u)
          (show ¬ sameRoot uf.padre v u from
            fun h => hnsr (sameRoot_symm h)) hu hv hcrossT
        refine ⟨T2, hT2, ?_⟩
        intro e he
        rcases List.mem_append.mp he with h1 | h1
        · have hsr_e : sameRoot uf.padre e.1 e.2.1 :=
            hsr_of_done (e.2.2, e.1, e.2.1) (haccdone e h1)
          rcases hmT e h1 with h2 | h2
          · exact .inl (hkeep e h2 (hnc e hsr_e))
          · exact .inr (hkeep (swapE e) h2 (hnc (swapE e)
              (sameRoot_symm hsr_e)))
        · rw [List.mem_singleton] at h1
          subst h1
          exact .inl he0T2
      by_cases hbreak : (acc ++ [(u, v, w)]).length = g.nodes.length - 1
      · rw [if_pos hbreak]
        have h1cls : nClasses (uf.unir u v).2 = 1 := by
          simp only [List.length_append, List.length_singleton] at hbreak
          have hpos2 : 1 ≤ nClasses (uf.unir u v).2 := by
            apply nClasses_pos
            rw [helems2, helems_uf]
            exact hne
          omega
        refine ⟨?_, haccE2, hpw2, ?_, hmatch2⟩
        · intro a ha b hb
          have hsr : sameRoot (uf.unir u v).2.padre a b :=
            sameRoot_of_nClasses_one hinvu h1cls
              (by rw [helems2, helems_uf]; exact ha)
              (by rw [helems2, helems_uf]; exact hb)
          rw [huf2] at hsr
          exact partition_to_acc_chain
            (fun t2 ht2 => g.edgesMem _ (hdE2 t2 ht2)) hdone2 hsr
        · exact htot2
      · rw [if_neg hbreak]
        have hcount2 : (acc ++ [(u, v, w)]).length +
            nClasses (uf.unir u v).2 = g.nodes.length := by
          simp only [List.length_append, List.length_singleton]
          omega
        obtain ⟨c5, c4, c3, c2, c1⟩ := ih (uf.unir u v).2
          (done ++ [(w, u, v)]) (acc ++ [(u, v, w)]) (total + w) huf2 hdE2
          hrE2 hsort2 hall2 hdone2 haccdone2 haccE2 hpw2 htot2 hcount2
        exact ⟨c5, c4, c3, c2, fun h => c1 (hmatch2 h)⟩

/-- On a connected graph, Kruskal outputs a spanning tree candidate and
a total equal to the weight of some minimum spanning tree. -/
lemma kruskal_weight (g : Graph) (hc1 : componentsCount g = 1)
    (hne : g.nodes ≠ []) :
    SpanTree g (algoritmo_kruskal g).1 ∧
    ∃ T, IsMST g T ∧ (algoritmo_kruskal g).2 = wsum T := by
  have hV : g.nodes.length ≠ 0 := by
    intro h
    exact hne (List.length_eq_zero.mp h)
  have halg : algoritmo_kruskal g = kruskalLoop g
      ((g.edges.map (fun e => (e.2.2, e.1, e.2.1))).insertionSort tripleLe)
      (UnionFind.make g.nodes) [] 0 := by
    unfold algoritmo_kruskal
    rw [if_neg hV]
  have hperm : List.Perm
      ((g.edges.map (fun e => (e.2.2, e.1, e.2.1))).insertionSort tripleLe)
      (g.edges.map (fun e => (e.2.2, e.1, e.2.1))) :=
    List.perm_insertionSort tripleLe _
  have hrE : ∀ t ∈ (g.edges.map (fun e =>
      (e.2.2, e.1, e.2.1))).insertionSort tripleLe,
      (t.2.1, t.2.2, t.1) ∈ g.edges := by
    intro t ht
    rcases List.mem_map.mp (hperm.mem_iff.mp ht) with ⟨e, he, rfl⟩
    exact he
  have hmain := kruskalLoop_mst g hc1 hne
    ((g.edges.map (fun e => (e.2.2, e.1, e.2.1))).insertionSort tripleLe)
    (UnionFind.make g.nodes) [] [] 0 rfl
    (fun t ht => absurd ht (List.not_mem_nil t)) hrE
    (List.sorted_insertionSort tripleLe _)
    (fun e he => .inr (hperm.mem_iff.mpr (List.mem_map.mpr ⟨e, he, rfl⟩)))
    (fun t ht => absurd ht (List.not_mem_nil t))
    (fun e he => absurd he (List.not_mem_nil e))
    (fun e he => absurd he (List.not_mem_nil e))
    List.Pairwise.nil rfl
    (by rw [nClasses_make g.nodes g.nodesNodup]; simp)
  obtain ⟨c5, c4, c3, c2, c1⟩ := hmain
  rw [← halg] at c5 c4 c3 c2 c1
  have hnodupK : (algoritmo_kruskal g).1.Nodup := by
    refine List.Pairwise.imp ?_ c3
    intro e f h heq
    exact h (heq ▸ sameEdgePair_refl e)
  have hlenK : (algoritmo_kruskal g).1.length + 1 = g.nodes.length := by
    rw [kruskal_count g, hc1]
    omega
  have hspanK : SpanTree g (algoritmo_kruskal g).1 :=
    ⟨hnodupK, c4, fun a ha b hb => unionChain_connL _ (c5 a ha b hb), hlenK⟩
  obtain ⟨T0, hT0⟩ := exists_isMST g ⟨(algoritmo_kruskal g).1, hspanK⟩
  obtain ⟨T, hT, hmatchK⟩ := c1 ⟨T0, hT0,
    fun e he => absurd he (List.not_mem_nil e)⟩
  refine ⟨hspanK, T, hT, ?_⟩
  rw [c2]
  refine wsum_eq_of_matching _ T c3 (spanTree_pairwise hT.1) hmatchK ?_
  have := hT.1.2.2.2
  omega

lemma findMinTrip_min_key :
    ∀ (l : List (Nat × Nat × Option Nat)) (e : Nat × Nat × Option Nat),
      ∀ f ∈ e :: l, (findMinTrip e l).1 ≤ f.1 := by
  intro l
  induction l with
  | nil =>
    intro e f hf
    rw [List.mem_singleton] at hf
    rw [hf]
    simp [findMinTrip]
  | cons a rest ih =>
    intro e f hf
    simp only [findMinTrip]
    by_cases h : tripLt a e
    · rw [if_pos h]
      have hae : a.1 ≤ e.1 := by
        rcases h with h1 | ⟨h1, h2⟩ <;> omega
      rcases List.mem_cons.mp hf with h1 | h1
      · rw [h1]
        exact le_trans (ih a a (List.mem_cons_self a rest)) hae
      · rcases List.mem_cons.mp h1 with h2 | h2
        · rw [h2]
          exact ih a a (List.mem_cons_self a rest)
        · exact ih a f (List.mem_cons_of_mem a h2)
    · rw [if_neg h]
      have hea : e.1 ≤ a.1 := by
        have h2 : ¬ a.1 < e.1 := fun hlt => h (.inl hlt)
        omega
      rcases List.mem_cons.mp hf with h1 | h1
      · rw [h1]
        exact ih e e (List.mem_cons_self e rest)
      · rcases List.mem_cons.mp h1 with h2 | h2
        · rw [h2]
          exact le_trans (ih e e (List.mem_cons_self e rest)) hea
        · exact ih e f (List.mem_cons_of_mem e h2)

lemma heapPopP_min {l : List (Nat × Nat × Option Nat)}
    {m : Nat × Nat × Option Nat} {rest : List (Nat × Nat × Option Nat)}
    (h : heapPopP l = some (m, rest)) : ∀ e ∈ l, m.1 ≤ e.1 := by
  cases l with
  | nil => simp [heapPopP] at h
  | cons e tl =>
    simp only [heapPopP, Option.some.injEq, Prod.mk.injEq] at h
    obtain ⟨hm, _⟩ := h
    intro x hx
    rw [← hm]
    exact findMinTrip_min_key tl e x hx

lemma pushNeighbors_covers_exact (g : Graph) (u : Nat) :
    ∀ (ns vis : List Nat) (heap : List (Nat × Nat × Option Nat)),
      ∀ v ∈ ns, v ∉ vis →
        (g.weight u v, v, some u) ∈ pushNeighbors g u ns vis heap := by
  intro ns
  induction ns with
  | nil => intro vis heap v hv; exact absurd hv (List.not_mem_nil v)
  | cons x rest ih =>
    intro vis heap v hv hvv
    simp only [pushNeighbors]
    by_cases hx : x ∈ vis
    · rw [if_pos hx]
      rcases List.mem_cons.mp hv with h1 | h1
      · exact absurd (h1 ▸ hx) hvv
      · exact ih vis heap v h1 hvv
    · rw [if_neg hx]
      rcases List.mem_cons.mp hv with h1 | h1
      · subst h1
        exact pushNeighbors_mono g u rest vis _ _
          (List.mem_append_right _ (List.mem_singleton.mpr rfl))
      · exact ih vis _ v h1 hvv

/-- The weight-tracking invariant of the Prim loop: every frontier
entry records its true edge weight and a visited predecessor; every
edge out of the visited set has its exact entry present; accepted edges
join visited nodes, carry their true weight, and have pairwise distinct
unordered pairs. -/
def PrimInvW (g : Graph) (heap : List (Nat × Nat × Option Nat))
    (vis : List Nat) (mst : List (Nat × Nat × Nat)) : Prop :=
  (∀ e ∈ heap, ∃ p, e.2.2 = some p ∧ p ∈ vis ∧ g.Adj p e.2.1 ∧
    e.1 = g.weight p e.2.1) ∧
  (∀ x ∈ vis, ∀ y ∈ g.neighbors x, y ∉ vis →
    (g.weight x y, y, some x) ∈ heap) ∧
  (∀ e ∈ mst, e.1 ∈ vis ∧ e.2.1 ∈ vis ∧ g.Adj e.1 e.2.1 ∧
    e.2.2 = g.weight e.1 e.2.1) ∧
  mst.Pairwise (fun e f => ¬ sameEdgePair e f)

/-- Main Prim loop weight analysis: the returned total is the weight
sum of the returned edges, the returned edges have pairwise distinct
unordered pairs, and a minimum spanning tree through all of them exists
whenever one through the edges accepted so far does. -/
lemma primLoop_mst (g : Graph) :
    ∀ (fuel : Nat) (heap : List (Nat × Nat × Option Nat)) (vis : List Nat)
      (mst : List (Nat × Nat × Nat)) (total : Nat),
      PrimInvW g heap vis mst →
      total = wsum mst →
      (primLoop g fuel heap vis mst total).2 =
        wsum (primLoop g fuel heap vis mst total).1 ∧
      (primLoop g fuel heap vis mst total).1.Pairwise
        (fun e f => ¬ sameEdgePair e f) ∧
      ((∃ T, IsMST g T ∧ ∀ e ∈ mst, e ∈ T ∨ swapE e ∈ T) →
        ∃ T, IsMST g T ∧
          ∀ e ∈ (primLoop g fuel heap vis mst total).1,
            e ∈ T ∨ swapE e ∈ T) := by
  intro fuel
  induction fuel with
  | zero =>
    intro heap vis mst total hinv htot
    exact ⟨htot, hinv.2.2.2, fun h => h⟩
  | succ n ih =>
    intro heap vis mst total hinv htot
    obtain ⟨hent, hcov, hmst, hpw⟩ := hinv
    simp only [primLoop]
    by_cases hlt : vis.length < g.nodes.length
    · rw [if_pos hlt]
      cases hpop : heapPopP heap with
      | none => exact ⟨htot, hpw, fun h => h⟩
      | some pr =>
        obtain ⟨⟨w, u, prev⟩, heap1⟩ := pr
        obtain ⟨hmem, hlen, hsubheap⟩ := heapPopP_some hpop
        have hne_mem := heapPopP_some_ne hpop
        have hmin := heapPopP_min hpop
        dsimp only
        by_cases hu : u ∈ vis
        · rw [if_pos hu]
          refine ih heap1 vis mst total ⟨?_, ?_, hmst, hpw⟩ htot
          · intro e he
            exact hent e (hsubheap e he)
          · intro x hx y hy hyvis
            refine hne_mem _ (hcov x hx y hy hyvis) ?_
            intro hcon
            have : y = u := by
              have := congrArg (fun t => t.2.1) hcon
              exact this
            exact hyvis (this ▸ hu)
        · rw [if_neg hu]
          have hinvW2 : PrimInvW g
              (pushNeighbors g u (g.neighbors u) (u :: vis) heap1)
              (u :: vis) mst := by
            refine ⟨?_, ?_, ?_, hpw⟩
            · intro e he
              rcases pushNeighbors_mem g u (g.neighbors u) (u :: vis) heap1
                e he with h | ⟨v, hvn, _, hev⟩
              · obtain ⟨p, h1, h2, h3, h4⟩ := hent e (hsubheap e h)
                exact ⟨p, h1, List.mem_cons_of_mem u h2, h3, h4⟩
              · refine ⟨u, ?_, List.mem_cons_self u vis, ?_, ?_⟩
                · rw [hev]
                · rw [hev]
                  exact neighbors_adj hvn
                · rw [hev]
            · intro x hx y hy hyvis
              rcases List.mem_cons.mp hx with h1 | h1
              · subst h1
                exact pushNeighbors_covers_exact g x (g.neighbors x)
                  (x :: vis) heap1 y hy hyvis
              · have hyvis2 : y ∉ vis := fun hh =>
                  hyvis (List.mem_cons_of_mem u hh)
                refine pushNeighbors_mono g u (g.neighbors u) (u :: vis)
                  heap1 _ (hne_mem _ (hcov x h1 y hy hyvis2) ?_)
                intro hcon
                have hyu : y = u := by
                  have := congrArg (fun t => t.2.1) hcon
                  exact this
                exact hyvis (hyu ▸ List.mem_cons_self u vis)
            · intro e he
              obtain ⟨h1, h2, h3, h4⟩ := hmst e he
              exact ⟨List.mem_cons_of_mem u h1, List.mem_cons_of_mem u h2,
                h3, h4⟩
          cases prev with
          | none =>
            dsimp only
            exact ih _ (u :: vis) mst total hinvW2 htot
          | some p =>
            dsimp only
            obtain ⟨p0, hp0eq, hp0vis, hp0adj, hp0w⟩ :=
              hent (w, u, some p) hmem
            have hpp0 : p = p0 := by
              have h6 := hp0eq
              simp only [Option.some.injEq] at h6
              exact h6
            subst hpp0
            have hpn : p ∈ g.nodes := (adj_mem hp0adj).1
            have hun : u ∈ g.nodes := (adj_mem hp0adj).2
            have hmst2 : ∀ e ∈ mst ++ [(p, u, w)],
                e.1 ∈ u :: vis ∧ e.2.1 ∈ u :: vis ∧ g.Adj e.1 e.2.1 ∧
                e.2.2 = g.weight e.1 e.2.1 := by
              intro e he
              rcases List.mem_append.mp he with h1 | h1
              · obtain ⟨h2, h3, h4, h5⟩ := hmst e h1
                exact ⟨List.mem_cons_of_mem u h2, List.mem_cons_of_mem u h3,
                  h4, h5⟩
              · rw [List.mem_singleton] at h1
                subst h1
                exact ⟨List.mem_cons_of_mem u hp0vis,
                  List.mem_cons_self u vis, hp0adj, hp0w⟩
            have hpw2 : (mst ++ [(p, u, w)]).Pairwise
                (fun e f => ¬ sameEdgePair e f) := by
              rw [List.pairwise_append]
              refine ⟨hpw, List.pairwise_singleton _ _, ?_⟩
              intro e he f hf
              rw [List.mem_singleton] at hf
              subst hf
              intro hs
              obtain ⟨h1, h2, _, _⟩ := hmst e he
              unfold sameEdgePair at hs
              dsimp only at hs
              rcases hs with ⟨h3, h4⟩ | ⟨h3, h4⟩
              · exact hu (h4 ▸ h2)
              · exact hu (h3 ▸ h1)
            have htot2 : total + w = wsum (mst ++ [(p, u, w)]) := by
              rw [wsum_append, htot]
              simp [wsum]
            have hmatch2 : (∃ T, IsMST g T ∧
                ∀ e ∈ mst, e ∈ T ∨ swapE e ∈ T) →
                ∃ T, IsMST g T ∧
                  ∀ e ∈ mst ++ [(p, u, w)], e ∈ T ∨ swapE e ∈ T := by
              rintro ⟨T, hT, hmT⟩
              have hnc : ∀ m : Nat × Nat × Nat, m.1 ∈ vis → m.2.1 ∈ vis →
                  ¬ crossE (fun z => z ∈ vis) m := by
                intro m h1 h2 hcf
                rcases hcf with ⟨h3, h4⟩ | ⟨h3, h4⟩
                · exact h4 h2
                · exact h4 h1
              have hcrossT : ∀ f ∈ T, crossE (fun z => z ∈ vis) f →
                  w ≤ f.2.2 := by
                intro f hfT hcf
                have hfE : f ∈ g.edges := hT.1.2.1 f hfT
                have hfE2 : (f.1, f.2.1, f.2.2) ∈ g.edges := hfE
                rcases hcf with ⟨h1, h2⟩ | ⟨h1, h2⟩
                · have hyn : f.2.1 ∈ g.neighbors f.1 :=
                    adj_neighbors ⟨f.2.2, .inl hfE2⟩
                  have hin := hcov f.1 h1 f.2.1 hyn h2
                  have hle := hmin _ hin
                  have hwf : g.weight f.1 f.2.1 = f.2.2 :=
                    weight_of_mem (.inl hfE2)
                  dsimp only at hle
                  omega
                · have hyn : f.1 ∈ g.neighbors f.2.1 :=
                    adj_neighbors ⟨f.2.2, .inr hfE2⟩
                  have hin := hcov f.2.1 h1 f.1 hyn h2
                  have hle := hmin _ hin
                  have hwf : g.weight f.2.1 f.1 = f.2.2 :=
                    weight_of_mem (.inr hfE2)
                  dsimp only at hle
                  omega
              rcases hp0adj with ⟨w0, hor0⟩
              have hw0 : w0 = w := by
                have h5 := weight_of_mem hor0
                omega
              subst hw0
              rcases hor0 with hE | hE
              · obtain ⟨T2, hT2, he0T2, hkeep⟩ := isMST_extend g
                  (fun z => z ∈ vis) hT hE
                  (show (((p, u, w0).1 = p ∧ (p, u, w0).2.1 = u) ∨
                    ((p, u, w0).1 = u ∧ (p, u, w0).2.1 = p))
                    from .inl ⟨rfl, rfl⟩)
                  (show p ∈ vis from hp0vis) (show u ∉ vis from hu)
                  hpn hun hcrossT
                refine ⟨T2, hT2, ?_⟩
                intro e he
                rcases List.mem_append.mp he with h1 | h1
                · obtain ⟨h2, h3, _, _⟩ := hmst e h1
                  rcases hmT e h1 with h4 | h4
                  · exact .inl (hkeep e h4 (hnc e h2 h3))
                  · exact .inr (hkeep (swapE e) h4 (hnc (swapE e) h3 h2))
                · rw [List.mem_singleton] at h1
                  subst h1
                  exact .inl he0T2
              · obtain ⟨T2, hT2, he0T2, hkeep⟩ := isMST_extend g
                  (fun z => z ∈ vis) hT hE
                  (show (((u, p, w0).1 = p ∧ (u, p, w0).2.1 = u) ∨
                    ((u, p, w0).1 = u ∧ (u, p, w0).2.1 = p))
                    from .inr ⟨rfl, rfl⟩)
                  (show p ∈ vis from hp0vis) (show u ∉ vis from hu)
                  hpn hun hcrossT
                refine ⟨T2, hT2, ?_⟩
                intro e he
                rcases List.mem_append.mp he with h1 | h1
                · obtain ⟨h2, h3, _, _⟩ := hmst e h1
                  rcases hmT e h1 with h4 | h4
                  · exact .inl (hkeep e h4 (hnc e h2 h3))
                  · exact .inr (hkeep (swapE e) h4 (hnc (swapE e) h3 h2))
                · rw [List.mem_singleton] at h1
                  subst h1
                  exact .inr he0T2
            have hinvW3 : PrimInvW g
                (pushNeighbors g u (g.neighbors u) (u :: vis) heap1)
                (u :: vis) (mst ++ [(p, u, w)]) :=
              ⟨hinvW2.1, hinvW2.2.1, hmst2, hpw2⟩
            obtain ⟨c2, c3, c1⟩ := ih
              (pushNeighbors g u (g.neighbors u) (u :: vis) heap1)
              (u :: vis) (mst ++ [(p, u, w)]) (total + w) hinvW3 htot2
            exact ⟨c2, c3, fun h => c1 (hmatch2 h)⟩
    · rw [if_neg hlt]
      exact ⟨htot, hpw, fun h => h⟩

/-- Prim's returned total is the weight sum of its accepted edges,
those edges have pairwise distinct unordered pairs, and (given any
minimum spanning tree exists) some minimum spanning tree contains them
all. -/
lemma prim_weight (g : Graph) (s : Nat) (hs : s ∈ g.nodes)
    (hmst0 : ∃ T, IsMST g T) :
    (algoritmo_prim g (some s)).2 = wsum (algoritmo_prim g (some s)).1 ∧
    (algoritmo_prim g (some s)).1.Pairwise
      (fun e f => ¬ sameEdgePair e f) ∧
    ∃ T, IsMST g T ∧
      ∀ e ∈ (algoritmo_prim g (some s)).1, e ∈ T ∨ swapE e ∈ T := by
  have hne : g.nodes.length ≠ 0 := by
    intro h
    rw [List.length_eq_zero.mp h] at hs
    exact absurd hs (List.not_mem_nil s)
  unfold algoritmo_prim
  rw [if_neg hne]
  obtain ⟨m, hm⟩ : ∃ m, loopFuel g 1 [] = m + 1 := by
    refine ⟨loopFuel g 1 [] - 1, ?_⟩
    unfold loopFuel
    omega
  rw [hm]
  have hpop1 : heapPopP [(0, s, none)] = some ((0, s, none), []) := by
    simp [heapPopP, findMinTrip, List.erase_cons_head]
  simp only [primLoop, hpop1]
  rw [if_pos (by simpa using Nat.pos_of_ne_zero hne)]
  rw [if_neg (List.not_mem_nil s)]
  have hinv1 : PrimInvW g (pushNeighbors g s (g.neighbors s) [s] [])
      [s] [] := by
    refine ⟨?_, ?_, ?_, List.Pairwise.nil⟩
    · intro e he
      rcases pushNeighbors_mem g s (g.neighbors s) [s] [] e he with
        h | ⟨v, hvn, _, hev⟩
      · exact absurd h (List.not_mem_nil e)
      · refine ⟨s, ?_, List.mem_cons_self s [], ?_, ?_⟩
        · rw [hev]
        · rw [hev]
          exact neighbors_adj hvn
        · rw [hev]
    · intro x hx y hy hyvis
      rw [List.mem_singleton.mp hx] at hy ⊢
      exact pushNeighbors_covers_exact g s (g.neighbors s) [s] [] y hy hyvis
    · intro e he
      exact absurd he (List.not_mem_nil e)
  obtain ⟨c2, c3, c1⟩ := primLoop_mst g m
    (pushNeighbors g s (g.neighbors s) [s] []) [s] [] 0 hinv1 rfl
  refine ⟨c2, c3, ?_⟩
  rcases hmst0 with ⟨T0, hT0⟩
  exact c1 ⟨T0, hT0, fun e he => absurd he (List.not_mem_nil e)⟩

/-- In a one-component graph, every node's component is everything. -/
lemma componentSize_eq_of_conn (g : Graph) (s : Nat) (hs : s ∈ g.nodes)
    (hc1 : componentsCount g = 1) :
    componentSize g s = g.nodes.length := by
  unfold componentSize
  rw [List.filter_eq_self.mpr ?_]
  intro v hv
  simp only [beq_iff_eq]
  exact (canonRep_eq_iff_conn g hv hs).mpr
    (conn_of_componentsCount_one hc1 v hv s hs)

lemma headD_mem {l : List Nat} (h : l ≠ []) : l.headD 0 ∈ l := by
  cases l with
  | nil => exact absurd rfl h
  | cons a tl => exact List.mem_cons_self a tl

/-- C5. On a connected graph (one component), the total weight returned
by `algoritmo_prim` — from any start node, or from the default start —
equals the total weight returned by `algoritmo_kruskal`: both equal the
weight of a minimum spanning tree. -/
theorem mst_weight_equivalence (g : Graph) (s : Nat) (hs : s ∈ g.nodes)
    (hc1 : componentsCount g = 1) :
    (algoritmo_prim g (some s)).2 = (algoritmo_kruskal g).2 ∧
    (algoritmo_prim g none).2 = (algoritmo_kruskal g).2 := by
  have hne : g.nodes ≠ [] := List.ne_nil_of_mem hs
  have hmain : ∀ t ∈ g.nodes, (algoritmo_prim g (some t)).2 =
      (algoritmo_kruskal g).2 := by
    intro t ht
    obtain ⟨hspanK, Tk, hTk, hkw⟩ := kruskal_weight g hc1 hne
    obtain ⟨c2, c3, Tp, hTp, hmatchP⟩ := prim_weight g t ht ⟨Tk, hTk⟩
    have hlenP : (algoritmo_prim g (some t)).1.length + 1 =
        g.nodes.length := by
      rw [prim_count g t ht, componentSize_eq_of_conn g t ht hc1]
    have hlenT : Tp.length + 1 = g.nodes.length := hTp.1.2.2.2
    have hPT : wsum (algoritmo_prim g (some t)).1 = wsum Tp :=
      wsum_eq_of_matching _ Tp c3 (spanTree_pairwise hTp.1) hmatchP
        (by omega)
    have hTT : wsum Tp = wsum Tk :=
      le_antisymm (hTp.2 Tk hTk.1) (hTk.2 Tp hTp.1)
    rw [c2, hPT, hTT, hkw]
  refine ⟨hmain s hs, ?_⟩
  have hdef : algoritmo_prim g none =
      algoritmo_prim g (some (g.nodes.headD 0)) := rfl
  rw [hdef]
  exact hmain (g.nodes.headD 0) (headD_mem hne)

/-- C5 (witness): Prim (explicit and default start) and Kruskal agree
on the connected 3-node example graph. -/
theorem mst_weight_equivalence_witness :
    0 ∈ gABC.nodes ∧ componentsCount gABC = 1 ∧
    ((algoritmo_prim gABC (some 0)).2 = (algoritmo_kruskal gABC).2 ∧
     (algoritmo_prim gABC none).2 = (algoritmo_kruskal gABC).2) :=
  ⟨by decide, by decide, mst_weight_equivalence gABC 0 (by decide) (by decide)⟩
